import Mathlib

/-!
# ea_receiver: framer, CRC validator and symbol slicer

A shallow embedding of `src/ea_receiver.c`.

* Machine integers are natural numbers; every store into a `uint8_t`,
  `uint16_t` or `uint64_t` object is followed by the matching `% 2^w`
  wherever the stored value could exceed the width.
* The `static` locals of `on_symbol` together with the global `g` form the
  record `Framer`; `on_symbol` becomes a function from a state and a symbol
  to the next state and the event of that call.
* The message buffer is a function from indices to bytes.  The framer only
  ever indexes it with the 8-bit counter `byte`.
* `validate_crc` reads `msg[len-2]` and `msg[len-1]`.  For `len < 2` these
  reads fall in front of the buffer; the program text does not determine
  their value, so the embedding returns `none` there and `on_message`
  reports a `fault` event.
* The discriminator output (`float angle`) is used by the slicer only through
  the sign of `angle * last_angle` and of `last_angle`; phase deltas are
  modelled as integers carrying that sign.
-/

namespace EaReceiver

/-! ## Constants (the `#define`s of the source) -/

abbrev MODE_1 : Nat := 0
abbrev MODE_2 : Nat := 1
abbrev MODE_1_SPS : Nat := 1125
abbrev MODE_2_SPS : Nat := 281
abbrev MODE_1_PREAMBLE : Nat := 0xAAAAAAAA55A59AA6
abbrev MODE_2_PREAMBLE : Nat := 0xAAAAAAAA9A99A656
abbrev MODE_1_XOR_KEY : Nat := 0x55
abbrev MODE_2_XOR_KEY : Nat := 0xAA
abbrev NOISE_THRESHOLD : Nat := 5
abbrev STATE_SEARCHING : Nat := 0
abbrev STATE_RECEIVING_MSG_LEN : Nat := 1
abbrev STATE_RECEIVING_MSG : Nat := 2

/-- Number of elements of `static uint8_t msg[UINT16_MAX]`. -/
abbrev MSG_CAPACITY : Nat := 65535

/-! ## CRC -/

/-- One pass of the inner loop body of `crc_ccitt` for bit `j` of `b`:
`k = crc & 1; crc >>= 1; if (msg[i] & (1 << j)) k ^= 1; if (k) crc ^= poly`. -/
def crc_bit (b : Nat) (crc j : Nat) : Nat :=
  let k := crc &&& 1
  let crc := crc >>> 1
  let k := if b &&& (1 <<< j) ≠ 0 then k ^^^ 1 else k
  if k ≠ 0 then crc ^^^ 0x8408 else crc

/-- The inner loop `for (j = 0; j < 8; j++)` of `crc_ccitt` on one byte. -/
def crc_byte (crc b : Nat) : Nat :=
  (List.range 8).foldl (crc_bit b) crc

/-- The function `crc_ccitt(uint8_t *msg, uint8_t len)`.  The parameter `len`
is a `uint8_t`, so whatever the caller passes is reduced modulo 256. -/
def crc_ccitt (msg : Nat → Nat) (len : Nat) : Nat :=
  ((List.range (len % 256)).foldl (fun crc i => crc_byte crc (msg i)) 0xFFFF) ^^^ 0xFFFF

/-- The function `validate_crc(uint8_t *msg, uint16_t len)`.  `none` when
`len < 2`, where `msg[len-2]` is read in front of the buffer. -/
def validate_crc (msg : Nat → Nat) (len : Nat) : Option Bool :=
  if len < 2 then none
  else
    let calculated_crc := crc_ccitt msg (len - 2)
    let expected_crc := (msg (len - 2) ||| (msg (len - 1) <<< 8)) % 65536
    some (calculated_crc == expected_crc)

/-- What one call of `on_symbol` did with `on_message`. -/
inductive Event where
  /-- `on_message` was not called. -/
  | idle
  /-- `on_message(msg, len)` was called and the CRC did not match: nothing printed. -/
  | rejected (len : Nat)
  /-- `on_message` was called, the CRC matched and these bytes were printed. -/
  | emitted (frame : List Nat)
  /-- `on_message(msg, len)` was called with `len < 2`. -/
  | fault (len : Nat)
  deriving DecidableEq, Repr

/-- The function `on_message(uint8_t *msg, uint16_t len)`. -/
def on_message (msg : Nat → Nat) (len : Nat) : Event :=
  match validate_crc msg len with
  | none => Event.fault len
  | some true => Event.emitted ((List.range len).map msg)
  | some false => Event.rejected len

/-- The function `validate_crc` with the memory in front of the buffer made
explicit: `before k` is the byte at `msg[-k]`.  When `len < 2` the difference
`len - 2` is negative, `crc_ccitt` receives it as a `uint8_t` (254 or 255),
and `msg[len-2]` (for `len = 0` also `msg[len-1]`) is read in front of
`msg`. -/
def validate_crc_mem (before msg : Nat → Nat) (len : Nat) : Bool :=
  let calculated_crc := crc_ccitt msg ((len + 254) % 256)
  let expected_crc :=
    ((if len < 2 then before (2 - len) else msg (len - 2)) |||
      ((if len < 1 then before (1 - len) else msg (len - 1)) <<< 8)) % 65536
  calculated_crc == expected_crc

/-- The function `on_message` with the memory in front of the buffer made
explicit: the `len` bytes `msg[0..len-1]` are printed when the check passes. -/
def on_message_mem (before msg : Nat → Nat) (len : Nat) : Event :=
  if validate_crc_mem before msg len then Event.emitted ((List.range len).map msg)
  else Event.rejected len

/-! ## Framer -/

/-- The global `g` and the `static` locals of `on_symbol`. -/
structure Framer where
  /-- `g.mode` -/
  mode : Nat
  /-- `g.state` -/
  state : Nat
  /-- `static uint8_t bit` -/
  bit : Nat
  /-- `static uint8_t byte` -/
  byte : Nat
  /-- `static uint64_t history` -/
  history : Nat
  /-- `static uint16_t msg_len` -/
  msg_len : Nat
  /-- `static uint8_t msg[UINT16_MAX]` -/
  msg : Nat → Nat
  /-- `static bool toggle` -/
  toggle : Bool
  /-- `static uint8_t xor_key` -/
  xor_key : Nat

/-- Zero-initialised static storage: the state before the first symbol. -/
def init : Framer :=
  { mode := 0, state := 0, bit := 0, byte := 0, history := 0, msg_len := 0,
    msg := fun _ => 0, toggle := false, xor_key := 0 }

/-- The function `reset()`. -/
def reset (s : Framer) : Framer :=
  { s with mode := MODE_1, state := STATE_SEARCHING }

/-- The assignment `msg[i] = v`. -/
def write (msg : Nat → Nat) (i v : Nat) : Nat → Nat :=
  fun k => if k = i then v else msg k

/-- The function `on_symbol(uint8_t symbol)`. -/
def on_symbol (s : Framer) (symbol : Nat) : Framer × Event :=
  if s.state = STATE_SEARCHING then
    let history := ((s.history <<< 1) ||| symbol) % 2 ^ 64
    if history = MODE_1_PREAMBLE then
      ({ s with history := history, mode := MODE_1, state := STATE_RECEIVING_MSG_LEN,
                bit := 0, byte := 0, msg_len := 0, toggle := true,
                xor_key := MODE_1_XOR_KEY }, Event.idle)
    else if history = MODE_2_PREAMBLE then
      ({ s with history := history, mode := MODE_2, state := STATE_RECEIVING_MSG_LEN,
                bit := 0, byte := 0, msg_len := 0, toggle := true,
                xor_key := MODE_2_XOR_KEY }, Event.idle)
    else
      ({ s with history := history }, Event.idle)
  else if s.state = STATE_RECEIVING_MSG_LEN then
    if s.toggle = true ∨ s.mode = MODE_2 then
      let shifted := ((s.msg s.byte <<< 1) ||| symbol) % 256
      if s.bit < 7 then
        ({ s with msg := write s.msg s.byte shifted, bit := s.bit + 1,
                  toggle := !s.toggle }, Event.idle)
      else
        let msg := write s.msg s.byte ((shifted ^^^ s.xor_key) % 256)
        if s.mode = MODE_1 then
          ({ s with msg := msg, msg_len := (msg s.byte + 2) % 65536, bit := 0,
                    byte := (s.byte + 1) % 256, state := STATE_RECEIVING_MSG,
                    toggle := !s.toggle }, Event.idle)
        else if s.byte = 1 then
          ({ s with msg := msg,
                    msg_len := (((msg 0 <<< 8) ||| msg 1) % 65536 + 2) % 65536,
                    state := STATE_RECEIVING_MSG, bit := 0,
                    byte := (s.byte + 1) % 256, toggle := !s.toggle }, Event.idle)
        else
          ({ s with msg := msg, bit := 0, byte := (s.byte + 1) % 256,
                    toggle := !s.toggle }, Event.idle)
    else
      ({ s with toggle := !s.toggle }, Event.idle)
  else if s.state = STATE_RECEIVING_MSG then
    if s.toggle = true ∨ s.mode = MODE_2 then
      let shifted := ((s.msg s.byte <<< 1) ||| symbol) % 256
      if s.bit < 7 then
        ({ s with msg := write s.msg s.byte shifted, bit := s.bit + 1,
                  toggle := !s.toggle }, Event.idle)
      else
        let msg := write s.msg s.byte ((shifted ^^^ s.xor_key) % 256)
        let byte := (s.byte + 1) % 256
        if byte = s.msg_len then
          ({ reset { s with msg := msg, bit := 0, byte := byte } with
               toggle := !s.toggle }, on_message msg s.msg_len)
        else
          ({ s with msg := msg, bit := 0, byte := byte, toggle := !s.toggle }, Event.idle)
    else
      ({ s with toggle := !s.toggle }, Event.idle)
  else
    (s, Event.idle)

/-- The framer state after the symbols `bits` have been delivered in order. -/
def feed (s : Framer) : List Nat → Framer
  | [] => s
  | b :: bs => feed (on_symbol s b).1 bs

/-- The events of the successive `on_symbol` calls for `bits`. -/
def events (s : Framer) : List Nat → List Event
  | [] => []
  | b :: bs => (on_symbol s b).2 :: events (on_symbol s b).1 bs

/-- The frame printed by an event, if any. -/
def Event.frame? : Event → Option (List Nat)
  | Event.emitted f => some f
  | _ => none

/-- The frames printed while the symbols `bits` are delivered. -/
def frames (s : Framer) (bits : List Nat) : List (List Nat) :=
  (events s bits).filterMap Event.frame?

/-! ## Symbol slicer -/

/-- The function `calc_symbol_count(uint8_t sample_count)`, with `g.mode`
passed as `mode`.  The parameter is a `uint8_t`, so the caller's 16-bit run
length is reduced modulo 256; the result is a `uint32_t` cast to `uint8_t`. -/
def calc_symbol_count (mode : Nat) (sample_count : Nat) : Nat :=
  let sample_count := sample_count % 256
  let symbol_count :=
    if mode = MODE_1 then ((sample_count * 1000 / MODE_1_SPS) + 5) / 10
    else ((sample_count * 1000 / MODE_2_SPS) + 5) / 10
  (symbol_count % 2 ^ 32) % 256

/-- The locals of `run` that the slicer keeps between samples, together with
the framer. -/
structure Slicer where
  /-- The framer (`g` and the statics of `on_symbol`). -/
  framer : Framer
  /-- `uint16_t sample_count` -/
  sample_count : Nat
  /-- `uint8_t noise_count` -/
  noise_count : Nat
  /-- `float last_angle`, as an integer of the same sign -/
  last_angle : Int

/-- The slicer before the first sample. -/
def slicer_init : Slicer :=
  { framer := init, sample_count := 0, noise_count := 0, last_angle := 0 }

/-- The body of the sample loop of `run` from `if (angle * last_angle > 0.0f)`
to `last_angle = angle`, for one phase delta `angle`; the events are those of
the `on_symbol` calls it makes. -/
def slice (high_symbol low_symbol : Nat) (st : Slicer) (angle : Int) : Slicer × List Event :=
  if angle * st.last_angle > 0 then
    ({ st with sample_count := (st.sample_count + 1) % 65536, noise_count := 0,
               last_angle := angle }, [])
  else
    let symbol := if st.last_angle > 0 then high_symbol else low_symbol
    let symbol_count := calc_symbol_count st.framer.mode st.sample_count
    if symbol_count ≠ 0 then
      ({ st with framer := feed st.framer (List.replicate symbol_count symbol),
                 sample_count := 1, last_angle := angle },
       events st.framer (List.replicate symbol_count symbol))
    else if st.framer.state > STATE_SEARCHING then
      if (st.noise_count + 1) % 256 > NOISE_THRESHOLD then
        ({ st with framer := reset st.framer, noise_count := 0, sample_count := 1,
                   last_angle := angle }, [])
      else
        ({ st with noise_count := (st.noise_count + 1) % 256, sample_count := 1,
                   last_angle := angle }, [])
    else
      ({ st with sample_count := 1, last_angle := angle }, [])

/-- The slicer after the phase deltas `angles`. -/
def slicer_feed (high_symbol low_symbol : Nat) (st : Slicer) : List Int → Slicer
  | [] => st
  | a :: as => slicer_feed high_symbol low_symbol (slice high_symbol low_symbol st a).1 as

/-- The events of all `on_symbol` calls made for the phase deltas `angles`. -/
def slicer_events (high_symbol low_symbol : Nat) (st : Slicer) : List Int → List Event
  | [] => []
  | a :: as => (slice high_symbol low_symbol st a).2 ++
      slicer_events high_symbol low_symbol (slice high_symbol low_symbol st a).1 as

/-- The symbols one pass of the sample loop hands to `on_symbol`: none when
the phase delta continues the run, otherwise `symbol_count` copies of the
symbol of the run that ends. -/
def delivered (high_symbol low_symbol : Nat) (st : Slicer) (angle : Int) : List Nat :=
  if angle * st.last_angle > 0 then []
  else List.replicate (calc_symbol_count st.framer.mode st.sample_count)
    (if st.last_angle > 0 then high_symbol else low_symbol)

/-- All symbols handed to `on_symbol` for the phase deltas `angles`, in order. -/
def slicer_delivered (high_symbol low_symbol : Nat) (st : Slicer) : List Int → List Nat
  | [] => []
  | a :: as => delivered high_symbol low_symbol st a ++
      slicer_delivered high_symbol low_symbol (slice high_symbol low_symbol st a).1 as

/-- The framer states the program can reach: the zero-initialised statics,
then any calls of `on_symbol` and `reset`. -/
inductive Reachable : Framer → Prop where
  /-- The state before the first call. -/
  | init : Reachable init
  /-- A call `on_symbol(b)`. -/
  | step (s : Framer) (b : Nat) : Reachable s → Reachable (on_symbol s b).1
  /-- A call `reset()`. -/
  | reset (s : Framer) : Reachable s → Reachable (reset s)

/-! ## Phase discriminator -/

/-- A float value with its sign bit kept apart from its magnitude, so that
`+0` and `-0` differ.  Magnitudes are whole multiples of a fixed unit and
the operations below are exact: they are the IEEE operations wherever those
do not round, as on the values `0`, `1` and `-1` of the bytes 127, 254 and 0. -/
structure Flt where
  /-- The sign bit. -/
  neg : Bool
  /-- The magnitude. -/
  mag : Nat
  deriving DecidableEq, Repr

/-- The value as an integer (signed zeros both give 0). -/
def Flt.val (x : Flt) : Int :=
  if x.neg then -(x.mag : Int) else (x.mag : Int)

/-- Negation flips the sign bit. -/
def Flt.fneg (x : Flt) : Flt :=
  { x with neg := !x.neg }

/-- Product: the sign bits are XORed. -/
def Flt.fmul (x y : Flt) : Flt :=
  { neg := xor x.neg y.neg, mag := x.mag * y.mag }

/-- Sum in round-to-nearest: a zero sum is `-0` only when both operands are
negative zeros. -/
def Flt.fadd (x y : Flt) : Flt :=
  if x.val + y.val = 0 then { neg := x.neg && y.neg, mag := 0 }
  else { neg := decide (x.val + y.val < 0), mag := (x.val + y.val).natAbs }

/-- Difference `x - y = x + (-y)`. -/
def Flt.fsub (x y : Flt) : Flt :=
  x.fadd y.fneg

/-- The table entry `u8f_table[i]`: `f = i; f -= INT8_MAX; f /= INT8_MAX`, in
units of 1/127.  The table has the 255 entries 0..254. -/
def u8f_table (i : Nat) : Flt :=
  { neg := decide (i < 127), mag := if i < 127 then 127 - i else i - 127 }

/-- The function `cu8_to_cf`: real and imaginary part. -/
def cu8_to_cf (i q : Nat) : Flt × Flt :=
  (u8f_table i, u8f_table q)

/-- The sign of `atan2f(y, x)`: that of `y` when `y` is not zero; for `y = ±0`
the result is `±π` when `x` is negative or `-0`, and `±0` otherwise. -/
def atan2f_sign (y x : Flt) : Int :=
  if y.mag ≠ 0 then (if y.neg then -1 else 1)
  else if x.neg then (if y.neg then -1 else 1)
  else 0

/-- The sign of `calc_angle(new, old)`: `d = new * conj(old)` with
`conj(old) = c + (-d)i`, then `atan2f(cimagf(d), crealf(d))`. -/
def calc_angle (new old : Flt × Flt) : Int :=
  atan2f_sign
    ((new.1.fmul old.2.fneg).fadd (new.2.fmul old.1))
    ((new.1.fmul old.1).fsub (new.2.fmul old.2.fneg))

/-- The phase discriminator on byte pairs:
`calc_angle(cu8_to_cf(new), cu8_to_cf(old))`. -/
def discriminator (new old : Nat × Nat) : Int :=
  calc_angle (cu8_to_cf new.1 new.2) (cu8_to_cf old.1 old.2)

/-! ## Sample loop -/

/-- Number of samples read at a time per channel. -/
abbrev BLOCK_SIZE : Nat := 16384

/-- The symbol that `run` assigns to a run of positive phase deltas: 0 for an
even number of channels, 1 for an odd one. -/
def high_symbol (num_channels : Nat) : Nat :=
  if num_channels % 2 = 0 then 0 else 1

/-- The symbol that `run` assigns to a run of non-positive phase deltas. -/
def low_symbol (num_channels : Nat) : Nat :=
  if num_channels % 2 = 0 then 1 else 0

/-- The inner loop header `for (i = 0; i < n; i += num_channels)` on a block
of `n` pairs: the pairs at `i = 0, C, 2C, ...`; the first argument bounds the
number of iterations. -/
def decimateAux (num_channels : Nat) : Nat → List (Nat × Nat) → List (Nat × Nat)
  | 0, _ => []
  | _ + 1, [] => []
  | fuel + 1, x :: xs => x :: decimateAux num_channels fuel (xs.drop (num_channels - 1))

/-- The pairs of one block that the loop body handles; a block of `n` pairs
needs at most `n` iterations. -/
def decimate (num_channels : Nat) (block : List (Nat × Nat)) : List (Nat × Nat) :=
  decimateAux num_channels block.length block

/-- The successive results of `fread(samples, 2, block_size, input)` until it
returns 0; the first argument bounds the number of reads. -/
def blocksAux (block_size : Nat) : Nat → List (Nat × Nat) → List (List (Nat × Nat))
  | 0, _ => []
  | _ + 1, [] => []
  | fuel + 1, x :: xs =>
      (x :: xs).take block_size :: blocksAux block_size fuel ((x :: xs).drop block_size)

/-- The blocks read from an input of IQ byte pairs; with a positive block
size every read consumes a pair, so the length of the input bounds the number
of reads, and with block size 0 the first read returns 0. -/
def blocks (block_size : Nat) (input : List (Nat × Nat)) : List (List (Nat × Nat)) :=
  if block_size = 0 then [] else blocksAux block_size input.length input

/-- All pairs that the loop body of `run` handles, in order. -/
def processed (num_channels : Nat) (input : List (Nat × Nat)) : List (Nat × Nat) :=
  (blocks (BLOCK_SIZE * num_channels) input).flatMap (decimate num_channels)

/-- The locals of `run` kept between samples: the slicer and `last_sample`
(as the byte pair it was converted from). -/
structure Receiver where
  /-- The slicer and the framer. -/
  slicer : Slicer
  /-- `float complex last_sample` -/
  last_sample : Nat × Nat

/-- The receiver before the first sample; `last_sample = 0.0f` is the
conversion of the pair `(127, 127)`. -/
def receiver_init : Receiver :=
  { slicer := slicer_init, last_sample := (127, 127) }

/-- The loop body of `run` for one pair.  `ang new old` stands for the sign
of `calc_angle(cu8_to_cf(new), cu8_to_cf(old))`, which the source computes in
floating point. -/
def sample_step (ang : Nat × Nat → Nat × Nat → Int) (high_symbol low_symbol : Nat)
    (r : Receiver) (x : Nat × Nat) : Receiver × List Event :=
  ({ slicer := (slice high_symbol low_symbol r.slicer (ang x r.last_sample)).1,
     last_sample := x },
   (slice high_symbol low_symbol r.slicer (ang x r.last_sample)).2)

/-- The loop body applied to the pairs `xs` in order. -/
def run_samples (ang : Nat × Nat → Nat × Nat → Int) (high_symbol low_symbol : Nat)
    (r : Receiver) : List (Nat × Nat) → Receiver × List Event
  | [] => (r, [])
  | x :: xs =>
      ((run_samples ang high_symbol low_symbol
          (sample_step ang high_symbol low_symbol r x).1 xs).1,
       (sample_step ang high_symbol low_symbol r x).2 ++
         (run_samples ang high_symbol low_symbol
           (sample_step ang high_symbol low_symbol r x).1 xs).2)

/-- The function `run()` with the two symbol labels given: the final state
and the events of all `on_symbol` calls. -/
def run_with (ang : Nat × Nat → Nat × Nat → Int) (high_symbol low_symbol num_channels : Nat)
    (input : List (Nat × Nat)) : Receiver × List Event :=
  run_samples ang high_symbol low_symbol receiver_init (processed num_channels input)

/-- The function `run()`: the labels come from the parity of `num_channels`. -/
def run (ang : Nat × Nat → Nat × Nat → Int) (num_channels : Nat)
    (input : List (Nat × Nat)) : Receiver × List Event :=
  run_with ang (high_symbol num_channels) (low_symbol num_channels) num_channels input

/-- The frames printed by a run. -/
def run_frames (ang : Nat × Nat → Nat × Nat → Int) (num_channels : Nat)
    (input : List (Nat × Nat)) : List (List Nat) :=
  (run ang num_channels input).2.filterMap Event.frame?

/-! ## Test-vector encoders -/

/-- The eight bits of a byte, most significant first. -/
def bitsMSB (w : Nat) : List Nat :=
  [7, 6, 5, 4, 3, 2, 1, 0].map (fun i => (w >>> i) % 2)

/-- The 64 bits of a preamble+syncword, most significant first. -/
def preambleBits (p : Nat) : List Nat :=
  (List.range 64).map (fun i => (p >>> (63 - i)) % 2)

/-- Manchester coding: each data bit becomes two half-bits, the first of
which carries the data bit and the second its complement. -/
def manchester (bits : List Nat) : List Nat :=
  bits.flatMap (fun b => [b, 1 - b])

/-- The bits on the wire for the bytes `bs` whitened with `key`, MSB first. -/
def wireBits (key : Nat) (bs : List Nat) : List Nat :=
  bs.flatMap (fun b => bitsMSB (b ^^^ key))

/-- The buffer holding the bytes of a list (zero elsewhere). -/
def ofList (bs : List Nat) : Nat → Nat :=
  fun i => bs.getD i 0

/-- CRC of a list of at most 255 bytes, through `crc_ccitt`. -/
def crcOf (bs : List Nat) : Nat :=
  crc_ccitt (ofList bs) bs.length

/-! ## Auxiliary definitions used in the proofs -/

/-- The register update of `crc_bit` as a function of the input bit. -/
def crcStep (t : Bool) (crc : Nat) : Nat :=
  if (crc % 2 = 1) = (t = false) then crc / 2 ^^^ 0x8408 else crc / 2

/-- One bit of the CRC as section 4.6 of the specification words it: `k` is
`(crc & 1) XOR bit`, the register is shifted right by one and XORed with
`0x8408` when `k` is 1. -/
def crc16_spec_bit (crc bit : Nat) : Nat :=
  let k := (crc &&& 1) ^^^ bit
  let crc := crc >>> 1
  if k = 1 then crc ^^^ 0x8408 else crc

/-- The eight bits of one byte, least significant first, through
`crc16_spec_bit`. -/
def crc16_spec_byte (crc b : Nat) : Nat :=
  (List.range 8).foldl (fun c j => crc16_spec_bit c ((b >>> j) % 2)) crc

/-- The CRC-16 of a byte sequence of any length as the specification words
it: initial register `0xFFFF`, every byte LSB-first, final XOR `0xFFFF`. -/
def crc16_spec (bs : List Nat) : Nat :=
  (bs.foldl crc16_spec_byte 0xFFFF) ^^^ 0xFFFF

/-- The invariant of the framer states reachable from `init`. -/
structure Inv (s : Framer) : Prop where
  /-- `byte` is an 8-bit counter. -/
  byte_lt : s.byte < 256
  /-- `bit` never exceeds 7. -/
  bit_le : s.bit ≤ 7
  /-- `g.mode` is one of the two modes. -/
  mode_le : s.mode ≤ 1
  /-- `g.state` is one of the three states. -/
  state_le : s.state ≤ 2
  /-- `msg_len` is a 16-bit value. -/
  len_lt : s.msg_len < 65536
  /-- Every buffer element is a byte. -/
  msg_lt : ∀ i, s.msg i < 256
  /-- In Mode 1 the length comes from one byte. -/
  len_mode1 : s.mode = MODE_1 → s.msg_len ≤ 257
  /-- The Mode 1 length byte is received at position 0. -/
  recvlen1 : s.state = STATE_RECEIVING_MSG_LEN → s.mode = MODE_1 → s.byte = 0
  /-- The Mode 2 length bytes are received at positions 0 and 1. -/
  recvlen2 : s.state = STATE_RECEIVING_MSG_LEN → s.mode = MODE_2 → s.byte ≤ 1
  /-- While a Mode 1 body that can complete is received, the length byte is
  intact and the position is before the end. -/
  body1 : s.state = STATE_RECEIVING_MSG → s.mode = MODE_1 →
    256 ≤ s.msg_len ∨ (1 ≤ s.byte ∧ s.byte < s.msg_len ∧ s.msg_len = s.msg 0 + 2)
  /-- While a Mode 2 body that completes before the position wraps is
  received, the length bytes are intact and the position is before the end. -/
  body2 : s.state = STATE_RECEIVING_MSG → s.mode = MODE_2 →
    s.msg_len ≤ 2 ∨ 256 ≤ s.msg_len ∨
      (2 ≤ s.byte ∧ s.byte < s.msg_len ∧ s.msg_len = s.msg 0 * 256 + s.msg 1 + 2)

/-- The buffer after the eighth bit of a byte: `msg[byte]` shifted, joined
with the symbol and XORed with `xor_key`. -/
def stored (s : Framer) (b : Nat) : Nat → Nat :=
  write s.msg s.byte (((((s.msg s.byte <<< 1) ||| b) % 256) ^^^ s.xor_key) % 256)

/-- The guard of the receiving states: the symbol is shifted into the
current byte when `toggle || g.mode == MODE_2`. -/
def consumes (s : Framer) : Bool :=
  decide ((s.state = STATE_RECEIVING_MSG_LEN ∨ s.state = STATE_RECEIVING_MSG) ∧
    (s.toggle = true ∨ s.mode = MODE_2))

/-- The framer right after the Mode 1 preamble+syncword. -/
def afterPreamble1 : Framer := feed init (preambleBits MODE_1_PREAMBLE)

/-- The framer right after the Mode 2 preamble+syncword. -/
def afterPreamble2 : Framer := feed init (preambleBits MODE_2_PREAMBLE)

/-- The Mode 1 line symbols of the frame `04 01 02 03 c5 d5` up to, but not
including, the half-bit that carries its last data bit. -/
def sampleBody1 : List Nat :=
  manchester (wireBits MODE_1_XOR_KEY [4, 1, 2, 3, 197]) ++ manchester [1, 0, 0, 0, 0, 0, 0]

/-- The byte being assembled after the symbols `l` have been shifted into
a byte that held `v`. -/
def accum (v : Nat) (l : List Nat) : Nat :=
  l.foldl (fun v b => ((v <<< 1) ||| b) % 256) v

/-- The line symbols of one data bit: two Manchester half-bits in Mode 1,
the bit itself in Mode 2. -/
def sym (m b : Nat) : List Nat :=
  if m = MODE_1 then [b, 1 - b] else [b]

/-- The line symbols of a sequence of data bits in mode `m`. -/
def line (m : Nat) (bits : List Nat) : List Nat :=
  bits.flatMap (sym m)

/-- The buffer after the bytes `vs` have been stored from index `k` on. -/
def writeList (buf : Nat → Nat) (k : Nat) : List Nat → Nat → Nat
  | [] => buf
  | v :: vs => writeList (write buf k v) (k + 1) vs

/-- The framer is in state `st` and mode `m` with key `key` and length `n`,
at bit `j` of byte `k`, ready to consume the next symbol, and its buffer is
`buf`. -/
structure At (s : Framer) (st m key n k j : Nat) (buf : Nat → Nat) : Prop where
  /-- The state tag. -/
  state_eq : s.state = st
  /-- The mode. -/
  mode_eq : s.mode = m
  /-- The whitening key. -/
  key_eq : s.xor_key = key
  /-- The frame length. -/
  len_eq : s.msg_len = n
  /-- The byte position. -/
  byte_eq : s.byte = k
  /-- The bit position. -/
  bit_eq : s.bit = j
  /-- In Mode 1 the next symbol is a first half-bit. -/
  gate : m = MODE_1 → s.toggle = true
  /-- The buffer. -/
  msg_eq : s.msg = buf

/-- The seven leading bits of a byte, most significant first. -/
def bitsHigh (w : Nat) : List Nat :=
  [7, 6, 5, 4, 3, 2, 1].map (fun i => (w >>> i) % 2)

/-- The byte stored for the wire byte `w` under the key `key`. -/
def dewhiten (w key : Nat) : Nat :=
  ((w % 256) ^^^ key) % 256

/-- Every phase delta of the list ends the run before it: it is not of the
same sign as its predecessor (`prev` for the first one). -/
def flips (prev : Int) : List Int → Bool
  | [] => true
  | d :: ds => !decide (d * prev > 0) && flips d ds

/-- A slicer right after the Mode 1 preamble+syncword, two samples into a
run of positive phase deltas. -/
def sampleSlicer : Slicer :=
  { framer := afterPreamble1, sample_count := 2, noise_count := 0, last_angle := 1 }

/-- The Mode 2 line symbols of a frame that declares the length `0xFFFE`:
the two length bytes, 253 zero bytes, and the seven leading bits of one more
zero byte. -/
def overflowBody : List Nat :=
  wireBits MODE_2_XOR_KEY ([0xFF, 0xFE] ++ List.replicate 253 0) ++
    bitsHigh (0 ^^^ MODE_2_XOR_KEY)

/-- The number written by a bit sequence, oldest bit most significant. -/
def bitsValue (l : List Nat) : Nat :=
  l.foldl (fun a b => 2 * a + b) 0

/-- The 64 most recently delivered bits of a sequence, as a number. -/
def window64 (l : List Nat) : Nat :=
  bitsValue (l.drop (l.length - 64))

/-- The 64 most recently delivered bits exist and equal `p`. -/
def endsWith64 (p : Nat) (l : List Nat) : Prop :=
  64 ≤ l.length ∧ window64 l = p

/-- The slicer state with the sign of `last_angle` reversed. -/
def mirror (st : Slicer) : Slicer :=
  { st with last_angle := -st.last_angle }

/-- The input stream of `groups`: every pair followed by its fillers. -/
def interleave (groups : List ((Nat × Nat) × List (Nat × Nat))) : List (Nat × Nat) :=
  groups.flatMap (fun g => g.1 :: g.2)

/-- Four points of the unit circle as IQ byte pairs: `1`, `i`, `-1`, `-i`. -/
def constellation (phase : Nat) : Nat × Nat :=
  if phase % 4 = 0 then (254, 127)
  else if phase % 4 = 1 then (127, 254)
  else if phase % 4 = 2 then (0, 127)
  else (127, 0)

/-- The samples of a signal that starts after `phase` and advances by the
given number of quarter turns from each sample to the next. -/
def walk : Nat → List Nat → List (Nat × Nat)
  | _, [] => []
  | phase, t :: ts => constellation ((phase + t) % 4) :: walk ((phase + t) % 4) ts

/-- Frequency-shift keying: every symbol lasts `n` samples, each a quarter
turn forward for a 1 and a quarter turn backward for a 0. -/
def symbolSteps (n : Nat) (symbols : List Nat) : List Nat :=
  symbols.flatMap (fun b => List.replicate n (if b = 1 then 1 else 3))

/-- The symbols of the Mode 1 frame `04 01 02 03 c5 d5` with its
preamble+syncword, and one more symbol that ends the last run. -/
def sampleSymbols : List Nat :=
  preambleBits MODE_1_PREAMBLE ++
    manchester (wireBits MODE_1_XOR_KEY [4, 1, 2, 3, 197, 213]) ++ [1]

/-- The frame of `sampleSymbols` at 11 samples per symbol. -/
def sampleIQ : List (Nat × Nat) :=
  walk 0 (symbolSteps 11 sampleSymbols)

/-- The signal of `sampleIQ` with step 16 (inside the second symbol, a 0)
replaced by a half turn from `-1` to `1`. -/
def jumpIQ : List (Nat × Nat) :=
  walk 0 ((symbolSteps 11 sampleSymbols).set 16 2)

/-- The complex conjugate of a sample in its byte form: `Q - 127` changes
sign. -/
def conj_sample (x : Nat × Nat) : Nat × Nat :=
  (x.1, 254 - x.2)

/-- The invariant that makes the label of a run with `last_angle = 0`
irrelevant: such a run delivers no symbol. -/
def ZeroRunSilent (st : Slicer) : Prop :=
  st.last_angle = 0 → calc_symbol_count st.framer.mode st.sample_count = 0

/-- The phase deltas the slicer sees for the samples `xs` processed after
`last`. -/
def deltas (ang : Nat × Nat → Nat × Nat → Int) (last : Nat × Nat) :
    List (Nat × Nat) → List Int
  | [] => []
  | x :: xs => ang x last :: deltas ang x xs

/-- The Mode 2 line symbols of a frame that declares the length `0xFFFF`:
the two length bytes, 251 zero bytes, the bytes `b6 4a 00`, and the seven
leading bits of the byte `42`. -/
def wrapBody : List Nat :=
  wireBits MODE_2_XOR_KEY ([0xFF, 0xFF] ++ (List.replicate 251 0 ++ [0xB6, 0x4A])) ++
    wireBits MODE_2_XOR_KEY [0] ++ bitsHigh (0x42 ^^^ MODE_2_XOR_KEY)

/-! ## CRC: bounds, injectivity and sensitivity to a single bit -/

theorem and_one_shiftLeft_ne_zero (b j : Nat) :
    b &&& (1 <<< j) ≠ 0 ↔ b.testBit j = true := by
  rw [Nat.one_shiftLeft]
  constructor
  · intro h
    obtain ⟨i, hi⟩ := Nat.ne_zero_implies_bit_true h
    rw [Nat.testBit_and, Bool.and_eq_true, Nat.testBit_two_pow] at hi
    have hji : j = i := by simpa using hi.2
    rw [hji]
    exact hi.1
  · intro h h0
    have h1 : (b &&& 2 ^ j).testBit j = true := by
      rw [Nat.testBit_and, h, Nat.testBit_two_pow_self]
      rfl
    rw [h0] at h1
    simp at h1

theorem crc_bit_eq (b crc j : Nat) : crc_bit b crc j = crcStep (b.testBit j) crc := by
  unfold crc_bit crcStep
  simp only [Nat.and_one_is_mod, Nat.shiftRight_one, and_one_shiftLeft_ne_zero]
  rcases Nat.mod_two_eq_zero_or_one crc with h | h <;> cases hb : b.testBit j <;> simp [h]

theorem xor_poly_lt (x : Nat) (h : x < 32768) : x ^^^ 0x8408 < 65536 :=
  Nat.xor_lt_two_pow (n := 16) (by omega) (by decide)

theorem xor_poly_ge (x : Nat) (h : x < 32768) : 32768 ≤ x ^^^ 0x8408 := by
  have h1 : (x ^^^ 0x8408).testBit 15 = true := by
    rw [Nat.testBit_xor, Nat.testBit_lt_two_pow (i := 15) (by simpa using h)]
    decide
  simpa using Nat.testBit_implies_ge h1

theorem xor_poly_inj (x y : Nat) (h : x ^^^ 0x8408 = y ^^^ 0x8408) : x = y := by
  have h1 : (x ^^^ 0x8408) ^^^ 0x8408 = (y ^^^ 0x8408) ^^^ 0x8408 := by rw [h]
  simpa [Nat.xor_assoc] using h1

theorem crcStep_lt (t : Bool) (c : Nat) (h : c < 65536) : crcStep t c < 65536 := by
  unfold crcStep
  split
  · exact xor_poly_lt _ (by omega)
  · omega

theorem crcStep_inj (t : Bool) (c d : Nat) (hc : c < 65536) (hd : d < 65536)
    (h : crcStep t c = crcStep t d) : c = d := by
  unfold crcStep at h
  have gc := xor_poly_ge (c / 2) (by omega)
  have gd := xor_poly_ge (d / 2) (by omega)
  split at h <;> split at h
  · have := xor_poly_inj _ _ h
    rename_i h1 h2
    cases t <;> simp at h1 h2 <;> omega
  · omega
  · omega
  · rename_i h1 h2
    cases t <;> simp at h1 h2 <;> omega

theorem crcStep_flip (t : Bool) (c : Nat) (hc : c < 65536) :
    crcStep (!t) c ≠ crcStep t c := by
  unfold crcStep
  have gc := xor_poly_ge (c / 2) (by omega)
  rcases Nat.mod_two_eq_zero_or_one c with h | h <;> cases t <;> simp [h] <;> omega

/-- Folding two step functions that agree away from `a0`, differ at `a0` and
are injective in the register: the results differ when `a0` occurs once. -/
theorem foldl_ne_of_flip {α : Type} (f g : Nat → α → Nat) (B : Nat) (a0 : α)
    (hf : ∀ c a, c < B → f c a < B) (hg : ∀ c a, c < B → g c a < B)
    (hsame : ∀ c a, a ≠ a0 → g c a = f c a)
    (hinj : ∀ c d a, c < B → d < B → f c a = f d a → c = d)
    (hflip : ∀ c, c < B → g c a0 ≠ f c a0) :
    ∀ (l : List α), l.Nodup → a0 ∈ l → ∀ c, c < B → l.foldl g c ≠ l.foldl f c := by
  have hdiff : ∀ (l : List α), a0 ∉ l → ∀ c d, c < B → d < B → c ≠ d →
      l.foldl g c ≠ l.foldl f d := by
    intro l
    induction l with
    | nil => intro _ c d _ _ hcd; simpa using hcd
    | cons x xs ih =>
      intro hmem c d hc hd hcd
      simp only [List.mem_cons, not_or] at hmem
      simp only [List.foldl_cons]
      have hx : x ≠ a0 := fun e => hmem.1 e.symm
      apply ih hmem.2 _ _ (hg c x hc) (hf d x hd)
      rw [hsame c x hx]
      exact fun e => hcd (hinj c d x hc hd e)
  intro l
  induction l with
  | nil => intro _ hmem; simp at hmem
  | cons x xs ih =>
    intro hnd hmem c hc
    simp only [List.nodup_cons] at hnd
    simp only [List.foldl_cons]
    by_cases hx : x = a0
    · subst hx
      exact hdiff xs hnd.1 _ _ (hg c x hc) (hf c x hc) (hflip c hc)
    · have hmem2 : a0 ∈ xs := by
        rcases List.mem_cons.1 hmem with e | e
        · exact absurd e.symm hx
        · exact e
      rw [hsame c x hx]
      exact ih hnd.2 hmem2 _ (hf c x hc)

theorem foldl_lt {α : Type} (f : Nat → α → Nat) (B : Nat)
    (hf : ∀ c a, c < B → f c a < B) (l : List α) :
    ∀ c, c < B → l.foldl f c < B := by
  induction l with
  | nil => intro c hc; simpa using hc
  | cons x xs ih => intro c hc; exact ih _ (hf c x hc)

theorem foldl_inj {α : Type} (f : Nat → α → Nat) (B : Nat)
    (hf : ∀ c a, c < B → f c a < B)
    (hinj : ∀ c d a, c < B → d < B → f c a = f d a → c = d) (l : List α) :
    ∀ c d, c < B → d < B → l.foldl f c = l.foldl f d → c = d := by
  induction l with
  | nil => intro c d _ _ h; simpa using h
  | cons x xs ih =>
    intro c d hc hd h
    exact hinj c d x hc hd (ih _ _ (hf c x hc) (hf d x hd) h)

theorem crc_bit_lt (b c j : Nat) (h : c < 65536) : crc_bit b c j < 65536 := by
  rw [crc_bit_eq]; exact crcStep_lt _ _ h

theorem crc_byte_lt (c b : Nat) (h : c < 65536) : crc_byte c b < 65536 :=
  foldl_lt (crc_bit b) 65536 (fun c j hc => crc_bit_lt b c j hc) _ c h

theorem crc_byte_inj (b c d : Nat) (hc : c < 65536) (hd : d < 65536)
    (h : crc_byte c b = crc_byte d b) : c = d := by
  refine foldl_inj (crc_bit b) 65536 (fun c j hc => crc_bit_lt b c j hc) ?_ _ c d hc hd h
  intro c d j hc hd h
  rw [crc_bit_eq, crc_bit_eq] at h
  exact crcStep_inj _ c d hc hd h

theorem testBit_flip (b j i : Nat) :
    (b ^^^ (1 <<< j)).testBit i = if i = j then !(b.testBit i) else b.testBit i := by
  rw [Nat.testBit_xor, Nat.one_shiftLeft, Nat.testBit_two_pow]
  by_cases h : i = j
  · subst h; simp
  · have : ¬ j = i := fun e => h e.symm
    simp [h, this]

theorem crc_byte_flip (b j c : Nat) (hj : j < 8) (hc : c < 65536) :
    crc_byte c (b ^^^ (1 <<< j)) ≠ crc_byte c b := by
  unfold crc_byte
  refine foldl_ne_of_flip (crc_bit b) (crc_bit (b ^^^ (1 <<< j))) 65536 j
    (fun c a hc => crc_bit_lt _ c a hc) (fun c a hc => crc_bit_lt _ c a hc)
    ?_ ?_ ?_ (List.range 8) (List.nodup_range 8) (List.mem_range.2 hj) c hc
  · intro c a ha
    rw [crc_bit_eq, crc_bit_eq, testBit_flip, if_neg ha]
  · intro c d a hc hd h
    rw [crc_bit_eq, crc_bit_eq] at h
    exact crcStep_inj _ c d hc hd h
  · intro c hc
    rw [crc_bit_eq, crc_bit_eq, testBit_flip, if_pos rfl]
    exact crcStep_flip _ c hc
theorem write_same (msg : Nat → Nat) (i v : Nat) : write msg i v i = v := by
  simp [write]

theorem write_other (msg : Nat → Nat) (i v k : Nat) (h : k ≠ i) : write msg i v k = msg k := by
  simp [write, h]

theorem xor_right_cancel (x y m : Nat) (h : x ^^^ m = y ^^^ m) : x = y := by
  have h1 : (x ^^^ m) ^^^ m = (y ^^^ m) ^^^ m := by rw [h]
  simpa [Nat.xor_assoc] using h1

theorem crc_ccitt_flip (msg : Nat → Nat) (n i j : Nat) (hn : n < 256) (hi : i < n)
    (hj : j < 8) :
    crc_ccitt (write msg i (msg i ^^^ (1 <<< j))) n ≠ crc_ccitt msg n := by
  unfold crc_ccitt
  rw [Nat.mod_eq_of_lt hn]
  intro h
  have h2 := xor_right_cancel _ _ _ h
  revert h2
  refine foldl_ne_of_flip (fun c k => crc_byte c (msg k))
    (fun c k => crc_byte c (write msg i (msg i ^^^ (1 <<< j)) k)) 65536 i
    (fun c a hc => crc_byte_lt c _ hc) (fun c a hc => crc_byte_lt c _ hc)
    ?_ ?_ ?_ (List.range n) (List.nodup_range n) (List.mem_range.2 hi) 0xFFFF (by decide)
  · intro c a ha
    simp only [write_other _ _ _ _ ha]
  · intro c d a hc hd h
    exact crc_byte_inj _ c d hc hd h
  · intro c hc
    simp only [write_same]
    exact crc_byte_flip _ j c hj hc

/-- C8. Single-bit corruption is rejected: when `validate_crc` accepts a frame
of `len` bytes, `2 ≤ len ≤ 257`, flipping bit `j` of any of its first `len-2`
bytes gives a frame that `validate_crc` rejects, and `on_message` prints
nothing for it. -/
theorem single_bit_corruption_rejected (msg : Nat → Nat) (len i j : Nat)
    (h2 : 2 ≤ len) (h257 : len ≤ 257) (hi : i < len - 2) (hj : j < 8)
    (hok : validate_crc msg len = some true) :
    validate_crc (write msg i (msg i ^^^ (1 <<< j))) len = some false ∧
    on_message (write msg i (msg i ^^^ (1 <<< j))) len = Event.rejected len ∧
    (on_message (write msg i (msg i ^^^ (1 <<< j))) len).frame? = none := by
  have hne := crc_ccitt_flip msg (len - 2) i j (by omega) hi hj
  have hv : validate_crc (write msg i (msg i ^^^ (1 <<< j))) len = some false := by
    unfold validate_crc at hok ⊢
    rw [if_neg (by omega)] at hok ⊢
    rw [write_other _ _ _ _ (by omega : len - 2 ≠ i),
      write_other _ _ _ _ (by omega : len - 1 ≠ i)]
    simp only [Option.some.injEq, beq_iff_eq] at hok
    simp only [Option.some.injEq, beq_eq_false_iff_ne, ne_eq]
    rw [← hok]
    exact hne
  refine ⟨hv, ?_, ?_⟩ <;> simp [on_message, hv, Event.frame?]

set_option maxRecDepth 100000 in
/-- Witness for C8 on the accepted frame `04 01 02 03 c5 d5`, with the lowest bit of
its second byte flipped. -/
theorem single_bit_corruption_rejected_witness :
    validate_crc (ofList [4, 1, 2, 3, 197, 213]) 6 = some true ∧
    validate_crc (write (ofList [4, 1, 2, 3, 197, 213]) 1
      (ofList [4, 1, 2, 3, 197, 213] 1 ^^^ (1 <<< 0))) 6 = some false :=
  ⟨by decide,
   (single_bit_corruption_rejected (ofList [4, 1, 2, 3, 197, 213]) 6 1 0
      (by decide) (by decide) (by decide) (by decide) (by decide)).1⟩
/-! ## CRC: agreement with the specification's CRC and round trip -/

theorem crc_bit_eq_spec (b c j : Nat) :
    crc_bit b c j = crc16_spec_bit c ((b >>> j) % 2) := by
  rw [crc_bit_eq]
  unfold crcStep crc16_spec_bit
  have hb : b.testBit j = decide ((b >>> j) % 2 = 1) := by
    rw [Nat.testBit_to_div_mod, Nat.shiftRight_eq_div_pow]
  simp only [Nat.and_one_is_mod, Nat.shiftRight_one, hb]
  rcases Nat.mod_two_eq_zero_or_one c with h | h <;>
    rcases Nat.mod_two_eq_zero_or_one (b >>> j) with h' | h' <;> simp [h, h']

theorem crc_byte_eq_spec (c b : Nat) : crc_byte c b = crc16_spec_byte c b := by
  unfold crc_byte crc16_spec_byte
  congr 1
  funext c j
  exact crc_bit_eq_spec b c j

theorem foldl_range_map (f : Nat → Nat → Nat) (msg : Nat → Nat) (n c : Nat) :
    (List.range n).foldl (fun crc i => f crc (msg i)) c
      = ((List.range n).map msg).foldl f c := by
  rw [List.foldl_map]

/-- For at most 255 bytes `crc_ccitt` is the specification's CRC-16. -/
theorem crc_ccitt_eq_spec (msg : Nat → Nat) (n : Nat) (hn : n < 256) :
    crc_ccitt msg n = crc16_spec ((List.range n).map msg) := by
  unfold crc_ccitt crc16_spec
  rw [Nat.mod_eq_of_lt hn, List.foldl_map]
  congr 2
  funext c i
  exact crc_byte_eq_spec c (msg i)

theorem crc_ccitt_lt (msg : Nat → Nat) (n : Nat) : crc_ccitt msg n < 65536 := by
  unfold crc_ccitt
  exact Nat.xor_lt_two_pow (n := 16)
    (foldl_lt (fun c k => crc_byte c (msg k)) 65536 (fun c a hc => crc_byte_lt c _ hc) _ _
      (by decide)) (by decide)

theorem foldl_congr_mem {α : Type} (f g : Nat → α → Nat) (l : List α)
    (h : ∀ c a, a ∈ l → f c a = g c a) : ∀ c, l.foldl f c = l.foldl g c := by
  induction l with
  | nil => intro c; rfl
  | cons x xs ih =>
    intro c
    simp only [List.foldl_cons]
    rw [h c x (List.mem_cons_self _ _)]
    exact ih (fun c a ha => h c a (List.mem_cons_of_mem _ ha)) _

/-- The function `crc_ccitt` reads only the first `len % 256` bytes. -/
theorem crc_ccitt_congr (msg msg2 : Nat → Nat) (n : Nat)
    (h : ∀ k, k < n % 256 → msg k = msg2 k) : crc_ccitt msg n = crc_ccitt msg2 n := by
  unfold crc_ccitt
  congr 1
  apply foldl_congr_mem
  intro c a ha
  rw [h a (List.mem_range.1 ha)]

theorem le16_join (c : Nat) (hc : c < 65536) :
    (c % 256 ||| ((c / 256) <<< 8)) % 65536 = c := by
  have h1 : (c / 256) <<< 8 = 2 ^ 8 * (c / 256) := by
    rw [Nat.shiftLeft_eq, Nat.mul_comm]
  have h2 : c % 256 < 2 ^ 8 := Nat.mod_lt _ (by decide)
  rw [h1, Nat.or_comm, ← Nat.mul_add_lt_is_or h2]
  omega

/-- Round trip for frames the 8-bit length of `crc_ccitt` can hold: a buffer
whose bytes `n` and `n+1` are the low and high byte of the CRC of its first
`n ≤ 255` bytes is accepted. -/
theorem validate_crc_round_trip (msg : Nat → Nat) (n : Nat) (hn : n < 256)
    (hlo : msg n = crc_ccitt msg n % 256) (hhi : msg (n + 1) = crc_ccitt msg n / 256) :
    validate_crc msg (n + 2) = some true := by
  unfold validate_crc
  rw [if_neg (by omega)]
  simp only [Nat.add_sub_cancel, show n + 2 - 1 = n + 1 by omega, hlo, hhi,
    le16_join _ (crc_ccitt_lt msg n), beq_self_eq_true]

/-- The same agreement for `validate_crc`: up to 257 bytes it accepts exactly
when the specification's CRC-16 of all but the last two bytes equals the
little-endian value of the last two. -/
theorem validate_crc_eq_spec (msg : Nat → Nat) (len : Nat) (h2 : 2 ≤ len)
    (h257 : len ≤ 257) :
    validate_crc msg len = some (decide (crc16_spec ((List.range (len - 2)).map msg)
      = (msg (len - 2) ||| (msg (len - 1) <<< 8)) % 65536)) := by
  unfold validate_crc
  rw [if_neg (by omega), crc_ccitt_eq_spec msg (len - 2) (by omega)]
  simp only [Option.some.injEq]
  by_cases h : crc16_spec ((List.range (len - 2)).map msg)
      = (msg (len - 2) ||| (msg (len - 1) <<< 8)) % 65536
  · simp [h]
  · simp [h]


theorem foldl_replicate_add {α : Type} (f : Nat → α → Nat) (x : α) (a b c : Nat) :
    (List.replicate (a + b) x).foldl f c
      = (List.replicate b x).foldl f ((List.replicate a x).foldl f c) := by
  rw [List.replicate_add, List.foldl_append]

theorem foldl_zeros_256 :
    (List.replicate (32 + 32 + 32 + 32 + 32 + 32 + 32 + 32) 0).foldl crc16_spec_byte 65535
      = 6018 := by
  have h1 : (List.replicate 32 0).foldl crc16_spec_byte 65535 = 12943 := by decide!
  have h2 : (List.replicate 32 0).foldl crc16_spec_byte 12943 = 23403 := by decide!
  have h3 : (List.replicate 32 0).foldl crc16_spec_byte 23403 = 13393 := by decide!
  have h4 : (List.replicate 32 0).foldl crc16_spec_byte 13393 = 20495 := by decide!
  have h5 : (List.replicate 32 0).foldl crc16_spec_byte 20495 = 4768 := by decide!
  have h6 : (List.replicate 32 0).foldl crc16_spec_byte 4768 = 20417 := by decide!
  have h7 : (List.replicate 32 0).foldl crc16_spec_byte 20417 = 47341 := by decide!
  have h8 : (List.replicate 32 0).foldl crc16_spec_byte 47341 = 6018 := by decide!
  rw [foldl_replicate_add, foldl_replicate_add, foldl_replicate_add, foldl_replicate_add,
    foldl_replicate_add, foldl_replicate_add, foldl_replicate_add, h1, h2, h3, h4, h5, h6,
    h7, h8]

theorem crc16_spec_of_foldl (bs : List Nat) (c v : Nat)
    (h : bs.foldl crc16_spec_byte 65535 = c) (hv : c ^^^ 65535 = v) : crc16_spec bs = v := by
  unfold crc16_spec
  rw [h, hv]

/-- The CRC-16 of 256 zero bytes, evaluated 32 bytes at a time. -/
theorem crc16_spec_zeros_256 : crc16_spec (List.replicate 256 0) = 59517 :=
  crc16_spec_of_foldl _ 6018 59517 foldl_zeros_256 (by decide)

/-- C2 (failing input). For the 256 zero bytes `b` with their CRC-16
`c = 0xE87D` appended little-endian, `validate_crc` with `len = 258` answers
false: the 8-bit length parameter of `crc_ccitt` turns `len - 2 = 256` into 0
and the CRC of no bytes at all (`0x0000`) is compared with `c`. -/
theorem crc_round_trip_fails_at_256_bytes :
    crc16_spec (List.replicate 256 0) = 59517 ∧
    validate_crc (write (write (fun _ => 0) 256 (59517 % 256)) 257 (59517 / 256)) (256 + 2)
      = some false :=
  ⟨crc16_spec_zeros_256, by decide⟩

/-- C3 (failing input). The all-zero buffer with `len = 258` is accepted by
`validate_crc`, although the CRC-16 over all of its first 256 bytes is
`0xE87D` and not `msg[256] | (msg[257] << 8) = 0`. -/
theorem validate_crc_accepts_wrong_crc_at_258 :
    validate_crc (fun _ => 0) 258 = some true ∧
    crc16_spec ((List.range (258 - 2)).map (fun _ => 0)) ≠ (0 ||| (0 <<< 8)) := by
  refine ⟨by decide, ?_⟩
  have h : (List.range (258 - 2)).map (fun _ => 0) = List.replicate 256 0 := by
    exact List.map_const _ _ |>.trans (by rw [List.length_range])
  rw [h, crc16_spec_zeros_256]
  decide
/-! ## The branches of `on_symbol` -/

theorem on_symbol_searching (s : Framer) (b : Nat) (h : s.state = STATE_SEARCHING) :
    on_symbol s b =
      if ((s.history <<< 1) ||| b) % 2 ^ 64 = MODE_1_PREAMBLE then
        ({ s with history := ((s.history <<< 1) ||| b) % 2 ^ 64, mode := MODE_1,
                  state := STATE_RECEIVING_MSG_LEN, bit := 0, byte := 0, msg_len := 0,
                  toggle := true, xor_key := MODE_1_XOR_KEY }, Event.idle)
      else if ((s.history <<< 1) ||| b) % 2 ^ 64 = MODE_2_PREAMBLE then
        ({ s with history := ((s.history <<< 1) ||| b) % 2 ^ 64, mode := MODE_2,
                  state := STATE_RECEIVING_MSG_LEN, bit := 0, byte := 0, msg_len := 0,
                  toggle := true, xor_key := MODE_2_XOR_KEY }, Event.idle)
      else ({ s with history := ((s.history <<< 1) ||| b) % 2 ^ 64 }, Event.idle) := by
  unfold on_symbol
  rw [if_pos h]

theorem on_symbol_skip (s : Framer) (b : Nat)
    (h : s.state = STATE_RECEIVING_MSG_LEN ∨ s.state = STATE_RECEIVING_MSG)
    (ht : s.toggle = false) (hm : s.mode ≠ MODE_2) :
    on_symbol s b = ({ s with toggle := !s.toggle }, Event.idle) := by
  unfold on_symbol
  rcases h with h | h <;> simp [h, ht, hm]

theorem on_symbol_shift (s : Framer) (b : Nat)
    (h : s.state = STATE_RECEIVING_MSG_LEN ∨ s.state = STATE_RECEIVING_MSG)
    (hg : s.toggle = true ∨ s.mode = MODE_2) (hb : s.bit < 7) :
    on_symbol s b =
      ({ s with msg := write s.msg s.byte (((s.msg s.byte <<< 1) ||| b) % 256),
                bit := s.bit + 1, toggle := !s.toggle }, Event.idle) := by
  unfold on_symbol
  rcases h with h | h <;> simp only [h, hg, hb, if_true, if_false] <;> simp

theorem on_symbol_len1 (s : Framer) (b : Nat) (h : s.state = STATE_RECEIVING_MSG_LEN)
    (hg : s.toggle = true ∨ s.mode = MODE_2) (hb : ¬ s.bit < 7) (hm : s.mode = MODE_1) :
    on_symbol s b =
      ({ s with msg := stored s b,
                msg_len := (stored s b s.byte + 2)
                    % 65536,
                bit := 0, byte := (s.byte + 1) % 256, state := STATE_RECEIVING_MSG,
                toggle := !s.toggle }, Event.idle) := by
  unfold on_symbol stored
  have h0 : ¬ s.state = STATE_SEARCHING := by rw [h]; decide
  rw [if_neg h0, if_pos h, if_pos hg]
  simp only [hb, hm, if_true, if_false]

theorem on_symbol_len2 (s : Framer) (b : Nat) (h : s.state = STATE_RECEIVING_MSG_LEN)
    (hg : s.toggle = true ∨ s.mode = MODE_2) (hb : ¬ s.bit < 7) (hm : s.mode ≠ MODE_1) :
    on_symbol s b =
      if s.byte = 1 then
        ({ s with msg := stored s b,
                  msg_len := (((stored s b 0 <<< 8)
                    ||| stored s b 1)
                      % 65536 + 2) % 65536,
                  state := STATE_RECEIVING_MSG, bit := 0, byte := (s.byte + 1) % 256,
                  toggle := !s.toggle }, Event.idle)
      else
        ({ s with msg := stored s b,
                  bit := 0, byte := (s.byte + 1) % 256, toggle := !s.toggle },
         Event.idle) := by
  unfold on_symbol stored
  have h0 : ¬ s.state = STATE_SEARCHING := by rw [h]; decide
  rw [if_neg h0, if_pos h, if_pos hg]
  simp only [hb, hm, if_true, if_false]

theorem on_symbol_body (s : Framer) (b : Nat) (h : s.state = STATE_RECEIVING_MSG)
    (hg : s.toggle = true ∨ s.mode = MODE_2) (hb : ¬ s.bit < 7) :
    on_symbol s b =
      if (s.byte + 1) % 256 = s.msg_len then
        ({ s with msg := stored s b,
                  bit := 0, byte := (s.byte + 1) % 256, mode := MODE_1,
                  state := STATE_SEARCHING, toggle := !s.toggle },
         on_message (stored s b) s.msg_len)
      else
        ({ s with msg := stored s b,
                  bit := 0, byte := (s.byte + 1) % 256, toggle := !s.toggle },
         Event.idle) := by
  unfold on_symbol stored
  have h0 : ¬ s.state = STATE_SEARCHING := by rw [h]; decide
  have h1 : ¬ s.state = STATE_RECEIVING_MSG_LEN := by rw [h]; decide
  rw [if_neg h0, if_neg h1, if_pos h, if_pos hg]
  simp only [hb, if_true, if_false, reset]

theorem on_symbol_other (s : Framer) (b : Nat) (h : 2 < s.state) :
    on_symbol s b = (s, Event.idle) := by
  unfold on_symbol
  have e0 : STATE_SEARCHING = 0 := rfl
  have e1 : STATE_RECEIVING_MSG_LEN = 1 := rfl
  have e2 : STATE_RECEIVING_MSG = 2 := rfl
  rw [if_neg (by omega), if_neg (by omega), if_neg (by omega)]
/-! ## Framer invariant -/

theorem shl8_or (a b : Nat) (hb : b < 256) : (a <<< 8) ||| b = a * 256 + b := by
  have h1 : a <<< 8 = 2 ^ 8 * a := by rw [Nat.shiftLeft_eq, Nat.mul_comm]
  rw [h1, ← Nat.mul_add_lt_is_or (by simpa using hb)]
  omega

theorem inv_init : Inv init := by
  constructor <;> simp [init]

theorem stored_lt (s : Framer) (b : Nat) (h : ∀ k, s.msg k < 256) :
    ∀ k, stored s b k < 256 := by
  intro k
  unfold stored write
  split
  · exact Nat.mod_lt _ (by decide)
  · exact h k

theorem stored_other (s : Framer) (b k : Nat) (h : k ≠ s.byte) : stored s b k = s.msg k := by
  unfold stored
  exact write_other _ _ _ _ h

theorem write_lt (msg : Nat → Nat) (i v : Nat) (h : ∀ k, msg k < 256) (hv : v < 256) :
    ∀ k, write msg i v k < 256 := by
  intro k
  unfold write
  split
  · exact hv
  · exact h k

theorem inv_searching (s : Framer) (b : Nat) (h : Inv s) (hs : s.state = STATE_SEARCHING) :
    Inv (on_symbol s b).1 := by
  obtain ⟨h1, h2, h3, h4, h5, h6, h7, h8, h9, h10, h11⟩ := h
  rw [on_symbol_searching s b hs]
  split_ifs
  · constructor <;> first | assumption | simp
  · constructor <;> first | assumption | simp
  · constructor <;> simp only [] <;> assumption

theorem inv_skip (s : Framer) (h : Inv s) : Inv { s with toggle := !s.toggle } := by
  obtain ⟨h1, h2, h3, h4, h5, h6, h7, h8, h9, h10, h11⟩ := h
  constructor <;> simp only [] <;> assumption

theorem inv_shift (s : Framer) (b : Nat) (h : Inv s) (hb : s.bit < 7) :
    Inv { s with msg := write s.msg s.byte (((s.msg s.byte <<< 1) ||| b) % 256),
                 bit := s.bit + 1, toggle := !s.toggle } := by
  obtain ⟨h1, h2, h3, h4, h5, h6, h7, h8, h9, h10, h11⟩ := h
  constructor <;> simp only []
  · exact h1
  · omega
  · exact h3
  · exact h4
  · exact h5
  · exact write_lt _ _ _ h6 (Nat.mod_lt _ (by decide))
  · exact h7
  · exact h8
  · exact h9
  · intro a c
    rcases h10 a c with h | ⟨ha, hb, hc⟩
    · exact Or.inl h
    · refine Or.inr ⟨ha, hb, ?_⟩
      rw [write_other _ _ _ _ (by omega)]
      exact hc
  · intro a c
    rcases h11 a c with h | h | ⟨ha, hb, hc⟩
    · exact Or.inl h
    · exact Or.inr (Or.inl h)
    · refine Or.inr (Or.inr ⟨ha, hb, ?_⟩)
      rw [write_other _ _ _ _ (by omega), write_other _ _ _ _ (by omega)]
      exact hc

theorem inv_len1 (s : Framer) (b : Nat) (h : Inv s) (hs : s.state = STATE_RECEIVING_MSG_LEN)
    (hm : s.mode = MODE_1) :
    Inv { s with msg := stored s b, msg_len := (stored s b s.byte + 2) % 65536, bit := 0,
                 byte := (s.byte + 1) % 256, state := STATE_RECEIVING_MSG,
                 toggle := !s.toggle } := by
  obtain ⟨h1, h2, h3, h4, h5, h6, h7, h8, h9, h10, h11⟩ := h
  have hb0 : s.byte = 0 := h8 hs hm
  have hl := stored_lt s b h6 0
  simp only [STATE_RECEIVING_MSG_LEN, STATE_RECEIVING_MSG, MODE_1, MODE_2] at *
  constructor <;> simp only [hb0, STATE_RECEIVING_MSG_LEN,
    STATE_RECEIVING_MSG, MODE_1, MODE_2]
  · omega
  · omega
  · exact h3
  · omega
  · omega
  · exact stored_lt s b h6
  · omega
  · omega
  · omega
  · omega
  · omega

theorem inv_len2 (s : Framer) (b : Nat) (h : Inv s) (hs : s.state = STATE_RECEIVING_MSG_LEN)
    (hm : s.mode ≠ MODE_1) :
    Inv (if s.byte = 1 then
        { s with msg := stored s b,
                 msg_len := (((stored s b 0 <<< 8) ||| stored s b 1) % 65536 + 2) % 65536,
                 state := STATE_RECEIVING_MSG, bit := 0, byte := (s.byte + 1) % 256,
                 toggle := !s.toggle }
      else
        { s with msg := stored s b, bit := 0, byte := (s.byte + 1) % 256,
                 toggle := !s.toggle }) := by
  obtain ⟨h1, h2, h3, h4, h5, h6, h7, h8, h9, h10, h11⟩ := h
  have hl0 := stored_lt s b h6 0
  have hl1 := stored_lt s b h6 1
  simp only [STATE_RECEIVING_MSG_LEN, STATE_RECEIVING_MSG, MODE_1, MODE_2] at *
  have hm1 : s.mode = 1 := by omega
  have hb1 := h9 hs hm1
  split
  · rename_i hb
    constructor <;> simp only [hb, shl8_or _ _ hl1, STATE_RECEIVING_MSG_LEN,
      STATE_RECEIVING_MSG, MODE_1, MODE_2]
    · omega
    · omega
    · exact h3
    · omega
    · omega
    · exact stored_lt s b h6
    · omega
    · omega
    · omega
    · omega
    · omega
  · constructor <;> simp only [STATE_RECEIVING_MSG_LEN,
      STATE_RECEIVING_MSG, MODE_1, MODE_2]
    · omega
    · omega
    · exact h3
    · omega
    · omega
    · exact stored_lt s b h6
    · omega
    · omega
    · omega
    · omega
    · omega

theorem inv_body_done (s : Framer) (b : Nat) (h : Inv s)
    (hd : (s.byte + 1) % 256 = s.msg_len) :
    Inv { s with msg := stored s b, bit := 0, byte := (s.byte + 1) % 256, mode := MODE_1,
                 state := STATE_SEARCHING, toggle := !s.toggle } := by
  obtain ⟨h1, h2, h3, h4, h5, h6, h7, h8, h9, h10, h11⟩ := h
  simp only [STATE_RECEIVING_MSG_LEN, STATE_RECEIVING_MSG, MODE_1, MODE_2] at *
  constructor <;> simp only [STATE_RECEIVING_MSG_LEN, STATE_RECEIVING_MSG,
    STATE_SEARCHING, MODE_1, MODE_2]
  · omega
  · omega
  · omega
  · omega
  · omega
  · exact stored_lt s b h6
  · omega
  · omega
  · omega
  · omega
  · omega

theorem inv_body_more (s : Framer) (b : Nat) (h : Inv s) (hs : s.state = STATE_RECEIVING_MSG)
    (hd : ¬ (s.byte + 1) % 256 = s.msg_len) :
    Inv { s with msg := stored s b, bit := 0, byte := (s.byte + 1) % 256,
                 toggle := !s.toggle } := by
  obtain ⟨h1, h2, h3, h4, h5, h6, h7, h8, h9, h10, h11⟩ := h
  simp only [STATE_RECEIVING_MSG_LEN, STATE_RECEIVING_MSG, MODE_1, MODE_2] at *
  constructor <;> simp only [STATE_RECEIVING_MSG_LEN, STATE_RECEIVING_MSG, MODE_1, MODE_2]
  · omega
  · omega
  · exact h3
  · omega
  · omega
  · exact stored_lt s b h6
  · exact h7
  · omega
  · omega
  · intro a c
    rcases h10 a c with h | ⟨ha, hb, hc⟩
    · exact Or.inl h
    · by_cases hbig : 256 ≤ s.msg_len
      · exact Or.inl hbig
      · refine Or.inr ⟨by omega, by omega, ?_⟩
        rw [stored_other s b 0 (by omega)]
        exact hc
  · intro a c
    rcases h11 a c with h | h | ⟨ha, hb, hc⟩
    · exact Or.inl h
    · exact Or.inr (Or.inl h)
    · by_cases hbig : 256 ≤ s.msg_len
      · exact Or.inr (Or.inl hbig)
      · refine Or.inr (Or.inr ⟨by omega, by omega, ?_⟩)
        rw [stored_other s b 0 (by omega), stored_other s b 1 (by omega)]
        exact hc

/-- Every call of `on_symbol` preserves the invariant. -/
theorem inv_step (s : Framer) (b : Nat) (h : Inv s) : Inv (on_symbol s b).1 := by
  by_cases h0 : s.state = STATE_SEARCHING
  · exact inv_searching s b h h0
  by_cases hg : s.toggle = true ∨ s.mode = MODE_2
  · by_cases hb : s.bit < 7
    · have hs : s.state = STATE_RECEIVING_MSG_LEN ∨ s.state = STATE_RECEIVING_MSG := by
        have := h.state_le
        simp only [STATE_SEARCHING, STATE_RECEIVING_MSG_LEN, STATE_RECEIVING_MSG] at *
        omega
      rw [on_symbol_shift s b hs hg hb]
      exact inv_shift s b h hb
    · by_cases h1 : s.state = STATE_RECEIVING_MSG_LEN
      · by_cases hm : s.mode = MODE_1
        · rw [on_symbol_len1 s b h1 hg hb hm]
          exact inv_len1 s b h h1 hm
        · rw [on_symbol_len2 s b h1 hg hb hm]
          have := inv_len2 s b h h1 hm
          split
          · rename_i hb1; rw [if_pos hb1] at this; exact this
          · rename_i hb1; rw [if_neg hb1] at this; exact this
      · have h2 : s.state = STATE_RECEIVING_MSG := by
          have := h.state_le
          simp only [STATE_SEARCHING, STATE_RECEIVING_MSG_LEN, STATE_RECEIVING_MSG] at *
          omega
        rw [on_symbol_body s b h2 hg hb]
        split
        · rename_i hd; exact inv_body_done s b h hd
        · rename_i hd; exact inv_body_more s b h h2 hd
  · have hs : s.state = STATE_RECEIVING_MSG_LEN ∨ s.state = STATE_RECEIVING_MSG := by
      have := h.state_le
      simp only [STATE_SEARCHING, STATE_RECEIVING_MSG_LEN, STATE_RECEIVING_MSG] at *
      omega
    have ht : s.toggle = false := by
      cases ht : s.toggle
      · rfl
      · exact absurd (Or.inl ht) hg
    rw [on_symbol_skip s b hs ht (fun e => hg (Or.inr e))]
    exact inv_skip s h

/-- Every state reached from `init` satisfies the invariant. -/
theorem inv_feed (s : Framer) (bits : List Nat) (h : Inv s) : Inv (feed s bits) := by
  induction bits generalizing s with
  | nil => exact h
  | cons b bs ih => exact ih _ (inv_step s b h)
/-! ## Emitted frames and buffer bounds -/

theorem ofList_map_range (msg : Nat → Nat) (n k : Nat) (hk : k < n) :
    ofList ((List.range n).map msg) k = msg k := by
  simp [ofList, List.getD_eq_getElem?_getD, List.getElem?_range hk]

theorem validate_crc_congr (msg msg2 : Nat → Nat) (len : Nat)
    (h : ∀ k, k < len → msg k = msg2 k) : validate_crc msg len = validate_crc msg2 len := by
  unfold validate_crc
  split
  · rfl
  · rename_i h2
    rw [crc_ccitt_congr msg msg2 (len - 2)
        (fun k hk => h k (by have := Nat.mod_le (len - 2) 256; omega)),
      h (len - 2) (by omega), h (len - 1) (by omega)]

theorem crc_ccitt_zero (msg : Nat → Nat) : crc_ccitt msg 0 = 0 := by
  simp [crc_ccitt]

theorem on_message_emitted (msg : Nat → Nat) (len : Nat) (f : List Nat)
    (h : on_message msg len = Event.emitted f) :
    validate_crc msg len = some true ∧ f = (List.range len).map msg := by
  unfold on_message at h
  split at h
  · exact absurd h (by simp)
  · rename_i hv
    exact ⟨hv, by simpa using h.symm⟩
  · exact absurd h (by simp)

/-- Only the completion branch of `on_symbol` calls `on_message`. -/
theorem on_symbol_event (s : Framer) (b : Nat) (h : (on_symbol s b).2 ≠ Event.idle) :
    s.state = STATE_RECEIVING_MSG ∧ (s.toggle = true ∨ s.mode = MODE_2) ∧ ¬ s.bit < 7 ∧
      (s.byte + 1) % 256 = s.msg_len ∧
      (on_symbol s b).2 = on_message (stored s b) s.msg_len := by
  by_cases h2 : s.state = STATE_RECEIVING_MSG
  · by_cases hg : s.toggle = true ∨ s.mode = MODE_2
    · by_cases hb : s.bit < 7
      · rw [on_symbol_shift s b (Or.inr h2) hg hb] at h
        exact absurd rfl h
      · rw [on_symbol_body s b h2 hg hb] at h ⊢
        split at h
        · rename_i hd
          rw [if_pos hd]
          exact ⟨h2, hg, hb, hd, rfl⟩
        · exact absurd rfl h
    · have ht : s.toggle = false := by
        cases ht : s.toggle
        · rfl
        · exact absurd (Or.inl ht) hg
      rw [on_symbol_skip s b (Or.inr h2) ht (fun e => hg (Or.inr e))] at h
      exact absurd rfl h
  · exfalso
    apply h
    simp only [on_symbol, h2, if_false]
    split_ifs <;> rfl

/-- A call of `on_symbol` changes the buffer at index `byte` only. -/
theorem on_symbol_msg_other (s : Framer) (b i : Nat) (hi : i ≠ s.byte) :
    (on_symbol s b).1.msg i = s.msg i := by
  simp only [on_symbol]
  split_ifs <;> simp [write, reset, hi]

/-- C7. For every sequence of symbols fed to the framer from its initial
state: the only buffer index the next call writes is `byte`, which is below
the capacity `UINT16_MAX` of `msg`; `msg_len ≤ 257` when the mode is Mode 1 and
`msg_len ≤ 65537` when it is Mode 2. -/
theorem framer_never_overflows (bits : List Nat) :
    (feed init bits).byte < MSG_CAPACITY ∧
    (∀ b i, i ≠ (feed init bits).byte →
      (on_symbol (feed init bits) b).1.msg i = (feed init bits).msg i) ∧
    ((feed init bits).mode = MODE_1 → (feed init bits).msg_len ≤ 257) ∧
    ((feed init bits).mode = MODE_2 → (feed init bits).msg_len ≤ 65537) := by
  have h := inv_feed init bits inv_init
  refine ⟨?_, fun b i hi => on_symbol_msg_other _ b i hi, h.len_mode1, fun _ => ?_⟩
  · have := h.byte_lt
    simp only [MSG_CAPACITY]
    omega
  · have := h.len_lt
    omega

/-- Calls of `on_message` with a length of at least 2.  For every sequence of
symbols fed to the framer from its initial state, a frame `f` printed by such
a call passes `validate_crc`, and its length is the declared length plus 2:
the declared length is its first byte when the frame was received in Mode 1
and the big-endian value of its first two bytes when it was received in
Mode 2.  (A call with a length below 2 is an `Event.fault`.) -/
theorem emitted_frame_valid (bits : List Nat) (b : Nat) (f : List Nat)
    (h : (on_symbol (feed init bits) b).2 = Event.emitted f) :
    validate_crc (ofList f) f.length = some true ∧
    ((feed init bits).mode = MODE_1 ∨ (feed init bits).mode = MODE_2) ∧
    ((feed init bits).mode = MODE_1 → f.length = f.getD 0 0 + 2) ∧
    ((feed init bits).mode = MODE_2 → f.length = f.getD 0 0 * 256 + f.getD 1 0 + 2) := by
  have hinv := inv_feed init bits inv_init
  generalize feed init bits = s at h hinv
  obtain ⟨hs, hg, hb, hd, he⟩ := on_symbol_event s b (by rw [h]; simp)
  rw [h] at he
  obtain ⟨hv, hf⟩ := on_message_emitted _ _ _ he.symm
  have hlen : f.length = s.msg_len := by rw [hf]; simp
  have h2 : 2 ≤ s.msg_len := by
    unfold validate_crc at hv
    split at hv
    · exact absurd hv (by simp)
    · omega
  have hget : ∀ k, k < s.msg_len → f.getD k 0 = stored s b k := by
    intro k hk
    have := ofList_map_range (stored s b) s.msg_len k hk
    rw [← hf] at this
    exact this
  have hbl := hinv.byte_lt
  have hml := hinv.mode_le
  refine ⟨?_, ?_, ?_, ?_⟩
  · rw [hlen, ← hv]
    apply validate_crc_congr
    intro k hk
    exact hget k hk
  · simp only [STATE_SEARCHING, MODE_1, MODE_2]; omega
  · intro hm
    rw [hlen, hget 0 (by omega)]
    rcases hinv.body1 hs hm with hbig | ⟨ha, _, hc⟩
    · omega
    · rw [stored_other s b 0 (by omega)]
      exact hc
  · intro hm
    rw [hlen]
    rcases hinv.body2 hs hm with hsmall | hbig | ⟨ha, _, hc⟩
    · have h2' : s.msg_len = 2 := by omega
      rw [h2'] at hv hget ⊢
      have e0 := hget 0 (by omega)
      have e1 := hget 1 (by omega)
      have l0 := stored_lt s b hinv.msg_lt 0
      have l1 := stored_lt s b hinv.msg_lt 1
      unfold validate_crc at hv
      rw [if_neg (by omega)] at hv
      have hcrc : crc_ccitt (stored s b) (2 - 2) = 0 := by
        exact crc_ccitt_zero _
      simp only [hcrc, Option.some.injEq, beq_iff_eq, show 2 - 2 = 0 by rfl,
        show 2 - 1 = 1 by rfl] at hv
      rw [Nat.or_comm, shl8_or _ _ l0] at hv
      rw [e0, e1]
      omega
    · omega
    · rw [hget 0 (by omega), hget 1 (by omega), stored_other s b 0 (by omega),
        stored_other s b 1 (by omega)]
      exact hc
set_option maxRecDepth 100000 in
/-- The Mode 1 frame `04 01 02 03 c5 d5` is emitted on the half-bit carrying
its last data bit. -/
theorem emitted_frame_valid_witness :
    (on_symbol (feed init (preambleBits MODE_1_PREAMBLE ++ sampleBody1)) 0).2
        = Event.emitted [4, 1, 2, 3, 197, 213] ∧
    (validate_crc (ofList [4, 1, 2, 3, 197, 213]) [4, 1, 2, 3, 197, 213].length = some true ∧
     ((feed init (preambleBits MODE_1_PREAMBLE ++ sampleBody1)).mode = MODE_1 ∨
      (feed init (preambleBits MODE_1_PREAMBLE ++ sampleBody1)).mode = MODE_2) ∧
     ((feed init (preambleBits MODE_1_PREAMBLE ++ sampleBody1)).mode = MODE_1 →
        [4, 1, 2, 3, 197, 213].length = [4, 1, 2, 3, 197, 213].getD 0 0 + 2) ∧
     ((feed init (preambleBits MODE_1_PREAMBLE ++ sampleBody1)).mode = MODE_2 →
        [4, 1, 2, 3, 197, 213].length
          = [4, 1, 2, 3, 197, 213].getD 0 0 * 256 + [4, 1, 2, 3, 197, 213].getD 1 0 + 2)) :=
  ⟨by decide,
   emitted_frame_valid (preambleBits MODE_1_PREAMBLE ++ sampleBody1) 0
     [4, 1, 2, 3, 197, 213] (by decide)⟩

/-! ## State after a completed frame -/

theorem feed_append (s : Framer) (a b : List Nat) : feed s (a ++ b) = feed (feed s a) b := by
  induction a generalizing s with
  | nil => rfl
  | cons x xs ih => exact ih _

theorem events_append (s : Framer) (a b : List Nat) :
    events s (a ++ b) = events s a ++ events (feed s a) b := by
  induction a generalizing s with
  | nil => rfl
  | cons x xs ih => simp [events, feed, ih]

theorem frames_append (s : Framer) (a b : List Nat) :
    frames s (a ++ b) = frames s a ++ frames (feed s a) b := by
  simp [frames, events_append]

/-- A call of `on_symbol` outside Searching never touches `history`. -/
theorem on_symbol_history (s : Framer) (b : Nat) (h : s.state ≠ STATE_SEARCHING) :
    (on_symbol s b).1.history = s.history := by
  simp only [on_symbol, h, if_false]
  split_ifs <;> simp [reset]

theorem on_message_ne_idle (msg : Nat → Nat) (len : Nat) : on_message msg len ≠ Event.idle := by
  unfold on_message
  split <;> simp

/-- What a call of `on_symbol` in a receiving state does to the fields other
than the buffer: it always flips `toggle` and keeps `history`; without a call
of `on_message` it stays in a receiving state in the same mode; with one it
ends in Searching, Mode 1, `bit = 0` and `byte = msg_len`, and the symbol was
consumed. -/
theorem on_symbol_receiving (s : Framer) (b : Nat)
    (hs : s.state = STATE_RECEIVING_MSG_LEN ∨ s.state = STATE_RECEIVING_MSG) :
    (on_symbol s b).1.toggle = (!s.toggle) ∧ (on_symbol s b).1.history = s.history ∧
    ((on_symbol s b).2 = Event.idle →
      ((on_symbol s b).1.state = STATE_RECEIVING_MSG_LEN ∨
        (on_symbol s b).1.state = STATE_RECEIVING_MSG) ∧
      (on_symbol s b).1.mode = s.mode) ∧
    ((on_symbol s b).2 ≠ Event.idle →
      (on_symbol s b).1.state = STATE_SEARCHING ∧ (on_symbol s b).1.mode = MODE_1 ∧
      (on_symbol s b).1.bit = 0 ∧ (on_symbol s b).1.byte = s.msg_len ∧
      (on_symbol s b).2 = on_message (stored s b) s.msg_len ∧ consumes s = true) := by
  have hne := on_message_ne_idle (stored s b) s.msg_len
  unfold stored at hne ⊢
  rcases hs with hs | hs
  · simp only [on_symbol, hs, consumes]
    split_ifs <;> simp_all
  · simp only [on_symbol, hs, consumes]
    split_ifs <;> simp_all [reset]

/-- While no call of `on_symbol` reaches `on_message`, a framer that is
receiving keeps receiving in the same mode with the same `history`. -/
theorem feed_idle (bits : List Nat) (s : Framer)
    (hs : s.state = STATE_RECEIVING_MSG_LEN ∨ s.state = STATE_RECEIVING_MSG)
    (hidle : ∀ e ∈ events s bits, e = Event.idle) :
    ((feed s bits).state = STATE_RECEIVING_MSG_LEN ∨
      (feed s bits).state = STATE_RECEIVING_MSG) ∧
    (feed s bits).mode = s.mode ∧ (feed s bits).history = s.history := by
  induction bits generalizing s with
  | nil => exact ⟨hs, rfl, rfl⟩
  | cons b bs ih =>
    have h1 := on_symbol_receiving s b hs
    have he : (on_symbol s b).2 = Event.idle := hidle _ (by simp [events])
    obtain ⟨h2, h3⟩ := h1.2.2.1 he
    have h4 := ih (on_symbol s b).1 h2 (fun e hmem => hidle e (by simp [events, hmem]))
    exact ⟨h4.1, h4.2.1.trans h3, h4.2.2.trans h1.2.1⟩

/-- C6 (amended). When a framer that is receiving (as it is right after a
preamble+syncword) gets symbols `bits` without completing a frame and the next
symbol `b` completes one (`on_message` is called, whatever it answers), the
state after `b` is Searching, Mode 1, `bit = 0`, `history` as before the
frame's bits, and `byte` equal to the length `msg_len` of the completed frame
(it is not zeroed). -/
theorem frame_completion_state (s0 : Framer) (bits : List Nat) (b : Nat)
    (hs0 : s0.state = STATE_RECEIVING_MSG_LEN ∨ s0.state = STATE_RECEIVING_MSG)
    (hidle : ∀ e ∈ events s0 bits, e = Event.idle)
    (hdone : (on_symbol (feed s0 bits) b).2 ≠ Event.idle) :
    (on_symbol (feed s0 bits) b).1.state = STATE_SEARCHING ∧
    (on_symbol (feed s0 bits) b).1.mode = MODE_1 ∧
    (on_symbol (feed s0 bits) b).1.bit = 0 ∧
    (on_symbol (feed s0 bits) b).1.byte = (feed s0 bits).msg_len ∧
    (on_symbol (feed s0 bits) b).2
      = on_message (stored (feed s0 bits) b) (feed s0 bits).msg_len ∧
    (on_symbol (feed s0 bits) b).1.history = s0.history := by
  obtain ⟨h1, _, h3⟩ := feed_idle bits s0 hs0 hidle
  have h4 := on_symbol_receiving (feed s0 bits) b h1
  obtain ⟨a1, a2, a3, a4, a5, _⟩ := h4.2.2.2 hdone
  exact ⟨a1, a2, a3, a4, a5, h4.2.1.trans h3⟩

set_option maxRecDepth 100000 in
/-- Witness for C6 (amended): the frame `04 01 02 03 c5 d5` after the Mode 1
preamble+syncword. -/
theorem frame_completion_state_witness :
    (on_symbol (feed afterPreamble1 sampleBody1) 0).2 ≠ Event.idle ∧
    (on_symbol (feed afterPreamble1 sampleBody1) 0).1.byte
      = (feed afterPreamble1 sampleBody1).msg_len ∧
    (on_symbol (feed afterPreamble1 sampleBody1) 0).1.history = afterPreamble1.history :=
  ⟨by decide,
   (frame_completion_state afterPreamble1 sampleBody1 0 (by decide) (by decide)
      (by decide)).2.2.2.1,
   (frame_completion_state afterPreamble1 sampleBody1 0 (by decide) (by decide)
      (by decide)).2.2.2.2.2⟩

set_option maxRecDepth 100000 in
/-- C6 (counterexample). After the framer has completed the accepted Mode 1
frame `04 01 02 03 c5 d5`, `byte` is 6, not 0. -/
theorem frame_completion_byte_pos_not_zero :
    (on_symbol (feed init (preambleBits MODE_1_PREAMBLE ++ sampleBody1)) 0).2
        = Event.emitted [4, 1, 2, 3, 197, 213] ∧
    (on_symbol (feed init (preambleBits MODE_1_PREAMBLE ++ sampleBody1)) 0).1.byte = 6 ∧
    ¬ (on_symbol (feed init (preambleBits MODE_1_PREAMBLE ++ sampleBody1)) 0).1.byte = 0 := by
  decide
/-! ## Mode 1 toggle parity -/

theorem write_write (m : Nat → Nat) (i x y : Nat) : write (write m i x) i y = write m i y := by
  funext k
  unfold write
  split <;> rfl

theorem shl1_or (a b : Nat) (hb : b < 2) : (a <<< 1) ||| b = 2 * a + b := by
  have h1 : a <<< 1 = 2 ^ 1 * a := by rw [Nat.shiftLeft_eq, Nat.mul_comm]
  rw [h1, ← Nat.mul_add_lt_is_or (by simpa using hb)]

theorem shift_mod (v y : Nat) : ((v <<< 1) ||| (y % 2)) % 256 = (2 * v + y % 2) % 256 := by
  rw [shl1_or _ _ (Nat.mod_lt _ (by decide))]

theorem shift_chain (x w a7 a6 a5 a4 a3 a2 a1 a0 : Nat)
    (h7 : a7 = (2 * x + w / 128 % 2) % 256) (h6 : a6 = (2 * a7 + w / 64 % 2) % 256)
    (h5 : a5 = (2 * a6 + w / 32 % 2) % 256) (h4 : a4 = (2 * a5 + w / 16 % 2) % 256)
    (h3 : a3 = (2 * a4 + w / 8 % 2) % 256) (h2 : a2 = (2 * a3 + w / 4 % 2) % 256)
    (h1 : a1 = (2 * a2 + w / 2 % 2) % 256) (h0 : a0 = (2 * a1 + w % 2) % 256) :
    a0 = w % 256 := by
  have c7 : a7 % 2 = w / 128 % 2 := by clear h6 h5 h4 h3 h2 h1 h0; omega
  have c6 : a6 % 4 = w / 64 % 4 := by clear h7 h5 h4 h3 h2 h1 h0; omega
  clear h7 h6 c7
  have c5 : a5 % 8 = w / 32 % 8 := by clear h4 h3 h2 h1 h0; omega
  clear h5 c6
  have c4 : a4 % 16 = w / 16 % 16 := by clear h3 h2 h1 h0; omega
  clear h4 c5
  have c3 : a3 % 32 = w / 8 % 32 := by clear h2 h1 h0; omega
  clear h3 c4
  have c2 : a2 % 64 = w / 4 % 64 := by clear h1 h0; omega
  clear h2 c3
  have c1 : a1 % 128 = w / 2 % 128 := by clear h0; omega
  clear h1 c2
  omega

/-- Shifting in the eight bits of `w`, most significant first, leaves `w`
whatever the byte held before. -/
theorem accum_bitsMSB (x w : Nat) : accum x (bitsMSB w) = w % 256 := by
  unfold accum bitsMSB
  simp only [List.map, List.foldl, shift_mod, Nat.shiftRight_eq_div_pow, Nat.reducePow,
    Nat.pow_zero, Nat.div_one]
  exact shift_chain x w _ _ _ _ _ _ _ _ rfl rfl rfl rfl rfl rfl rfl rfl

theorem events_idle_append (s : Framer) (a b : List Nat)
    (ha : ∀ e ∈ events s a, e = Event.idle) (hb : ∀ e ∈ events (feed s a) b, e = Event.idle) :
    ∀ e ∈ events s (a ++ b), e = Event.idle := by
  intro e he
  rw [events_append, List.mem_append] at he
  rcases he with he | he
  · exact ha e he
  · exact hb e he

theorem line_append (m : Nat) (a b : List Nat) : line m (a ++ b) = line m a ++ line m b := by
  simp [line]

theorem line_cons (m b : Nat) (l : List Nat) : line m (b :: l) = sym m b ++ line m l := by
  simp [line]

/-- One data bit that does not complete the byte. -/
theorem feed_sym_shift (s : Framer) (st m key n k j b : Nat) (buf : Nat → Nat)
    (h : At s st m key n k j buf)
    (hst : st = STATE_RECEIVING_MSG_LEN ∨ st = STATE_RECEIVING_MSG)
    (hm : m = MODE_1 ∨ m = MODE_2) (hj : j < 7) :
    At (feed s (sym m b)) st m key n k (j + 1) (write buf k (((buf k <<< 1) ||| b) % 256)) ∧
    ∀ e ∈ events s (sym m b), e = Event.idle := by
  obtain ⟨h1, h2, h3, h4, h5, h6, h7, h8⟩ := h
  have hs : s.state = STATE_RECEIVING_MSG_LEN ∨ s.state = STATE_RECEIVING_MSG := by
    rw [h1]; exact hst
  have hb : s.bit < 7 := by rw [h6]; exact hj
  rcases hm with hm | hm
  · have ht := h7 hm
    have e1 := on_symbol_shift s b hs (Or.inl ht) hb
    have e2 := on_symbol_skip
      { s with msg := write s.msg s.byte (((s.msg s.byte <<< 1) ||| b) % 256),
               bit := s.bit + 1, toggle := !s.toggle } (1 - b) hs (by simp [ht])
      (by simp only [h2, hm]; decide)
    subst hm
    simp only [sym, if_true, feed, events, e1, e2]
    refine ⟨⟨h1, h2, h3, h4, h5, by simp [h6], fun _ => by simp [ht], ?_⟩, by simp⟩
    simp only [h8, h5]
  · have e1 := on_symbol_shift s b hs (Or.inr (h2.trans hm)) hb
    subst hm
    simp only [sym, feed, events, e1]
    refine ⟨⟨h1, h2, h3, h4, h5, by simp [h6], fun hc => absurd hc (by decide), ?_⟩, by simp⟩
    simp only [h8, h5]

/-- Up to seven data bits that do not complete the byte. -/
theorem feed_line_shift (l : List Nat) (s : Framer) (st m key n k j : Nat) (buf : Nat → Nat)
    (h : At s st m key n k j buf)
    (hst : st = STATE_RECEIVING_MSG_LEN ∨ st = STATE_RECEIVING_MSG)
    (hm : m = MODE_1 ∨ m = MODE_2) (hj : j + l.length ≤ 7) :
    At (feed s (line m l)) st m key n k (j + l.length) (write buf k (accum (buf k) l)) ∧
    ∀ e ∈ events s (line m l), e = Event.idle := by
  induction l generalizing s j buf with
  | nil =>
    have hw : write buf k (buf k) = buf := by
      funext i; unfold write; split
      · rename_i hi; rw [hi]
      · rfl
    simp only [line, List.flatMap_nil, feed, events, accum, List.foldl_nil, List.length_nil,
      Nat.add_zero, hw]
    exact ⟨h, by simp⟩
  | cons b bs ih =>
    simp only [List.length_cons] at hj
    obtain ⟨a1, a2⟩ := feed_sym_shift s st m key n k j b buf h hst hm (by omega)
    obtain ⟨b1, b2⟩ := ih (feed s (sym m b)) (j + 1) _ a1 (by omega)
    rw [line_cons, feed_append]
    refine ⟨?_, events_idle_append _ _ _ a2 b2⟩
    rw [write_write, write_same] at b1
    have e : j + (b :: bs).length = j + 1 + bs.length := by simp only [List.length_cons]; omega
    rw [e]
    exact b1
theorem bitsMSB_split (w : Nat) : bitsMSB w = bitsHigh w ++ [(w >>> 0) % 2] := rfl

theorem accum_last (x w : Nat) :
    ((accum x (bitsHigh w) <<< 1) ||| ((w >>> 0) % 2)) % 256 = w % 256 := by
  have h := accum_bitsMSB x w
  rw [bitsMSB_split] at h
  unfold accum at h ⊢
  rw [List.foldl_append] at h
  exact h

theorem on_symbol_searching_idle (s : Framer) (b : Nat) (h : s.state = STATE_SEARCHING) :
    (on_symbol s b).2 = Event.idle := by
  rw [on_symbol_searching s b h]
  split_ifs <;> rfl

/-- The eighth data bit of the Mode 1 length byte. -/
theorem feed_sym_len1 (s : Framer) (key n k b : Nat) (buf : Nat → Nat)
    (h : At s STATE_RECEIVING_MSG_LEN MODE_1 key n k 7 buf) :
    At (feed s (sym MODE_1 b)) STATE_RECEIVING_MSG MODE_1 key
      (((((((buf k <<< 1) ||| b) % 256) ^^^ key) % 256) + 2) % 65536) ((k + 1) % 256) 0
      (write buf k (((((buf k <<< 1) ||| b) % 256) ^^^ key) % 256)) ∧
    ∀ e ∈ events s (sym MODE_1 b), e = Event.idle := by
  obtain ⟨h1, h2, h3, h4, h5, h6, h7, h8⟩ := h
  have ht := h7 rfl
  have e1 := on_symbol_len1 s b h1 (Or.inl ht) (by rw [h6]; decide) h2
  have e2 := on_symbol_skip
    { s with msg := stored s b, msg_len := (stored s b s.byte + 2) % 65536, bit := 0,
             byte := (s.byte + 1) % 256, state := STATE_RECEIVING_MSG,
             toggle := !s.toggle } (1 - b) (Or.inr rfl) (by simp [ht])
    (by simp only [h2]; decide)
  have hst : stored s b = write buf k (((((buf k <<< 1) ||| b) % 256) ^^^ key) % 256) := by
    unfold stored; rw [h8, h5, h3]
  simp only [sym, if_true, feed, events, e1, e2]
  refine ⟨⟨rfl, h2, h3, ?_, by simp only [h5], rfl, fun _ => by simp [ht], hst⟩, by simp⟩
  simp only [hst, h5, write_same]

/-- The eighth data bit of a Mode 2 length byte. -/
theorem feed_sym_len2 (s : Framer) (key n k b : Nat) (buf : Nat → Nat)
    (h : At s STATE_RECEIVING_MSG_LEN MODE_2 key n k 7 buf) :
    (k ≠ 1 → At (feed s (sym MODE_2 b)) STATE_RECEIVING_MSG_LEN MODE_2 key n ((k + 1) % 256) 0
      (write buf k (((((buf k <<< 1) ||| b) % 256) ^^^ key) % 256))) ∧
    (k = 1 → At (feed s (sym MODE_2 b)) STATE_RECEIVING_MSG MODE_2 key
      ((((write buf k (((((buf k <<< 1) ||| b) % 256) ^^^ key) % 256) 0 <<< 8) |||
        write buf k (((((buf k <<< 1) ||| b) % 256) ^^^ key) % 256) 1) % 65536 + 2) % 65536)
      ((k + 1) % 256) 0
      (write buf k (((((buf k <<< 1) ||| b) % 256) ^^^ key) % 256))) ∧
    ∀ e ∈ events s (sym MODE_2 b), e = Event.idle := by
  obtain ⟨h1, h2, h3, h4, h5, h6, h7, h8⟩ := h
  have e1 := on_symbol_len2 s b h1 (Or.inr h2) (by rw [h6]; decide)
    (by rw [h2]; decide)
  have hst : stored s b = write buf k (((((buf k <<< 1) ||| b) % 256) ^^^ key) % 256) := by
    unfold stored; rw [h8, h5, h3]
  have hsym : sym MODE_2 b = [b] := rfl
  simp only [hsym, feed, events, e1, h5]
  refine ⟨fun hk => ?_, fun hk => ?_, ?_⟩
  · rw [if_neg hk]
    exact ⟨h1, h2, h3, h4, by simp only [h5], rfl, fun hc => absurd hc (by decide), hst⟩
  · rw [if_pos hk]
    exact ⟨rfl, h2, h3, by simp only [hst], by simp only [h5], rfl,
      fun hc => absurd hc (by decide), hst⟩
  · intro e he
    split at he <;> simpa using he

/-- The eighth data bit of a body byte that is not the last one. -/
theorem feed_sym_body_more (s : Framer) (m key n k b : Nat) (buf : Nat → Nat)
    (h : At s STATE_RECEIVING_MSG m key n k 7 buf) (hm : m = MODE_1 ∨ m = MODE_2)
    (hk : (k + 1) % 256 ≠ n) :
    At (feed s (sym m b)) STATE_RECEIVING_MSG m key n ((k + 1) % 256) 0
      (write buf k (((((buf k <<< 1) ||| b) % 256) ^^^ key) % 256)) ∧
    ∀ e ∈ events s (sym m b), e = Event.idle := by
  obtain ⟨h1, h2, h3, h4, h5, h6, h7, h8⟩ := h
  have hst : stored s b = write buf k (((((buf k <<< 1) ||| b) % 256) ^^^ key) % 256) := by
    unfold stored; rw [h8, h5, h3]
  have hg : s.toggle = true ∨ s.mode = MODE_2 := by
    rcases hm with hm | hm
    · exact Or.inl (h7 hm)
    · exact Or.inr (h2.trans hm)
  have e1 := on_symbol_body s b h1 hg (by rw [h6]; decide)
  rw [if_neg (by rw [h5, h4]; exact hk)] at e1
  rcases hm with hm | hm
  · have ht := h7 hm
    have e2 := on_symbol_skip
      { s with msg := stored s b, bit := 0, byte := (s.byte + 1) % 256,
               toggle := !s.toggle } (1 - b) (Or.inr h1) (by simp [ht])
      (by simp only [h2, hm]; decide)
    subst hm
    simp only [sym, if_true, feed, events, e1, e2]
    exact ⟨⟨h1, h2, h3, h4, by simp only [h5], rfl, fun _ => by simp [ht], hst⟩, by simp⟩
  · subst hm
    have hsym : sym MODE_2 b = [b] := rfl
    simp only [hsym, feed, events, e1]
    exact ⟨⟨h1, h2, h3, h4, by simp only [h5], rfl, fun hc => absurd hc (by decide), hst⟩,
      by simp⟩

/-- The eighth data bit of the last body byte: `on_message` gets the buffer
and `msg_len`; the second Manchester half-bit, if any, is taken in Searching. -/
theorem feed_sym_body_done (s : Framer) (m key n k b : Nat) (buf : Nat → Nat)
    (h : At s STATE_RECEIVING_MSG m key n k 7 buf) (hm : m = MODE_1 ∨ m = MODE_2)
    (hk : (k + 1) % 256 = n) :
    frames s (sym m b)
      = ((on_message (write buf k (((((buf k <<< 1) ||| b) % 256) ^^^ key) % 256)) n).frame?
          ).toList := by
  obtain ⟨h1, h2, h3, h4, h5, h6, h7, h8⟩ := h
  have hst : stored s b = write buf k (((((buf k <<< 1) ||| b) % 256) ^^^ key) % 256) := by
    unfold stored; rw [h8, h5, h3]
  have hg : s.toggle = true ∨ s.mode = MODE_2 := by
    rcases hm with hm | hm
    · exact Or.inl (h7 hm)
    · exact Or.inr (h2.trans hm)
  have e1 := on_symbol_body s b h1 hg (by rw [h6]; decide)
  rw [if_pos (by rw [h5, h4]; exact hk), hst, h4] at e1
  rcases hm with hm | hm
  · subst hm
    have hev : events s (sym MODE_1 b)
        = [on_message (write buf k (((((buf k <<< 1) ||| b) % 256) ^^^ key) % 256)) n,
           Event.idle] := by
      simp only [sym, if_true, events, e1]
      rw [on_symbol_searching_idle _ _ rfl]
    unfold frames
    rw [hev]
    generalize on_message (write buf k (((((buf k <<< 1) ||| b) % 256) ^^^ key) % 256)) n = E
    cases E <;> rfl
  · subst hm
    have hev : events s (sym MODE_2 b)
        = [on_message (write buf k (((((buf k <<< 1) ||| b) % 256) ^^^ key) % 256)) n] := by
      have hsym : sym MODE_2 b = [b] := rfl
      simp only [hsym, events, e1]
    unfold frames
    rw [hev]
    generalize on_message (write buf k (((((buf k <<< 1) ||| b) % 256) ^^^ key) % 256)) n = E
    cases E <;> rfl
theorem line_bitsMSB (m w : Nat) :
    line m (bitsMSB w) = line m (bitsHigh w) ++ sym m ((w >>> 0) % 2) := by
  rw [bitsMSB_split, line_append]
  simp [line]

theorem last_value (buf : Nat → Nat) (k w key : Nat) :
    ((((write buf k (accum (buf k) (bitsHigh w)) k <<< 1) ||| ((w >>> 0) % 2)) % 256) ^^^ key)
      % 256 = dewhiten w key := by
  rw [write_same, accum_last]
  rfl

theorem last_write (buf : Nat → Nat) (k w key : Nat) :
    write (write buf k (accum (buf k) (bitsHigh w))) k
      (((((write buf k (accum (buf k) (bitsHigh w)) k <<< 1) ||| ((w >>> 0) % 2)) % 256)
        ^^^ key) % 256) = write buf k (dewhiten w key) := by
  rw [last_value, write_write]

/-- The seven leading bits of a byte, from bit position 0. -/
theorem feed_high (s : Framer) (st m key n k w : Nat) (buf : Nat → Nat)
    (h : At s st m key n k 0 buf)
    (hst : st = STATE_RECEIVING_MSG_LEN ∨ st = STATE_RECEIVING_MSG)
    (hm : m = MODE_1 ∨ m = MODE_2) :
    At (feed s (line m (bitsHigh w))) st m key n k 7
      (write buf k (accum (buf k) (bitsHigh w))) ∧
    ∀ e ∈ events s (line m (bitsHigh w)), e = Event.idle := by
  have := feed_line_shift (bitsHigh w) s st m key n k 0 buf h hst hm (by simp [bitsHigh])
  simpa using this

/-- The Mode 1 length byte. -/
theorem feed_byte_len1 (s : Framer) (key n k w : Nat) (buf : Nat → Nat)
    (h : At s STATE_RECEIVING_MSG_LEN MODE_1 key n k 0 buf) :
    At (feed s (line MODE_1 (bitsMSB w))) STATE_RECEIVING_MSG MODE_1 key
      ((dewhiten w key + 2) % 65536) ((k + 1) % 256) 0 (write buf k (dewhiten w key)) ∧
    ∀ e ∈ events s (line MODE_1 (bitsMSB w)), e = Event.idle := by
  obtain ⟨a1, a2⟩ := feed_high s _ _ key n k w buf h (Or.inl rfl) (Or.inl rfl)
  obtain ⟨b1, b2⟩ := feed_sym_len1 _ key n k ((w >>> 0) % 2) _ a1
  rw [last_value, write_write] at b1
  rw [line_bitsMSB, feed_append]
  exact ⟨b1, events_idle_append _ _ _ a2 b2⟩

/-- The first Mode 2 length byte. -/
theorem feed_byte_len2_first (s : Framer) (key n w : Nat) (buf : Nat → Nat)
    (h : At s STATE_RECEIVING_MSG_LEN MODE_2 key n 0 0 buf) :
    At (feed s (line MODE_2 (bitsMSB w))) STATE_RECEIVING_MSG_LEN MODE_2 key n 1 0
      (write buf 0 (dewhiten w key)) ∧
    ∀ e ∈ events s (line MODE_2 (bitsMSB w)), e = Event.idle := by
  obtain ⟨a1, a2⟩ := feed_high s _ _ key n 0 w buf h (Or.inl rfl) (Or.inr rfl)
  obtain ⟨b1, _, b2⟩ := feed_sym_len2 _ key n 0 ((w >>> 0) % 2) _ a1
  have b3 := b1 (by decide)
  rw [last_write] at b3
  rw [line_bitsMSB, feed_append]
  exact ⟨b3, events_idle_append _ _ _ a2 b2⟩

/-- The second Mode 2 length byte. -/
theorem feed_byte_len2_second (s : Framer) (key n w : Nat) (buf : Nat → Nat)
    (h : At s STATE_RECEIVING_MSG_LEN MODE_2 key n 1 0 buf) :
    At (feed s (line MODE_2 (bitsMSB w))) STATE_RECEIVING_MSG MODE_2 key
      ((((buf 0 <<< 8) ||| dewhiten w key) % 65536 + 2) % 65536) 2 0
      (write buf 1 (dewhiten w key)) ∧
    ∀ e ∈ events s (line MODE_2 (bitsMSB w)), e = Event.idle := by
  obtain ⟨a1, a2⟩ := feed_high s _ _ key n 1 w buf h (Or.inl rfl) (Or.inr rfl)
  obtain ⟨_, b1, b2⟩ := feed_sym_len2 _ key n 1 ((w >>> 0) % 2) _ a1
  have b3 := b1 rfl
  rw [last_write, write_same, write_other _ _ _ _ (by decide : (0 : Nat) ≠ 1)] at b3
  rw [line_bitsMSB, feed_append]
  exact ⟨b3, events_idle_append _ _ _ a2 b2⟩

/-- A body byte that is not the last one. -/
theorem feed_byte_body_more (s : Framer) (m key n k w : Nat) (buf : Nat → Nat)
    (h : At s STATE_RECEIVING_MSG m key n k 0 buf) (hm : m = MODE_1 ∨ m = MODE_2)
    (hk : (k + 1) % 256 ≠ n) :
    At (feed s (line m (bitsMSB w))) STATE_RECEIVING_MSG m key n ((k + 1) % 256) 0
      (write buf k (dewhiten w key)) ∧
    ∀ e ∈ events s (line m (bitsMSB w)), e = Event.idle := by
  obtain ⟨a1, a2⟩ := feed_high s _ _ key n k w buf h (Or.inr rfl) hm
  obtain ⟨b1, b2⟩ := feed_sym_body_more _ m key n k ((w >>> 0) % 2) _ a1 hm hk
  rw [last_write] at b1
  rw [line_bitsMSB, feed_append]
  exact ⟨b1, events_idle_append _ _ _ a2 b2⟩

theorem frames_of_idle (s : Framer) (l : List Nat) (h : ∀ e ∈ events s l, e = Event.idle) :
    frames s l = [] := by
  unfold frames
  rw [List.filterMap_eq_nil_iff]
  intro e he
  rw [h e he]
  rfl

/-- The last body byte. -/
theorem feed_byte_body_done (s : Framer) (m key n k w : Nat) (buf : Nat → Nat)
    (h : At s STATE_RECEIVING_MSG m key n k 0 buf) (hm : m = MODE_1 ∨ m = MODE_2)
    (hk : (k + 1) % 256 = n) :
    frames s (line m (bitsMSB w))
      = ((on_message (write buf k (dewhiten w key)) n).frame?).toList := by
  obtain ⟨a1, a2⟩ := feed_high s _ _ key n k w buf h (Or.inr rfl) hm
  have b1 := feed_sym_body_done _ m key n k ((w >>> 0) % 2) _ a1 hm hk
  rw [last_write] at b1
  rw [line_bitsMSB, frames_append, frames_of_idle _ _ a2, b1]
  rfl

theorem dewhiten_xor (v key : Nat) (hv : v < 256) (hk : key < 256) :
    dewhiten (v ^^^ key) key = v := by
  unfold dewhiten
  have h1 : v ^^^ key < 256 := Nat.xor_lt_two_pow (n := 8) hv hk
  rw [Nat.mod_eq_of_lt h1, Nat.xor_assoc, Nat.xor_self, Nat.xor_zero, Nat.mod_eq_of_lt hv]

theorem wireBits_cons (key v : Nat) (vs : List Nat) :
    wireBits key (v :: vs) = bitsMSB (v ^^^ key) ++ wireBits key vs := by
  simp [wireBits]

/-- Body bytes `vs` none of which is the last one. -/
theorem feed_body (vs : List Nat) (s : Framer) (m key n k : Nat) (buf : Nat → Nat)
    (h : At s STATE_RECEIVING_MSG m key n k 0 buf) (hm : m = MODE_1 ∨ m = MODE_2)
    (hkey : key < 256) (hvs : ∀ v ∈ vs, v < 256) (hk : k + vs.length < n) (hn : n ≤ 256) :
    At (feed s (line m (wireBits key vs))) STATE_RECEIVING_MSG m key n (k + vs.length) 0
      (writeList buf k vs) ∧
    ∀ e ∈ events s (line m (wireBits key vs)), e = Event.idle := by
  induction vs generalizing s k buf with
  | nil =>
    simp only [wireBits, List.flatMap_nil, line, feed, events, List.length_nil, Nat.add_zero,
      writeList]
    exact ⟨h, by simp⟩
  | cons v vs ih =>
    simp only [List.length_cons] at hk
    have hk1 : (k + 1) % 256 = k + 1 := Nat.mod_eq_of_lt (by omega)
    obtain ⟨a1, a2⟩ := feed_byte_body_more s m key n k (v ^^^ key) buf h hm
      (by rw [hk1]; omega)
    rw [hk1, dewhiten_xor v key (hvs v (List.mem_cons_self _ _)) hkey] at a1
    obtain ⟨b1, b2⟩ := ih _ (k + 1) _ a1 (fun x hx => hvs x (List.mem_cons_of_mem _ hx))
      (by omega)
    rw [wireBits_cons, line_append, feed_append]
    refine ⟨?_, events_idle_append _ _ _ a2 b2⟩
    have e : k + (v :: vs).length = k + 1 + vs.length := by
      simp only [List.length_cons]; omega
    rw [e]
    exact b1
/-! ## Whole frames -/

theorem writeList_apply (vs : List Nat) (buf : Nat → Nat) (k i : Nat) :
    writeList buf k vs i
      = if k ≤ i ∧ i < k + vs.length then vs.getD (i - k) 0 else buf i := by
  induction vs generalizing buf k with
  | nil =>
    have : ¬ (k ≤ i ∧ i < k + ([] : List Nat).length) := by
      simp only [List.length_nil]; omega
    rw [if_neg this]
    rfl
  | cons v vs ih =>
    simp only [writeList, ih, List.length_cons]
    by_cases h1 : k + 1 ≤ i ∧ i < k + 1 + vs.length
    · rw [if_pos h1, if_pos (by omega)]
      have e : i - k = (i - (k + 1)) + 1 := by omega
      rw [e, List.getD_cons_succ]
    · rw [if_neg h1]
      by_cases h2 : i = k
      · subst h2
        rw [write_same, if_pos (by omega), Nat.sub_self, List.getD_cons_zero]
      · rw [write_other _ _ _ _ h2, if_neg (by omega)]

theorem writeList_append (a b : List Nat) (buf : Nat → Nat) (k : Nat) :
    writeList buf k (a ++ b) = writeList (writeList buf k a) (k + a.length) b := by
  induction a generalizing buf k with
  | nil => rfl
  | cons v vs ih =>
    have e : k + (v :: vs).length = k + 1 + vs.length := by
      simp only [List.length_cons]; omega
    rw [e]
    exact ih (write buf k v) (k + 1)

theorem writeList_zero (F : List Nat) : writeList (fun _ => 0) 0 F = ofList F := by
  funext i
  rw [writeList_apply]
  unfold ofList
  by_cases h : i < F.length
  · rw [if_pos (by omega), Nat.sub_zero]
  · rw [if_neg (by omega), List.getD_eq_default _ _ (by omega)]

theorem map_ofList_range (F : List Nat) : (List.range F.length).map (ofList F) = F := by
  apply List.ext_getElem
  · simp
  · intro n h1 h2
    simp [ofList, List.getElem?_eq_getElem h2]

/-- A body of at most 255 bytes followed by its CRC, low byte first, is
printed by `on_message`. -/
theorem on_message_frame (B : List Nat) (hB : B.length < 256) :
    on_message (ofList (B ++ [crcOf B % 256, crcOf B / 256])) (B.length + 2)
      = Event.emitted (B ++ [crcOf B % 256, crcOf B / 256]) := by
  have hc : crc_ccitt (ofList (B ++ [crcOf B % 256, crcOf B / 256])) B.length = crcOf B := by
    unfold crcOf
    apply crc_ccitt_congr
    intro k hk
    rw [Nat.mod_eq_of_lt hB] at hk
    unfold ofList
    rw [List.getD_append _ _ _ _ hk]
  have hv : validate_crc (ofList (B ++ [crcOf B % 256, crcOf B / 256])) (B.length + 2)
      = some true := by
    apply validate_crc_round_trip _ _ hB
    · rw [hc]
      unfold ofList
      rw [List.getD_append_right _ _ _ _ (Nat.le_refl _), Nat.sub_self]
      rfl
    · rw [hc]
      unfold ofList
      rw [List.getD_append_right _ _ _ _ (Nat.le_succ _)]
      rw [show B.length + 1 - B.length = 1 by omega]
      rfl
  unfold on_message
  rw [hv]
  have hl : B.length + 2 = (B ++ [crcOf B % 256, crcOf B / 256]).length := by simp
  simp only []
  rw [hl, map_ofList_range]
theorem line_mode1 (l : List Nat) : line MODE_1 l = manchester l := by
  unfold line manchester
  congr 1

theorem line_mode2 (l : List Nat) : line MODE_2 l = l := by
  induction l with
  | nil => rfl
  | cons b bs ih => rw [line_cons, ih]; rfl

theorem wireBits_append (key : Nat) (a b : List Nat) :
    wireBits key (a ++ b) = wireBits key a ++ wireBits key b := by
  simp [wireBits]

theorem wireBits_single (key v : Nat) : wireBits key [v] = bitsMSB (v ^^^ key) := by
  simp [wireBits]

set_option maxRecDepth 100000 in
theorem at_afterPreamble1 :
    At afterPreamble1 STATE_RECEIVING_MSG_LEN MODE_1 MODE_1_XOR_KEY 0 0 0 (fun _ => 0) :=
  ⟨by decide, by decide, by decide, by decide, by decide, by decide, fun _ => by decide, rfl⟩

set_option maxRecDepth 100000 in
theorem at_afterPreamble2 :
    At afterPreamble2 STATE_RECEIVING_MSG_LEN MODE_2 MODE_2_XOR_KEY 0 0 0 (fun _ => 0) :=
  ⟨by decide, by decide, by decide, by decide, by decide, by decide,
    fun h => absurd h (by decide), rfl⟩

set_option maxRecDepth 100000 in
theorem frames_preamble1 : frames init (preambleBits MODE_1_PREAMBLE) = [] := by decide

set_option maxRecDepth 100000 in
theorem frames_preamble2 : frames init (preambleBits MODE_2_PREAMBLE) = [] := by decide

/-- From a framer at the start of the body of a frame `B ++ [lo, hi]` whose
first `k` bytes `H` are in the buffer: the rest of the frame is received and
the frame is printed once. -/
theorem frames_body (s : Framer) (m key : Nat) (H p : List Nat)
    (h : At s STATE_RECEIVING_MSG m key ((H ++ p).length + 2) H.length 0
      (writeList (fun _ => 0) 0 H))
    (hm : m = MODE_1 ∨ m = MODE_2) (hkey : key < 256) (hp : ∀ v ∈ p, v < 256)
    (hlen : (H ++ p).length + 2 ≤ 255) :
    frames s (line m (wireBits key (p ++ [crcOf (H ++ p) % 256, crcOf (H ++ p) / 256])))
      = [H ++ p ++ [crcOf (H ++ p) % 256, crcOf (H ++ p) / 256]] := by
  have hc : crcOf (H ++ p) < 65536 := crc_ccitt_lt _ _
  have hsplit : p ++ [crcOf (H ++ p) % 256, crcOf (H ++ p) / 256]
      = (p ++ [crcOf (H ++ p) % 256]) ++ [crcOf (H ++ p) / 256] := by simp
  have hl : (H ++ p).length = H.length + p.length := List.length_append _ _
  obtain ⟨a1, a2⟩ := feed_body (p ++ [crcOf (H ++ p) % 256]) s m key _ _ _ h hm hkey
    (by
      intro v hv
      rcases List.mem_append.1 hv with hv | hv
      · exact hp v hv
      · rw [List.mem_singleton.1 hv]; omega)
    (by simp only [List.length_append, List.length_singleton]; omega) (by omega)
  have a3 := feed_byte_body_done _ m key _ _ ((crcOf (H ++ p) / 256) ^^^ key) _ a1 hm
    (by
      simp only [List.length_append, List.length_singleton] at hlen ⊢
      rw [Nat.mod_eq_of_lt (by omega)]
      omega)
  rw [dewhiten_xor _ key (by omega) hkey] at a3
  have hbuf : write (writeList (writeList (fun _ => 0) 0 H) H.length
        (p ++ [crcOf (H ++ p) % 256]))
        (H.length + (p ++ [crcOf (H ++ p) % 256]).length) (crcOf (H ++ p) / 256)
      = ofList (H ++ p ++ [crcOf (H ++ p) % 256, crcOf (H ++ p) / 256]) := by
    rw [← writeList_zero]
    have e1 : H ++ p ++ [crcOf (H ++ p) % 256, crcOf (H ++ p) / 256]
        = H ++ ((p ++ [crcOf (H ++ p) % 256]) ++ [crcOf (H ++ p) / 256]) := by simp
    have e3 : writeList (fun _ => 0) 0
          (H ++ ((p ++ [crcOf (H ++ p) % 256]) ++ [crcOf (H ++ p) / 256]))
        = write (writeList (writeList (fun _ => 0) 0 H) H.length
            (p ++ [crcOf (H ++ p) % 256]))
            (H.length + (p ++ [crcOf (H ++ p) % 256]).length) (crcOf (H ++ p) / 256) := by
      rw [writeList_append H,
        writeList_append (p ++ [crcOf (H ++ p) % 256]) [crcOf (H ++ p) / 256], Nat.zero_add]
      rfl
    rw [e1, e3]
  rw [hbuf, on_message_frame (H ++ p) (by omega)] at a3
  rw [hsplit, wireBits_append, line_append, frames_append, frames_of_idle _ _ a2,
    wireBits_single, a3]
  rfl

/-- C4 (amended). Mode 1 reception for every frame the 8-bit byte counter
can complete: the length byte `L` counts itself and the payload, so the
payload `p` has `L - 1` bytes, and `L + 2 ≤ 255`.  Feeding the framer in its
initial state the 64 bits of `0xAAAAAAAA55A59AA6` MSB-first and then the
Manchester half-bits of `[L] ++ p ++ [CRClo, CRChi]`, each byte XORed with
`0x55`, where the CRC is `crc_ccitt` of `[L] ++ p`, emits exactly one frame,
the plaintext `[L] ++ p ++ [CRClo, CRChi]`. -/
theorem mode1_frame_reception (L : Nat) (p : List Nat) (hp : p.length + 1 = L)
    (hL : L ≤ 253) (hbytes : ∀ x ∈ p, x < 256) :
    frames init (preambleBits MODE_1_PREAMBLE ++ manchester (wireBits MODE_1_XOR_KEY
        ([L] ++ p ++ [crcOf ([L] ++ p) % 256, crcOf ([L] ++ p) / 256])))
      = [[L] ++ p ++ [crcOf ([L] ++ p) % 256, crcOf ([L] ++ p) / 256]] := by
  have hk : MODE_1_XOR_KEY < 256 := by decide
  obtain ⟨a1, a2⟩ := feed_byte_len1 afterPreamble1 MODE_1_XOR_KEY 0 0
    (L ^^^ MODE_1_XOR_KEY) _ at_afterPreamble1
  rw [dewhiten_xor L _ (by omega) hk, Nat.mod_eq_of_lt (by omega : L + 2 < 65536)] at a1
  have a3 : At (feed afterPreamble1 (line MODE_1 (bitsMSB (L ^^^ MODE_1_XOR_KEY))))
      STATE_RECEIVING_MSG MODE_1 MODE_1_XOR_KEY (([L] ++ p).length + 2) [L].length 0
      (writeList (fun _ => 0) 0 [L]) := by
    have e : ([L] ++ p).length + 2 = L + 2 := by
      simp only [List.length_append, List.length_singleton]; omega
    rw [e]
    exact a1
  have a4 := frames_body _ MODE_1 MODE_1_XOR_KEY [L] p a3 (Or.inl rfl) hk hbytes
    (by simp only [List.length_append, List.length_singleton]; omega)
  have e2 : [L] ++ p ++ [crcOf ([L] ++ p) % 256, crcOf ([L] ++ p) / 256]
      = [L] ++ (p ++ [crcOf ([L] ++ p) % 256, crcOf ([L] ++ p) / 256]) := by simp
  have e0 : feed init (preambleBits MODE_1_PREAMBLE) = afterPreamble1 := rfl
  rw [← line_mode1, frames_append, frames_preamble1, List.nil_append, e0]
  rw [e2, wireBits_append, wireBits_single, line_append, frames_append,
    frames_of_idle _ _ a2, List.nil_append]
  rw [← e2]
  exact a4
set_option maxRecDepth 100000 in
/-- Witness for C4 (amended): length byte 4, payload `01 02 03`. -/
theorem mode1_frame_reception_witness :
    ([1, 2, 3].length + 1 = 4 ∧ 4 ≤ 253 ∧ ∀ x ∈ [1, 2, 3], x < 256) ∧
    frames init (preambleBits MODE_1_PREAMBLE ++ manchester (wireBits MODE_1_XOR_KEY
        ([4] ++ [1, 2, 3] ++ [crcOf ([4] ++ [1, 2, 3]) % 256, crcOf ([4] ++ [1, 2, 3]) / 256])))
      = [[4] ++ [1, 2, 3] ++ [crcOf ([4] ++ [1, 2, 3]) % 256, crcOf ([4] ++ [1, 2, 3]) / 256]] :=
  ⟨⟨by decide, by decide, by decide⟩,
   mode1_frame_reception 4 [1, 2, 3] (by decide) (by decide) (by decide)⟩

set_option maxRecDepth 100000 in
/-- C4 (counterexample). Scenario S2 itself, length byte `03` with the
three payload bytes `01 02 03` and the CRC of `03 01 02 03`: the framer takes
`msg_len = 3 + 2 = 5`, completes on the first CRC byte, the check over
`03 01 02` fails and no frame is emitted. -/
theorem mode1_length_3_payload_3_emits_nothing :
    [1, 2, 3].length = 3 ∧
    frames init (preambleBits MODE_1_PREAMBLE ++ manchester (wireBits MODE_1_XOR_KEY
        ([3] ++ [1, 2, 3] ++ [crcOf ([3] ++ [1, 2, 3]) % 256, crcOf ([3] ++ [1, 2, 3]) / 256])))
      = [] := by
  decide

theorem length_bytes (L : Nat) : ((L >>> 8) <<< 8) ||| (L &&& 0xFF) = L := by
  have h1 : L &&& 0xFF = L % 256 := Nat.and_pow_two_sub_one_eq_mod L 8
  rw [h1, shl8_or _ _ (Nat.mod_lt _ (by decide)), Nat.shiftRight_eq_div_pow]
  omega

/-- C5 (amended). Mode 2 reception for every frame the 8-bit byte counter
can complete: the length field `L` counts the two length bytes and the
payload, so the payload `p` has `L - 2` bytes, and `L + 2 ≤ 255`.  Feeding the
framer in its initial state the 64 bits of `0xAAAAAAAA9A99A656` MSB-first and
then, MSB-first with every bit consumed, the bytes
`[L >> 8, L & 0xFF] ++ p ++ [CRClo, CRChi]`, each XORed with `0xAA`, where the
CRC is that of the two length bytes followed by `p`, emits exactly one frame,
the plaintext `[L >> 8, L & 0xFF] ++ p ++ [CRClo, CRChi]`. -/
theorem mode2_frame_reception (L : Nat) (p : List Nat) (hp : p.length + 2 = L)
    (hL : L ≤ 253) (hbytes : ∀ x ∈ p, x < 256) :
    frames init (preambleBits MODE_2_PREAMBLE ++ wireBits MODE_2_XOR_KEY
        ([L >>> 8, L &&& 0xFF] ++ p ++
          [crcOf ([L >>> 8, L &&& 0xFF] ++ p) % 256, crcOf ([L >>> 8, L &&& 0xFF] ++ p) / 256]))
      = [[L >>> 8, L &&& 0xFF] ++ p ++
          [crcOf ([L >>> 8, L &&& 0xFF] ++ p) % 256,
           crcOf ([L >>> 8, L &&& 0xFF] ++ p) / 256]] := by
  have hk : MODE_2_XOR_KEY < 256 := by decide
  have hhi : L >>> 8 < 256 := by rw [Nat.shiftRight_eq_div_pow]; omega
  have hlo : L &&& 0xFF < 256 := by
    rw [show L &&& 0xFF = L % 256 from Nat.and_pow_two_sub_one_eq_mod L 8]; omega
  obtain ⟨a1, a2⟩ := feed_byte_len2_first afterPreamble2 MODE_2_XOR_KEY 0
    ((L >>> 8) ^^^ MODE_2_XOR_KEY) _ at_afterPreamble2
  rw [dewhiten_xor _ _ hhi hk] at a1
  obtain ⟨b1, b2⟩ := feed_byte_len2_second _ MODE_2_XOR_KEY 0
    ((L &&& 0xFF) ^^^ MODE_2_XOR_KEY) _ a1
  rw [dewhiten_xor _ _ hlo hk, write_same, length_bytes,
    Nat.mod_eq_of_lt (by omega : L < 65536), Nat.mod_eq_of_lt (by omega : L + 2 < 65536)] at b1
  have b3 : At (feed (feed afterPreamble2
        (line MODE_2 (bitsMSB ((L >>> 8) ^^^ MODE_2_XOR_KEY))))
        (line MODE_2 (bitsMSB ((L &&& 0xFF) ^^^ MODE_2_XOR_KEY))))
      STATE_RECEIVING_MSG MODE_2 MODE_2_XOR_KEY (([L >>> 8, L &&& 0xFF] ++ p).length + 2)
      [L >>> 8, L &&& 0xFF].length 0 (writeList (fun _ => 0) 0 [L >>> 8, L &&& 0xFF]) := by
    have e : ([L >>> 8, L &&& 0xFF] ++ p).length + 2 = L + 2 := by
      simp only [List.length_append, List.length_cons, List.length_nil]; omega
    rw [e]
    exact b1
  have a4 := frames_body _ MODE_2 MODE_2_XOR_KEY [L >>> 8, L &&& 0xFF] p b3 (Or.inr rfl) hk
    hbytes (by simp only [List.length_append, List.length_cons, List.length_nil]; omega)
  have e0 : feed init (preambleBits MODE_2_PREAMBLE) = afterPreamble2 := rfl
  have e2 : [L >>> 8, L &&& 0xFF] ++ p ++
        [crcOf ([L >>> 8, L &&& 0xFF] ++ p) % 256, crcOf ([L >>> 8, L &&& 0xFF] ++ p) / 256]
      = [L >>> 8] ++ ([L &&& 0xFF] ++ (p ++
        [crcOf ([L >>> 8, L &&& 0xFF] ++ p) % 256,
         crcOf ([L >>> 8, L &&& 0xFF] ++ p) / 256])) := by simp
  rw [line_mode2] at a2 b2 a4
  rw [line_mode2, line_mode2] at a4
  rw [frames_append, frames_preamble2, List.nil_append, e0]
  rw [e2, wireBits_append, wireBits_single, frames_append, frames_of_idle _ _ a2,
    List.nil_append, wireBits_append, wireBits_single, frames_append]
  rw [line_mode2] at b2
  rw [frames_of_idle _ _ b2, List.nil_append, ← e2]
  exact a4

set_option maxRecDepth 100000 in
/-- Witness for C5 (amended): length field 5, payload `01 02 03`. -/
theorem mode2_frame_reception_witness :
    ([1, 2, 3].length + 2 = 5 ∧ 5 ≤ 253 ∧ ∀ x ∈ [1, 2, 3], x < 256) ∧
    frames init (preambleBits MODE_2_PREAMBLE ++ wireBits MODE_2_XOR_KEY
        ([5 >>> 8, 5 &&& 0xFF] ++ [1, 2, 3] ++
          [crcOf ([5 >>> 8, 5 &&& 0xFF] ++ [1, 2, 3]) % 256,
           crcOf ([5 >>> 8, 5 &&& 0xFF] ++ [1, 2, 3]) / 256]))
      = [[5 >>> 8, 5 &&& 0xFF] ++ [1, 2, 3] ++
          [crcOf ([5 >>> 8, 5 &&& 0xFF] ++ [1, 2, 3]) % 256,
           crcOf ([5 >>> 8, 5 &&& 0xFF] ++ [1, 2, 3]) / 256]] :=
  ⟨⟨by decide, by decide, by decide⟩,
   mode2_frame_reception 5 [1, 2, 3] (by decide) (by decide) (by decide)⟩

set_option maxRecDepth 100000 in
/-- C5 (counterexample). Scenario S3 itself, length field 5 with five payload
bytes `01 02 03 04 05` and the CRC of `00 05 01 02 03 04 05`: the framer takes
`msg_len = 5 + 2 = 7`, completes on the last payload byte, the check over
`00 05 01 02 03` fails and no frame is emitted. -/
theorem mode2_length_5_payload_5_emits_nothing :
    [1, 2, 3, 4, 5].length = 5 ∧
    frames init (preambleBits MODE_2_PREAMBLE ++ wireBits MODE_2_XOR_KEY
        ([5 >>> 8, 5 &&& 0xFF] ++ [1, 2, 3, 4, 5] ++
          [crcOf ([5 >>> 8, 5 &&& 0xFF] ++ [1, 2, 3, 4, 5]) % 256,
           crcOf ([5 >>> 8, 5 &&& 0xFF] ++ [1, 2, 3, 4, 5]) / 256]))
      = [] := by
  decide
/-! ## Noise trip -/

theorem calc_symbol_count_one (m : Nat) : calc_symbol_count m 1 = 0 := by
  unfold calc_symbol_count
  split <;> decide

/-- One phase delta that ends a zero-symbol run. -/
theorem slice_zero_run (hi lo : Nat) (st : Slicer) (d : Int) (hd : ¬ d * st.last_angle > 0)
    (hz : calc_symbol_count st.framer.mode st.sample_count = 0) :
    slice hi lo st d =
      if st.framer.state > STATE_SEARCHING then
        if (st.noise_count + 1) % 256 > NOISE_THRESHOLD then
          ({ st with framer := reset st.framer, noise_count := 0, sample_count := 1,
                     last_angle := d }, [])
        else
          ({ st with noise_count := (st.noise_count + 1) % 256, sample_count := 1,
                     last_angle := d }, [])
      else
        ({ st with sample_count := 1, last_angle := d }, []) := by
  unfold slice
  rw [if_neg hd]
  simp only [hz, ne_eq, not_true_eq_false, if_false]

/-- Once the framer is back in Searching (Mode 1) with `noise_count = 0`,
further single-sample runs change none of that and deliver nothing. -/
theorem slicer_feed_tripped (hi lo : Nat) (ds : List Int) (st : Slicer)
    (hf : flips st.last_angle ds = true)
    (hz : calc_symbol_count st.framer.mode st.sample_count = 0)
    (h1 : st.framer.state = STATE_SEARCHING) (h2 : st.framer.mode = MODE_1)
    (h3 : st.noise_count = 0) :
    (slicer_feed hi lo st ds).framer.state = STATE_SEARCHING ∧
    (slicer_feed hi lo st ds).framer.mode = MODE_1 ∧
    (slicer_feed hi lo st ds).noise_count = 0 ∧
    slicer_events hi lo st ds = [] := by
  induction ds generalizing st with
  | nil => exact ⟨h1, h2, h3, rfl⟩
  | cons d ds ih =>
    simp only [flips, Bool.and_eq_true, Bool.not_eq_true', decide_eq_false_iff_not] at hf
    have e := slice_zero_run hi lo st d hf.1 hz
    rw [if_neg (by rw [h1]; decide)] at e
    simp only [slicer_feed, slicer_events, e, List.nil_append]
    exact ih _ hf.2 (by simp only [h2]; exact calc_symbol_count_one _) h1 h2 h3

/-- The general form of the noise trip: enough consecutive run ends without
a same-sign phase delta in between. -/
theorem slicer_feed_trip (hi lo : Nat) (ds : List Int) (st : Slicer)
    (hf : flips st.last_angle ds = true)
    (hz : calc_symbol_count st.framer.mode st.sample_count = 0)
    (hs : st.framer.state ≠ STATE_SEARCHING) (hn : st.noise_count < 255)
    (hl : 1 ≤ ds.length) (hl6 : 6 ≤ st.noise_count + ds.length) :
    (slicer_feed hi lo st ds).framer.state = STATE_SEARCHING ∧
    (slicer_feed hi lo st ds).framer.mode = MODE_1 ∧
    (slicer_feed hi lo st ds).noise_count = 0 ∧
    slicer_events hi lo st ds = [] := by
  induction ds generalizing st with
  | nil => simp at hl
  | cons d ds ih =>
    simp only [flips, Bool.and_eq_true, Bool.not_eq_true', decide_eq_false_iff_not] at hf
    simp only [List.length_cons] at hl6
    have e := slice_zero_run hi lo st d hf.1 hz
    have hpos : st.framer.state > STATE_SEARCHING := Nat.pos_of_ne_zero hs
    rw [if_pos hpos, Nat.mod_eq_of_lt (by omega : st.noise_count + 1 < 256)] at e
    by_cases hth : st.noise_count + 1 > NOISE_THRESHOLD
    · rw [if_pos hth] at e
      simp only [slicer_feed, slicer_events, e, List.nil_append]
      exact slicer_feed_tripped hi lo ds _ hf.2 (calc_symbol_count_one _) rfl rfl rfl
    · rw [if_neg hth] at e
      simp only [slicer_feed, slicer_events, e, List.nil_append]
      have hth2 : st.noise_count + 1 ≤ 5 := Nat.le_of_not_gt hth
      exact ih _ hf.2 (calc_symbol_count_one _) hs (by simp only []; omega)
        (by omega) (by simp only []; omega)

/-- C9 (amended). For every slicer state in which the framer is not
Searching (and `noise_count` has not wrapped to 255), if the run in progress
maps to zero symbols and each of the following six phase deltas ends the run
before it (so each of the five later runs is a single sample and no same-sign
delta clears `noise_count` in between), then after the sixth delta the framer
has been reset to Searching (Mode 1), `noise_count` is 0, and `on_symbol` was
never called, so no frame has been emitted. -/
theorem noise_trip (hi lo : Nat) (st : Slicer) (ds : List Int)
    (hs : st.framer.state ≠ STATE_SEARCHING) (hn : st.noise_count < 255)
    (hz : calc_symbol_count st.framer.mode st.sample_count = 0)
    (hl : ds.length = 6) (hf : flips st.last_angle ds = true) :
    (slicer_feed hi lo st ds).framer.state = STATE_SEARCHING ∧
    (slicer_feed hi lo st ds).framer.mode = MODE_1 ∧
    (slicer_feed hi lo st ds).noise_count = 0 ∧
    slicer_events hi lo st ds = [] :=
  slicer_feed_trip hi lo ds st hf hz hs hn (by omega) (by omega)

set_option maxRecDepth 100000 in
/-- Witness for C9 (amended): after the Mode 1 preamble+syncword, a run of
two samples followed by five single-sample runs. -/
theorem noise_trip_witness :
    (sampleSlicer.framer.state ≠ STATE_SEARCHING ∧ sampleSlicer.noise_count < 255 ∧
      calc_symbol_count sampleSlicer.framer.mode sampleSlicer.sample_count = 0 ∧
      flips sampleSlicer.last_angle [-1, 1, -1, 1, -1, 1] = true) ∧
    (slicer_feed 1 0 sampleSlicer [-1, 1, -1, 1, -1, 1]).framer.state = STATE_SEARCHING ∧
    (slicer_feed 1 0 sampleSlicer [-1, 1, -1, 1, -1, 1]).framer.mode = MODE_1 ∧
    (slicer_feed 1 0 sampleSlicer [-1, 1, -1, 1, -1, 1]).noise_count = 0 ∧
    slicer_events 1 0 sampleSlicer [-1, 1, -1, 1, -1, 1] = [] :=
  ⟨⟨by decide, by decide, by decide, by decide⟩,
   noise_trip 1 0 sampleSlicer [-1, 1, -1, 1, -1, 1] (by decide) (by decide) (by decide)
     (by decide) (by decide)⟩

set_option maxRecDepth 100000 in
/-- C9 (counterexample). After the Mode 1 preamble+syncword and two samples
into a run, twelve more phase deltas forming six runs of two samples each and
one delta ending the last of them: every one of these runs maps to zero
symbols in Mode 1, yet the framer is still receiving and `noise_count` is 1,
because the second sample of each run clears `noise_count`. -/
theorem six_zero_symbol_runs_without_trip :
    sampleSlicer.framer.state = STATE_RECEIVING_MSG_LEN ∧
    sampleSlicer.framer.mode = MODE_1 ∧
    calc_symbol_count MODE_1 2 = 0 ∧
    (slicer_feed 1 0 sampleSlicer
      [-1, -1, 1, 1, -1, -1, 1, 1, -1, -1, 1, 1, -1]).framer.state
        = STATE_RECEIVING_MSG_LEN ∧
    (slicer_feed 1 0 sampleSlicer
      [-1, -1, 1, 1, -1, -1, 1, 1, -1, -1, 1, 1, -1]).framer.state ≠ STATE_SEARCHING ∧
    (slicer_feed 1 0 sampleSlicer
      [-1, -1, 1, 1, -1, -1, 1, 1, -1, -1, 1, 1, -1]).noise_count = 1 := by
  decide
/-! ## Length handed to `on_message` -/

/-- C19. For every sequence of symbols fed to the framer from its initial
state, when the next call of `on_symbol` hands a frame to `on_message`, the
length it passes is `msg_len`, which equals the 8-bit counter `byte` and so is
at most 255; an emitted frame has at most 255 bytes. -/
theorem handed_length_le_255 (bits : List Nat) (b : Nat)
    (h : (on_symbol (feed init bits) b).2 ≠ Event.idle) :
    (on_symbol (feed init bits) b).2
      = on_message (stored (feed init bits) b) (feed init bits).msg_len ∧
    (feed init bits).msg_len ≤ 255 ∧
    (on_symbol (feed init bits) b).1.byte = (feed init bits).msg_len ∧
    ∀ f, (on_symbol (feed init bits) b).2 = Event.emitted f → f.length ≤ 255 := by
  obtain ⟨hs, _, _, hd, he⟩ := on_symbol_event (feed init bits) b h
  have hr := (on_symbol_receiving (feed init bits) b (Or.inr hs)).2.2.2 h
  have hl : (feed init bits).msg_len ≤ 255 := by
    have := Nat.mod_lt ((feed init bits).byte + 1) (by decide : 0 < 256)
    omega
  refine ⟨he, hl, hr.2.2.2.1, ?_⟩
  intro f hf
  rw [he] at hf
  obtain ⟨_, hf2⟩ := on_message_emitted _ _ _ hf
  rw [hf2]
  simpa using hl

set_option maxRecDepth 100000 in
/-- Witness for C19: the Mode 1 frame `04 01 02 03 c5 d5`. -/
theorem handed_length_le_255_witness :
    (on_symbol (feed init (preambleBits MODE_1_PREAMBLE ++ sampleBody1)) 0).2 ≠ Event.idle ∧
    (feed init (preambleBits MODE_1_PREAMBLE ++ sampleBody1)).msg_len ≤ 255 :=
  ⟨by decide,
   (handed_length_le_255 (preambleBits MODE_1_PREAMBLE ++ sampleBody1) 0 (by decide)).2.1⟩

/-! ## Searching implies Mode 1 -/

theorem on_symbol_searching_mode (s : Framer) (b : Nat)
    (h : s.state = STATE_SEARCHING → s.mode = MODE_1) :
    (on_symbol s b).1.state = STATE_SEARCHING → (on_symbol s b).1.mode = MODE_1 := by
  simp only [on_symbol]
  split_ifs <;> simp_all [reset]

theorem calc_symbol_count_mode1 (sc : Nat) :
    calc_symbol_count MODE_1 sc = (sc % 256 * 1000 / 1125 + 5) / 10 := by
  unfold calc_symbol_count
  simp only [if_true, MODE_1_SPS]
  have := Nat.mod_lt sc (by decide : 0 < 256)
  omega

theorem reachable_feed (bits : List Nat) (s : Framer) (h : Reachable s) :
    Reachable (feed s bits) := by
  induction bits generalizing s with
  | nil => exact h
  | cons b bs ih => exact ih _ (Reachable.step s b h)

/-- C20. In every state reachable from the initial state through `on_symbol`
and `reset`, Searching implies Mode 1, so that `calc_symbol_count` divides by
the Mode 1 samples-per-symbol 1125 while the framer searches for either
preamble. -/
theorem searching_implies_mode1 (s : Framer) (h : Reachable s)
    (hs : s.state = STATE_SEARCHING) :
    s.mode = MODE_1 ∧
    ∀ sc, calc_symbol_count s.mode sc = (sc % 256 * 1000 / MODE_1_SPS + 5) / 10 := by
  have hm : s.state = STATE_SEARCHING → s.mode = MODE_1 := by
    clear hs
    induction h with
    | init => intro _; rfl
    | step s b _ ih => exact on_symbol_searching_mode s b ih
    | reset s _ _ => intro _; rfl
  refine ⟨hm hs, fun sc => ?_⟩
  rw [hm hs]
  exact calc_symbol_count_mode1 sc

set_option maxRecDepth 100000 in
/-- Witness for C20: the framer after the accepted frame `04 01 02 03 c5 d5`. -/
theorem searching_implies_mode1_witness :
    (on_symbol (feed init (preambleBits MODE_1_PREAMBLE ++ sampleBody1)) 0).1.state
      = STATE_SEARCHING ∧
    (on_symbol (feed init (preambleBits MODE_1_PREAMBLE ++ sampleBody1)) 0).1.mode = MODE_1 :=
  ⟨by decide,
   (searching_implies_mode1 _
      (Reachable.step _ 0 (reachable_feed (preambleBits MODE_1_PREAMBLE ++ sampleBody1) init
        Reachable.init))
      (by decide)).1⟩
/-! ## Symbol count -/

theorem floor_half_up (a b : Nat) (hb : 0 < b) :
    ⌊(a : ℚ) / b + 1 / 2⌋₊ = (2 * a + b) / (2 * b) := by
  have hb' : (b : ℚ) ≠ 0 := by exact_mod_cast hb.ne'
  have e : (a : ℚ) / b + 1 / 2 = ((2 * a + b : ℕ) : ℚ) / ((2 * b : ℕ) : ℚ) := by
    push_cast
    field_simp
    ring
  rw [e, Nat.floor_div_eq_div]

set_option maxRecDepth 100000 in
theorem calc_symbol_count_table :
    ∀ sc, sc < 256 →
      calc_symbol_count MODE_1 sc = (2 * (sc * 100) + MODE_1_SPS) / (2 * MODE_1_SPS) ∧
      calc_symbol_count MODE_2 sc = (2 * (sc * 100) + MODE_2_SPS) / (2 * MODE_2_SPS) ∧
      (sc * 1000 / MODE_1_SPS + 5) / 10 < 256 ∧ (sc * 1000 / MODE_2_SPS + 5) / 10 < 256 := by
  decide

/-- C13. For every `sample_count` in 0..255, `calc_symbol_count` is
`sample_count * 100 / SPS_x100` rounded half-up in exact rational arithmetic,
with `SPS_x100 = 1125` in Mode 1 and 281 in Mode 2; the intermediate product
fits an `int` and the result fits the 8-bit return type. -/
theorem calc_symbol_count_rounds (sc : Nat) (h : sc ≤ 255) :
    calc_symbol_count MODE_1 sc = ⌊((sc * 100 : ℕ) : ℚ) / (MODE_1_SPS : ℕ) + 1 / 2⌋₊ ∧
    calc_symbol_count MODE_2 sc = ⌊((sc * 100 : ℕ) : ℚ) / (MODE_2_SPS : ℕ) + 1 / 2⌋₊ ∧
    sc * 1000 < 2 ^ 31 ∧
    (sc * 1000 / MODE_1_SPS + 5) / 10 < 256 ∧ (sc * 1000 / MODE_2_SPS + 5) / 10 < 256 := by
  rw [floor_half_up _ _ (by decide), floor_half_up _ _ (by decide)]
  obtain ⟨h1, h2, h3, h4⟩ := calc_symbol_count_table sc (by omega)
  exact ⟨h1, h2, by omega, h3, h4⟩

/-- Witness for C13: six samples are one Mode 1 symbol. -/
theorem calc_symbol_count_rounds_witness :
    (6 : Nat) ≤ 255 ∧
    calc_symbol_count MODE_1 6 = ⌊((6 * 100 : ℕ) : ℚ) / (MODE_1_SPS : ℕ) + 1 / 2⌋₊ :=
  ⟨by decide, (calc_symbol_count_rounds 6 (by decide)).1⟩

/-! ## Noise counter at delivery -/

theorem slice_events (hi lo : Nat) (st : Slicer) (a : Int) :
    (slice hi lo st a).2 = events st.framer (delivered hi lo st a) := by
  by_cases h1 : a * st.last_angle > 0
  · simp only [slice, delivered, h1, if_true]
    rfl
  · by_cases h2 : calc_symbol_count st.framer.mode st.sample_count = 0
    · simp only [slice, delivered, h1, h2, if_false, ne_eq, not_true_eq_false,
        List.replicate_zero]
      split_ifs <;> rfl
    · simp only [slice, delivered, h1, h2, if_false, ne_eq, not_false_eq_true, if_true]

theorem slice_framer (hi lo : Nat) (st : Slicer) (a : Int)
    (h : delivered hi lo st a ≠ []) :
    (slice hi lo st a).1.framer = feed st.framer (delivered hi lo st a) ∧
    (slice hi lo st a).1.noise_count = st.noise_count := by
  by_cases h1 : a * st.last_angle > 0
  · simp only [delivered, h1, if_true] at h
    exact absurd rfl h
  · by_cases h2 : calc_symbol_count st.framer.mode st.sample_count = 0
    · simp only [delivered, h1, h2, if_false, List.replicate_zero] at h
      exact absurd rfl h
    · simp only [slice, delivered, h1, h2, if_false, ne_eq, not_false_eq_true, if_true,
        and_self]

theorem slice_noise_inv (hi lo : Nat) (st : Slicer) (a : Int) :
    (slice hi lo st a).1.sample_count = 1 ∨ (slice hi lo st a).1.noise_count = 0 := by
  simp only [slice]
  split_ifs <;> simp

theorem slicer_feed_noise_inv (hi lo : Nat) (ds : List Int) (st : Slicer)
    (h : st.sample_count = 1 ∨ st.noise_count = 0) :
    (slicer_feed hi lo st ds).sample_count = 1 ∨ (slicer_feed hi lo st ds).noise_count = 0 := by
  induction ds generalizing st with
  | nil => exact h
  | cons d ds ih => exact ih _ (slice_noise_inv hi lo st d)

/-- C17. For every sequence of phase deltas processed from the initial
slicer state, when the next phase delta makes the slicer deliver at least one
symbol, `noise_count` is 0 before the delivery and after it. -/
theorem noise_count_zero_at_delivery (hi lo : Nat) (ds : List Int) (d : Int)
    (h : delivered hi lo (slicer_feed hi lo slicer_init ds) d ≠ []) :
    (slicer_feed hi lo slicer_init ds).noise_count = 0 ∧
    (slice hi lo (slicer_feed hi lo slicer_init ds) d).1.noise_count = 0 ∧
    (slice hi lo (slicer_feed hi lo slicer_init ds) d).1.framer
      = feed (slicer_feed hi lo slicer_init ds).framer
          (delivered hi lo (slicer_feed hi lo slicer_init ds) d) := by
  have hinv := slicer_feed_noise_inv hi lo ds slicer_init (Or.inr rfl)
  obtain ⟨hf, hn⟩ := slice_framer hi lo _ d h
  have h0 : (slicer_feed hi lo slicer_init ds).noise_count = 0 := by
    rcases hinv with h1 | h0
    · exfalso
      apply h
      unfold delivered
      split
      · rfl
      · rw [h1, calc_symbol_count_one]; rfl
    · exact h0
  exact ⟨h0, hn.trans h0, hf⟩

set_option maxRecDepth 100000 in
/-- Witness for C17: a run of seven positive phase deltas is one symbol. -/
theorem noise_count_zero_at_delivery_witness :
    delivered 1 0 (slicer_feed 1 0 slicer_init [1, 1, 1, 1, 1, 1, 1]) (-1) = [1] ∧
    (slicer_feed 1 0 slicer_init [1, 1, 1, 1, 1, 1, 1]).noise_count = 0 :=
  ⟨by decide,
   (noise_count_zero_at_delivery 1 0 [1, 1, 1, 1, 1, 1, 1] (-1) (by decide)).1⟩
/-! ## Run length handed to `calc_symbol_count` -/

/-- While the run counter is at most 255 the slicer delivers the symbol
count of the whole run. -/
theorem delivered_short_run (hi lo : Nat) (st : Slicer) (a : Int)
    (h : ¬ a * st.last_angle > 0) (hsc : st.sample_count ≤ 255)
    (hm : st.framer.mode = MODE_1 ∨ st.framer.mode = MODE_2) :
    delivered hi lo st a
      = List.replicate
          ((st.sample_count * 1000 /
            (if st.framer.mode = MODE_1 then MODE_1_SPS else MODE_2_SPS) + 5) / 10)
          (if st.last_angle > 0 then hi else lo) := by
  unfold delivered
  rw [if_neg h]
  congr 1
  unfold calc_symbol_count
  have h4 := calc_symbol_count_table st.sample_count (by omega)
  simp only [STATE_SEARCHING, MODE_1_SPS, MODE_2_SPS] at h4 ⊢
  rw [Nat.mod_eq_of_lt (by omega : st.sample_count < 256)]
  rcases hm with hm | hm
  · simp only [hm, if_true]
    rw [Nat.mod_eq_of_lt (lt_trans h4.2.2.1 (by decide)), Nat.mod_eq_of_lt h4.2.2.1]
  · simp only [hm, show ¬ MODE_2 = MODE_1 by decide, if_false]
    rw [Nat.mod_eq_of_lt (lt_trans h4.2.2.2 (by decide)), Nat.mod_eq_of_lt h4.2.2.2]

/-- C14 (failing input). A run of 256 positive phase deltas from the initial
slicer state: the 16-bit run counter holds 256, for which the formula gives
23 symbols in Mode 1, but the slicer delivers none, because the 8-bit
parameter of `calc_symbol_count` receives 0. -/
theorem run_of_256_samples_delivers_nothing :
    (slicer_feed 1 0 slicer_init (List.replicate 256 1)).sample_count = 256 ∧
    (slicer_feed 1 0 slicer_init (List.replicate 256 1)).framer.mode = MODE_1 ∧
    (256 * 1000 / MODE_1_SPS + 5) / 10 = 23 ∧
    delivered 1 0 (slicer_feed 1 0 slicer_init (List.replicate 256 1)) (-1) = [] ∧
    slicer_delivered 1 0 slicer_init (List.replicate 256 1 ++ [-1]) = [] := by
  decide!
/-! ## A declared length that wraps -/

/-- Body bytes `vs` stored from position `k` on without the position
reaching `n` or wrapping. -/
theorem feed_body_gen (vs : List Nat) (s : Framer) (m key n k : Nat) (buf : Nat → Nat)
    (h : At s STATE_RECEIVING_MSG m key n k 0 buf) (hm : m = MODE_1 ∨ m = MODE_2)
    (hkey : key < 256) (hvs : ∀ v ∈ vs, v < 256) (hk : k + vs.length ≤ 255)
    (hn : ∀ j, k < j → j ≤ k + vs.length → j ≠ n) :
    At (feed s (line m (wireBits key vs))) STATE_RECEIVING_MSG m key n (k + vs.length) 0
      (writeList buf k vs) ∧
    ∀ e ∈ events s (line m (wireBits key vs)), e = Event.idle := by
  induction vs generalizing s k buf with
  | nil =>
    simp only [wireBits, List.flatMap_nil, line, feed, events, List.length_nil, Nat.add_zero,
      writeList]
    exact ⟨h, by simp⟩
  | cons v vs ih =>
    simp only [List.length_cons] at hk hn
    have hk1 : (k + 1) % 256 = k + 1 := Nat.mod_eq_of_lt (by omega)
    obtain ⟨a1, a2⟩ := feed_byte_body_more s m key n k (v ^^^ key) buf h hm
      (by rw [hk1]; exact hn (k + 1) (by omega) (by omega))
    rw [hk1, dewhiten_xor v key (hvs v (List.mem_cons_self _ _)) hkey] at a1
    obtain ⟨b1, b2⟩ := ih _ (k + 1) _ a1 (fun x hx => hvs x (List.mem_cons_of_mem _ hx))
      (by omega) (fun j h1 h2 => hn j (by omega) (by omega))
    rw [wireBits_cons, line_append, feed_append]
    refine ⟨?_, events_idle_append _ _ _ a2 b2⟩
    have e : k + (v :: vs).length = k + 1 + vs.length := by
      simp only [List.length_cons]; omega
    rw [e]
    exact b1

theorem on_message_short (buf : Nat → Nat) (len : Nat) (h : len < 2) :
    on_message buf len = Event.fault len := by
  simp [on_message, validate_crc, h]

/-- The symbol that completes the last byte hands the buffer to
`on_message`. -/
theorem on_symbol_done_event (s : Framer) (m key n k b : Nat) (buf : Nat → Nat)
    (h : At s STATE_RECEIVING_MSG m key n k 7 buf) (hm : m = MODE_1 ∨ m = MODE_2)
    (hk : (k + 1) % 256 = n) :
    (on_symbol s b).2 = on_message (stored s b) n := by
  obtain ⟨h1, h2, h3, h4, h5, h6, h7, h8⟩ := h
  have hg : s.toggle = true ∨ s.mode = MODE_2 := by
    rcases hm with hm | hm
    · exact Or.inl (h7 hm)
    · exact Or.inr (h2.trans hm)
  rw [on_symbol_body s b h1 hg (by rw [h6]; decide), if_pos (by rw [h5, h4]; exact hk), h4]

/-- C18 (failing input). After the Mode 2 preamble+syncword, the length
bytes `ff fe` and 254 zero bytes: `msg_len` is `0xFFFE + 2` reduced to 16
bits, that is 0, the 8-bit position wraps from 255 to 0 on the last byte, and
`on_message` is called with length 0. -/
theorem length_fffe_hands_length_0 :
    (on_symbol (feed init (preambleBits MODE_2_PREAMBLE ++ overflowBody)) 0).2
      = Event.fault 0 := by
  have hk : MODE_2_XOR_KEY < 256 := by decide
  obtain ⟨a1, _⟩ := feed_byte_len2_first afterPreamble2 MODE_2_XOR_KEY 0
    (0xFF ^^^ MODE_2_XOR_KEY) _ at_afterPreamble2
  rw [dewhiten_xor _ _ (by decide) hk] at a1
  obtain ⟨b1, _⟩ := feed_byte_len2_second _ MODE_2_XOR_KEY 0
    (0xFE ^^^ MODE_2_XOR_KEY) _ a1
  rw [dewhiten_xor _ _ (by decide) hk, write_same] at b1
  have e1 : (((0xFF <<< 8) ||| 0xFE) % 65536 + 2) % 65536 = 0 := by decide
  rw [e1] at b1
  obtain ⟨c1, _⟩ := feed_body_gen (List.replicate 253 0) _ MODE_2 MODE_2_XOR_KEY 0 2 _ b1
    (Or.inr rfl) hk
    (by intro v hv; rw [List.eq_of_mem_replicate hv]; decide)
    (Nat.le_of_eq (by rw [List.length_replicate])) (by intro j h1 _; omega)
  obtain ⟨d1, _⟩ := feed_high _ _ _ _ _ _ (0 ^^^ MODE_2_XOR_KEY) _ c1 (Or.inr rfl) (Or.inr rfl)
  have e := on_symbol_done_event _ MODE_2 _ _ _ 0 _ d1 (Or.inr rfl)
    (by rw [List.length_replicate])
  have e0 : feed init (preambleBits MODE_2_PREAMBLE) = afterPreamble2 := rfl
  have e2 : overflowBody
      = bitsMSB (0xFF ^^^ MODE_2_XOR_KEY) ++ (bitsMSB (0xFE ^^^ MODE_2_XOR_KEY) ++
          (wireBits MODE_2_XOR_KEY (List.replicate 253 0) ++
            bitsHigh (0 ^^^ MODE_2_XOR_KEY))) := by
    unfold overflowBody
    rw [wireBits_append, show [0xFF, 0xFE] = [0xFF] ++ [0xFE] from rfl, wireBits_append,
      wireBits_single, wireBits_single]
    simp only [List.append_assoc]
  simp only [line_mode2] at e
  rw [feed_append, e0, e2, feed_append, feed_append, feed_append, e]
  exact on_message_short _ 0 (by decide)
/-! ## Stale bytes -/

theorem on_symbol_searching_msg (s : Framer) (b : Nat) (h : s.state = STATE_SEARCHING) :
    (on_symbol s b).1.msg = s.msg := by
  rw [on_symbol_searching s b h]
  split_ifs <;> rfl

/-- The data bit that completes a byte stores the byte, whatever the state does
next. -/
theorem feed_sym_last_msg (s : Framer) (st m key n k b : Nat) (buf : Nat → Nat)
    (h : At s st m key n k 7 buf)
    (hst : st = STATE_RECEIVING_MSG_LEN ∨ st = STATE_RECEIVING_MSG)
    (hm : m = MODE_1 ∨ m = MODE_2) :
    (feed s (sym m b)).msg
      = write buf k (((((buf k <<< 1) ||| b) % 256) ^^^ key) % 256) := by
  rcases hst with hst | hst
  · subst hst
    rcases hm with hm | hm
    · subst hm
      exact (feed_sym_len1 s key n k b buf h).1.msg_eq
    · subst hm
      obtain ⟨a1, a2, _⟩ := feed_sym_len2 s key n k b buf h
      by_cases hk : k = 1
      · exact (a2 hk).msg_eq
      · exact (a1 hk).msg_eq
  · subst hst
    by_cases hk : (k + 1) % 256 = n
    · obtain ⟨h1, h2, h3, h4, h5, h6, h7, h8⟩ := h
      have hst : stored s b = write buf k (((((buf k <<< 1) ||| b) % 256) ^^^ key) % 256) := by
        unfold stored; rw [h8, h5, h3]
      have hg : s.toggle = true ∨ s.mode = MODE_2 := by
        rcases hm with hm | hm
        · exact Or.inl (h7 hm)
        · exact Or.inr (h2.trans hm)
      have e1 := on_symbol_body s b h1 hg (by rw [h6]; decide)
      rw [if_pos (by rw [h5, h4]; exact hk)] at e1
      rcases hm with hm | hm
      · subst hm
        simp only [sym, if_true, feed, e1]
        rw [on_symbol_searching_msg _ _ rfl]
        exact hst
      · subst hm
        have hsym : sym MODE_2 b = [b] := rfl
        simp only [hsym, feed, e1]
        exact hst
    · exact (feed_sym_body_more s m key n k b buf h hm hk).1.msg_eq

theorem bitsMSB_of_bits (b7 b6 b5 b4 b3 b2 b1 b0 : Nat) (h7 : b7 < 2) (h6 : b6 < 2)
    (h5 : b5 < 2) (h4 : b4 < 2) (h3 : b3 < 2) (h2 : b2 < 2) (h1 : b1 < 2) (h0 : b0 < 2) :
    bitsMSB (b7 * 128 + b6 * 64 + b5 * 32 + b4 * 16 + b3 * 8 + b2 * 4 + b1 * 2 + b0)
      = [b7, b6, b5, b4, b3, b2, b1, b0] := by
  unfold bitsMSB
  simp only [List.map, Nat.shiftRight_eq_div_pow, Nat.reducePow, Nat.pow_zero, Nat.div_one]
  congr 1
  · omega
  congr 1
  · omega
  congr 1
  · omega
  congr 1
  · omega
  congr 1
  · omega
  congr 1
  · omega
  congr 1
  · omega
  congr 1
  omega

/-- C16. In ReceivingLength and ReceivingBody, at the start of a byte and for
every prior content of the buffer, once the eight bits `b7 .. b0` have been
consumed (Manchester half-bit pairs in Mode 1, every symbol in Mode 2) the
byte stored at the byte position is `(b7*128 + ... + b0) XOR xor_key`: the
previous content of that byte is shifted out. -/
theorem stored_byte_ignores_stale (s : Framer) (b7 b6 b5 b4 b3 b2 b1 b0 : Nat)
    (h7 : b7 < 2) (h6 : b6 < 2) (h5 : b5 < 2) (h4 : b4 < 2) (h3 : b3 < 2) (h2 : b2 < 2)
    (h1 : b1 < 2) (h0 : b0 < 2)
    (hs : s.state = STATE_RECEIVING_MSG_LEN ∨ s.state = STATE_RECEIVING_MSG)
    (hm : (s.mode = MODE_1 ∧ s.toggle = true) ∨ s.mode = MODE_2)
    (hbit : s.bit = 0) (hkey : s.xor_key < 256) :
    (feed s (line s.mode [b7, b6, b5, b4, b3, b2, b1, b0])).msg s.byte
      = (b7 * 128 + b6 * 64 + b5 * 32 + b4 * 16 + b3 * 8 + b2 * 4 + b1 * 2 + b0)
          ^^^ s.xor_key := by
  have hat : At s s.state s.mode s.xor_key s.msg_len s.byte 0 s.msg :=
    ⟨rfl, rfl, rfl, rfl, rfl, hbit, fun hm1 => by
      rcases hm with hm | hm
      · exact hm.2
      · rw [hm] at hm1; exact absurd hm1 (by decide), rfl⟩
  have hm' : s.mode = MODE_1 ∨ s.mode = MODE_2 := by
    rcases hm with hm | hm
    · exact Or.inl hm.1
    · exact Or.inr hm
  have hw : b7 * 128 + b6 * 64 + b5 * 32 + b4 * 16 + b3 * 8 + b2 * 4 + b1 * 2 + b0 < 256 := by
    omega
  rw [← bitsMSB_of_bits b7 b6 b5 b4 b3 b2 b1 b0 h7 h6 h5 h4 h3 h2 h1 h0, line_bitsMSB,
    feed_append]
  obtain ⟨a1, _⟩ := feed_high s _ _ _ _ _
    (b7 * 128 + b6 * 64 + b5 * 32 + b4 * 16 + b3 * 8 + b2 * 4 + b1 * 2 + b0) _ hat hs hm'
  rw [feed_sym_last_msg _ _ _ _ _ _ _ _ a1 hs hm', last_write, write_same]
  unfold dewhiten
  rw [Nat.mod_eq_of_lt hw, Nat.mod_eq_of_lt (Nat.xor_lt_two_pow (n := 8) hw hkey)]

set_option maxRecDepth 100000 in
/-- Witness for C16: the length byte `0x56` right after the Mode 1
preamble+syncword, de-whitened to `0x03`. -/
theorem stored_byte_ignores_stale_witness :
    (afterPreamble1.state = STATE_RECEIVING_MSG_LEN ∧ afterPreamble1.mode = MODE_1 ∧
      afterPreamble1.toggle = true ∧ afterPreamble1.bit = 0 ∧ afterPreamble1.xor_key < 256) ∧
    (feed afterPreamble1 (line afterPreamble1.mode [0, 1, 0, 1, 0, 1, 1, 0])).msg
        afterPreamble1.byte
      = (0 * 128 + 1 * 64 + 0 * 32 + 1 * 16 + 0 * 8 + 1 * 4 + 1 * 2 + 0)
          ^^^ afterPreamble1.xor_key :=
  ⟨⟨by decide, by decide, by decide, by decide, by decide⟩,
   stored_byte_ignores_stale afterPreamble1 0 1 0 1 0 1 1 0 (by decide) (by decide)
     (by decide) (by decide) (by decide) (by decide) (by decide) (by decide)
     (Or.inl (by decide)) (Or.inl ⟨by decide, by decide⟩) (by decide) (by decide)⟩
/-! ## Preamble detection -/

theorem foldl_bits (l : List Nat) (i : Nat) :
    l.foldl (fun a b => 2 * a + b) i = i * 2 ^ l.length + bitsValue l := by
  unfold bitsValue
  induction l generalizing i with
  | nil => simp
  | cons x xs ih =>
    simp only [List.foldl_cons, List.length_cons]
    rw [ih (2 * i + x), ih (2 * 0 + x)]
    ring

theorem bitsValue_append (a c : List Nat) :
    bitsValue (a ++ c) = bitsValue a * 2 ^ c.length + bitsValue c := by
  have h : bitsValue (a ++ c) = c.foldl (fun a b => 2 * a + b) (bitsValue a) := by
    unfold bitsValue
    rw [List.foldl_append]
  rw [h, foldl_bits]

theorem bitsValue_snoc (a : List Nat) (b : Nat) :
    bitsValue (a ++ [b]) = 2 * bitsValue a + b := by
  unfold bitsValue
  rw [List.foldl_append]
  rfl

theorem bitsValue_lt (l : List Nat) (h : ∀ b ∈ l, b < 2) : bitsValue l < 2 ^ l.length := by
  induction l using List.reverseRecOn with
  | nil => simp [bitsValue]
  | append_singleton xs x ih =>
    have hx : x < 2 := h x (by simp)
    have h1 := ih (fun b hb => h b (by simp [hb]))
    rw [bitsValue_snoc, List.length_append, List.length_singleton, Nat.pow_succ]
    omega

theorem window64_eq (l : List Nat) (h : ∀ b ∈ l, b < 2) (hl : 64 ≤ l.length) :
    window64 l = bitsValue l % 2 ^ 64 := by
  unfold window64
  have e : bitsValue l
      = bitsValue (l.take (l.length - 64)) * 2 ^ 64 + bitsValue (l.drop (l.length - 64)) := by
    conv_lhs => rw [← List.take_append_drop (l.length - 64) l]
    rw [bitsValue_append, List.length_drop]
    congr 3
    omega
  have hlt : bitsValue (l.drop (l.length - 64)) < 2 ^ 64 := by
    have := bitsValue_lt (l.drop (l.length - 64)) (fun b hb => h b (List.mem_of_mem_drop hb))
    rw [List.length_drop] at this
    have e2 : l.length - (l.length - 64) = 64 := by omega
    rw [e2] at this
    exact this
  rw [e]
  generalize bitsValue (l.take (l.length - 64)) = A at *
  generalize bitsValue (l.drop (l.length - 64)) = B at *
  simp only [Nat.reducePow] at hlt ⊢
  omega

/-- The history register matches a preamble (a value with bit 63 set) exactly
when 64 bits have been delivered and the last 64 are the preamble. -/
theorem endsWith64_iff (p : Nat) (hp : 2 ^ 63 ≤ p) (l : List Nat) (h : ∀ b ∈ l, b < 2) :
    endsWith64 p l ↔ bitsValue l % 2 ^ 64 = p := by
  unfold endsWith64
  by_cases hl : 64 ≤ l.length
  · rw [window64_eq l h hl]
    exact ⟨fun h1 => h1.2, fun h1 => ⟨hl, h1⟩⟩
  · constructor
    · intro h1; exact absurd h1.1 hl
    · intro h1
      exfalso
      have h2 := bitsValue_lt l h
      have h3 : 2 ^ l.length ≤ 2 ^ 63 := Nat.pow_le_pow_right (by decide) (by omega)
      have h4 : bitsValue l % 2 ^ 64 = bitsValue l :=
        Nat.mod_eq_of_lt (by
          have : (2 : Nat) ^ 63 < 2 ^ 64 := by decide
          omega)
      omega

theorem history_step (v b : Nat) (hb : b < 2) :
    (((v % 2 ^ 64) <<< 1) ||| b) % 2 ^ 64 = (2 * v + b) % 2 ^ 64 := by
  rw [shl1_or _ _ hb]
  simp only [Nat.reducePow]
  omega

/-- One more bit while the framer searches with the history of `pre`. -/
theorem searching_step (pre : List Nat) (b : Nat) (hb : b < 2)
    (hs : (feed init pre).state = STATE_SEARCHING)
    (hh : (feed init pre).history = bitsValue pre % 2 ^ 64) :
    (feed init (pre ++ [b])).history = bitsValue (pre ++ [b]) % 2 ^ 64 ∧
    (bitsValue (pre ++ [b]) % 2 ^ 64 = MODE_1_PREAMBLE →
      (feed init (pre ++ [b])).state = STATE_RECEIVING_MSG_LEN ∧
      (feed init (pre ++ [b])).mode = MODE_1 ∧
      (feed init (pre ++ [b])).xor_key = MODE_1_XOR_KEY ∧ (feed init (pre ++ [b])).bit = 0 ∧
      (feed init (pre ++ [b])).byte = 0 ∧ (feed init (pre ++ [b])).toggle = true ∧
      (feed init (pre ++ [b])).msg_len = 0) ∧
    (bitsValue (pre ++ [b]) % 2 ^ 64 = MODE_2_PREAMBLE →
      (feed init (pre ++ [b])).state = STATE_RECEIVING_MSG_LEN ∧
      (feed init (pre ++ [b])).mode = MODE_2 ∧
      (feed init (pre ++ [b])).xor_key = MODE_2_XOR_KEY ∧ (feed init (pre ++ [b])).bit = 0 ∧
      (feed init (pre ++ [b])).byte = 0 ∧ (feed init (pre ++ [b])).toggle = true ∧
      (feed init (pre ++ [b])).msg_len = 0) ∧
    (¬ (bitsValue (pre ++ [b]) % 2 ^ 64 = MODE_1_PREAMBLE ∨
        bitsValue (pre ++ [b]) % 2 ^ 64 = MODE_2_PREAMBLE) →
      (feed init (pre ++ [b])).state = STATE_SEARCHING) := by
  have e : feed init (pre ++ [b]) = (on_symbol (feed init pre) b).1 := by
    rw [feed_append]; rfl
  rw [e, on_symbol_searching _ b hs, hh, history_step _ b hb, ← bitsValue_snoc]
  generalize bitsValue (pre ++ [b]) % 2 ^ 64 = v
  by_cases h1 : v = MODE_1_PREAMBLE
  · rw [if_pos h1]
    refine ⟨rfl, fun _ => ⟨rfl, rfl, rfl, rfl, rfl, rfl, rfl⟩, fun h2 => ?_, fun h3 => ?_⟩
    · rw [h1] at h2; exact absurd h2 (by decide)
    · exact absurd (Or.inl h1) h3
  · rw [if_neg h1]
    by_cases h2 : v = MODE_2_PREAMBLE
    · rw [if_pos h2]
      exact ⟨rfl, fun h => absurd h h1, fun _ => ⟨rfl, rfl, rfl, rfl, rfl, rfl, rfl⟩,
        fun h3 => absurd (Or.inr h2) h3⟩
    · rw [if_neg h2]
      exact ⟨rfl, fun h => absurd h h1, fun h => absurd h h2, fun _ => hs⟩

/-- Before the first match the framer is searching and `history` holds the
delivered bits. -/
theorem searching_before_match (bits : List Nat) (hb : ∀ b ∈ bits, b < 2)
    (hno : ∀ p, p <+: bits →
      ¬ (endsWith64 MODE_1_PREAMBLE p ∨ endsWith64 MODE_2_PREAMBLE p)) :
    (feed init bits).state = STATE_SEARCHING ∧
    (feed init bits).history = bitsValue bits % 2 ^ 64 := by
  induction bits using List.reverseRecOn with
  | nil => exact ⟨rfl, rfl⟩
  | append_singleton pre b ih =>
    have hb1 : b < 2 := hb b (by simp)
    have hpre : ∀ x ∈ pre, x < 2 := fun x hx => hb x (by simp [hx])
    obtain ⟨hs, hh⟩ := ih hpre
      (fun p hp => hno p (hp.trans (List.prefix_append pre [b])))
    have hself := hno (pre ++ [b]) (List.prefix_refl _)
    rw [endsWith64_iff _ (by decide) _ hb, endsWith64_iff _ (by decide) _ hb] at hself
    obtain ⟨k1, _, _, k4⟩ := searching_step pre b hb1 hs hh
    exact ⟨k4 hself, k1⟩

/-- C15. Starting from the initial framer state, for every bit sequence no
proper prefix of which ends in one of the two preamble+syncwords: if its 64
most recent bits are `0xAAAAAAAA55A59AA6` (respectively `0xAAAAAAAA9A99A656`)
the framer is in ReceivingLength with Mode 1 and key `0x55` (respectively
Mode 2 and key `0xAA`), `bit = 0`, `byte = 0`, `toggle` set and `msg_len = 0`;
otherwise it is still Searching. -/
theorem preamble_detection (bits : List Nat) (hb : ∀ b ∈ bits, b < 2)
    (hno : ∀ p, p <+: bits → p ≠ bits →
      ¬ (endsWith64 MODE_1_PREAMBLE p ∨ endsWith64 MODE_2_PREAMBLE p)) :
    (endsWith64 MODE_1_PREAMBLE bits →
      (feed init bits).state = STATE_RECEIVING_MSG_LEN ∧ (feed init bits).mode = MODE_1 ∧
      (feed init bits).xor_key = MODE_1_XOR_KEY ∧ (feed init bits).bit = 0 ∧
      (feed init bits).byte = 0 ∧ (feed init bits).toggle = true ∧
      (feed init bits).msg_len = 0) ∧
    (endsWith64 MODE_2_PREAMBLE bits →
      (feed init bits).state = STATE_RECEIVING_MSG_LEN ∧ (feed init bits).mode = MODE_2 ∧
      (feed init bits).xor_key = MODE_2_XOR_KEY ∧ (feed init bits).bit = 0 ∧
      (feed init bits).byte = 0 ∧ (feed init bits).toggle = true ∧
      (feed init bits).msg_len = 0) ∧
    (¬ (endsWith64 MODE_1_PREAMBLE bits ∨ endsWith64 MODE_2_PREAMBLE bits) →
      (feed init bits).state = STATE_SEARCHING) := by
  induction bits using List.reverseRecOn with
  | nil =>
    refine ⟨fun h => ?_, fun h => ?_, fun _ => rfl⟩
    · exact absurd h.1 (by simp)
    · exact absurd h.1 (by simp)
  | append_singleton pre b _ =>
    have hb1 : b < 2 := hb b (by simp)
    have hpre : ∀ x ∈ pre, x < 2 := fun x hx => hb x (by simp [hx])
    obtain ⟨hs, hh⟩ := searching_before_match pre hpre
      (fun p hp => hno p (hp.trans (List.prefix_append pre [b]))
        (fun e => by
          have h1 := hp.length_le
          rw [e] at h1
          simp at h1))
    rw [endsWith64_iff _ (by decide) _ hb, endsWith64_iff _ (by decide) _ hb]
    obtain ⟨_, k2, k3, k4⟩ := searching_step pre b hb1 hs hh
    exact ⟨k2, k3, k4⟩

theorem proper_prefix_short (p l : List Nat) (hp : p <+: l) (hne : p ≠ l) :
    p.length < l.length := by
  rcases Nat.lt_or_ge p.length l.length with h | h
  · exact h
  · exact absurd (hp.eq_of_length (Nat.le_antisymm hp.length_le h)) hne

set_option maxRecDepth 100000 in
/-- Witness for C15: the 64 bits of the Mode 1 preamble+syncword from the
initial state. -/
theorem preamble_detection_witness :
    ((∀ b ∈ preambleBits MODE_1_PREAMBLE, b < 2) ∧
      endsWith64 MODE_1_PREAMBLE (preambleBits MODE_1_PREAMBLE)) ∧
    (feed init (preambleBits MODE_1_PREAMBLE)).state = STATE_RECEIVING_MSG_LEN ∧
    (feed init (preambleBits MODE_1_PREAMBLE)).mode = MODE_1 ∧
    (feed init (preambleBits MODE_1_PREAMBLE)).xor_key = MODE_1_XOR_KEY ∧
    (feed init (preambleBits MODE_1_PREAMBLE)).bit = 0 ∧
    (feed init (preambleBits MODE_1_PREAMBLE)).byte = 0 ∧
    (feed init (preambleBits MODE_1_PREAMBLE)).toggle = true ∧
    (feed init (preambleBits MODE_1_PREAMBLE)).msg_len = 0 :=
  ⟨⟨by decide, ⟨by decide, by decide⟩⟩,
   (preamble_detection (preambleBits MODE_1_PREAMBLE) (by decide)
      (fun p hp hne h => by
        have h1 := proper_prefix_short p _ hp hne
        have h2 : (preambleBits MODE_1_PREAMBLE).length = 64 := by decide
        rcases h with h | h
        · have := h.1
          omega
        · have := h.1
          omega)).1 ⟨by decide, by decide⟩⟩
/-! ## Channel-parity symmetry -/

theorem zeroRunSilent_init : ZeroRunSilent slicer_init := by
  intro _
  decide

theorem slice_zeroRunSilent (hi lo : Nat) (st : Slicer) (a : Int) :
    ZeroRunSilent (slice hi lo st a).1 := by
  intro h
  by_cases hs : a * st.last_angle > 0
  · have ha : a ≠ 0 := by
      intro h0
      rw [h0] at hs
      simp at hs
    have e : (slice hi lo st a).1.last_angle = a := by
      simp only [slice, if_pos hs]
    exact absurd (e ▸ h) ha
  · have e : (slice hi lo st a).1.sample_count = 1 := by
      simp only [slice, if_neg hs]
      split_ifs <;> rfl
    rw [e]
    exact calc_symbol_count_one _

theorem slice_mirror (hi lo : Nat) (st : Slicer) (a : Int) (hz : ZeroRunSilent st) :
    slice lo hi (mirror st) (-a) = (mirror (slice hi lo st a).1, (slice hi lo st a).2) := by
  have hm : -a * -st.last_angle = a * st.last_angle := neg_mul_neg _ _
  by_cases hs : a * st.last_angle > 0
  · simp only [slice, mirror, hm, if_pos hs]
  · by_cases hc : calc_symbol_count st.framer.mode st.sample_count = 0
    · simp only [slice, mirror, hm, if_neg hs, hc, ne_eq, not_true_eq_false, if_false]
      split_ifs <;> rfl
    · have hl : st.last_angle ≠ 0 := fun h => hc (hz h)
      have hsym : (if -st.last_angle > 0 then lo else hi)
          = (if st.last_angle > 0 then hi else lo) := by
        by_cases hp : st.last_angle > 0
        · rw [if_pos hp, if_neg (by omega)]
        · rw [if_neg hp, if_pos (by omega)]
      simp only [slice, mirror, hm, if_neg hs, hsym, ne_eq, hc, not_false_eq_true, if_true]

theorem delivered_mirror (hi lo : Nat) (st : Slicer) (a : Int) (hz : ZeroRunSilent st) :
    delivered lo hi (mirror st) (-a) = delivered hi lo st a := by
  have hm : -a * -st.last_angle = a * st.last_angle := neg_mul_neg _ _
  by_cases hs : a * st.last_angle > 0
  · simp only [delivered, mirror, hm, if_pos hs]
  · by_cases hc : calc_symbol_count st.framer.mode st.sample_count = 0
    · simp only [delivered, mirror, hm, if_neg hs, hc, List.replicate_zero]
    · have hl : st.last_angle ≠ 0 := fun h => hc (hz h)
      have hsym : (if -st.last_angle > 0 then lo else hi)
          = (if st.last_angle > 0 then hi else lo) := by
        by_cases hp : st.last_angle > 0
        · rw [if_pos hp, if_neg (by omega)]
        · rw [if_neg hp, if_pos (by omega)]
      simp only [delivered, mirror, hm, if_neg hs, hsym]

theorem slicer_mirror (hi lo : Nat) (ds : List Int) :
    ∀ st : Slicer, ZeroRunSilent st →
      slicer_feed lo hi (mirror st) (ds.map (fun a => -a)) = mirror (slicer_feed hi lo st ds) ∧
      slicer_events lo hi (mirror st) (ds.map (fun a => -a)) = slicer_events hi lo st ds ∧
      slicer_delivered lo hi (mirror st) (ds.map (fun a => -a))
        = slicer_delivered hi lo st ds := by
  induction ds with
  | nil => intro st _; exact ⟨rfl, rfl, rfl⟩
  | cons a as ih =>
    intro st hz
    have h1 := slice_mirror hi lo st a hz
    have h2 := delivered_mirror hi lo st a hz
    obtain ⟨i1, i2, i3⟩ := ih (slice hi lo st a).1 (slice_zeroRunSilent hi lo st a)
    simp only [List.map_cons, slicer_feed, slicer_events, slicer_delivered, h1, h2]
    exact ⟨i1, by rw [i2], by rw [i3]⟩

theorem mirror_slicer_init : mirror slicer_init = slicer_init := rfl

/-- The slicer started from its initial state delivers the same symbols to
`on_symbol`, produces the same events and ends with the same framer state
when every phase delta is negated and the two symbol labels are exchanged. -/
theorem slicer_symmetry (hi lo : Nat) (ds : List Int) :
    slicer_delivered lo hi slicer_init (ds.map (fun a => -a))
        = slicer_delivered hi lo slicer_init ds ∧
      slicer_events lo hi slicer_init (ds.map (fun a => -a))
        = slicer_events hi lo slicer_init ds ∧
      (slicer_feed lo hi slicer_init (ds.map (fun a => -a))).framer
        = (slicer_feed hi lo slicer_init ds).framer := by
  obtain ⟨h1, h2, h3⟩ := slicer_mirror hi lo ds slicer_init zeroRunSilent_init
  rw [mirror_slicer_init] at h1 h2 h3
  exact ⟨h3, h2, by rw [h1]; rfl⟩
/-! ## From samples to phase deltas -/

theorem run_samples_slicer (ang : Nat × Nat → Nat × Nat → Int) (hi lo : Nat)
    (xs : List (Nat × Nat)) :
    ∀ r : Receiver,
      (run_samples ang hi lo r xs).1.slicer
          = slicer_feed hi lo r.slicer (deltas ang r.last_sample xs) ∧
        (run_samples ang hi lo r xs).2
          = slicer_events hi lo r.slicer (deltas ang r.last_sample xs) := by
  induction xs with
  | nil => intro r; exact ⟨rfl, rfl⟩
  | cons x xs ih =>
    intro r
    obtain ⟨i1, i2⟩ := ih (sample_step ang hi lo r x).1
    simp only [run_samples, deltas, slicer_feed, slicer_events]
    exact ⟨i1, by rw [i2]; rfl⟩

set_option maxRecDepth 1000000 in
/-- C11, counterexample: the signal `jumpIQ` contains a half turn between the
real samples `-1` and `1`, which conjugation leaves as it is.  With
`high_symbol = 1`, `low_symbol = 0` the receiver prints the frame
`04 01 02 03 c5 d5`; with the labels exchanged and every sample conjugated
it prints nothing. -/
theorem conjugation_keeps_half_turn :
    (run_samples discriminator 1 0 receiver_init jumpIQ).2.filterMap Event.frame?
        = [[4, 1, 2, 3, 197, 213]] ∧
      (run_samples discriminator 0 1 receiver_init (jumpIQ.map conj_sample)).2.filterMap
          Event.frame? = [] ∧
      discriminator (254, 127) (0, 127) = -1 ∧
      discriminator (conj_sample (254, 127)) (conj_sample (0, 127)) = -1 := by
  decide!

/-- C11 (amended): whenever conjugating every sample negates every phase delta
the slicer sees, exchanging `high_symbol` and `low_symbol` while conjugating
the samples gives the same symbols delivered to `on_symbol`, the same events,
the same printed frames and the same final framer state. -/
theorem channel_parity_symmetry (ang : Nat × Nat → Nat × Nat → Int) (hi lo : Nat)
    (s : List (Nat × Nat))
    (hneg : deltas ang receiver_init.last_sample (s.map conj_sample)
      = (deltas ang receiver_init.last_sample s).map (fun a => -a)) :
    slicer_delivered lo hi slicer_init (deltas ang receiver_init.last_sample (s.map conj_sample))
        = slicer_delivered hi lo slicer_init (deltas ang receiver_init.last_sample s) ∧
      (run_samples ang lo hi receiver_init (s.map conj_sample)).2
        = (run_samples ang hi lo receiver_init s).2 ∧
      (run_samples ang lo hi receiver_init (s.map conj_sample)).2.filterMap Event.frame?
        = (run_samples ang hi lo receiver_init s).2.filterMap Event.frame? ∧
      (run_samples ang lo hi receiver_init (s.map conj_sample)).1.slicer.framer
        = (run_samples ang hi lo receiver_init s).1.slicer.framer := by
  obtain ⟨a1, a2⟩ := run_samples_slicer ang lo hi (s.map conj_sample) receiver_init
  obtain ⟨b1, b2⟩ := run_samples_slicer ang hi lo s receiver_init
  obtain ⟨c1, c2, c3⟩ := slicer_symmetry hi lo (deltas ang receiver_init.last_sample s)
  have e : receiver_init.slicer = slicer_init := rfl
  rw [e] at a1 a2 b1 b2
  rw [hneg] at a1 a2 ⊢
  refine ⟨c1, ?_, ?_, ?_⟩
  · rw [a2, b2, c2]
  · rw [a2, b2, c2]
  · rw [a1, b1, c3]

set_option maxRecDepth 1000000 in
theorem channel_parity_symmetry_witness :
    deltas discriminator receiver_init.last_sample (sampleIQ.map conj_sample)
        = (deltas discriminator receiver_init.last_sample sampleIQ).map (fun a => -a) ∧
      (run_samples discriminator 0 1 receiver_init (sampleIQ.map conj_sample)).2.filterMap
          Event.frame?
        = (run_samples discriminator 1 0 receiver_init sampleIQ).2.filterMap Event.frame? :=
  ⟨by decide!, (channel_parity_symmetry discriminator 1 0 sampleIQ (by decide!)).2.2.1⟩
/-! ## Decimation of an interleaved stream -/

theorem interleave_nil : interleave [] = [] := rfl

theorem interleave_cons (g : (Nat × Nat) × List (Nat × Nat))
    (gs : List ((Nat × Nat) × List (Nat × Nat))) :
    interleave (g :: gs) = g.1 :: (g.2 ++ interleave gs) := by
  simp [interleave]

theorem decimateAux_interleave (C : Nat) (gs : List ((Nat × Nat) × List (Nat × Nat))) :
    ∀ fuel, (∀ g ∈ gs, g.2.length = C - 1) → gs.length ≤ fuel →
      decimateAux C fuel (interleave gs) = gs.map Prod.fst := by
  induction gs with
  | nil =>
    intro fuel _ _
    cases fuel <;> rfl
  | cons g gs ih =>
    intro fuel hf hl
    cases fuel with
    | zero => simp at hl
    | succ f =>
      have hg : g.2.length = C - 1 := hf g (List.mem_cons_self _ _)
      have hd : (g.2 ++ interleave gs).drop (C - 1) = interleave gs := by
        rw [← hg]
        exact List.drop_left _ _
      rw [interleave_cons, decimateAux, hd,
        ih f (fun x hx => hf x (List.mem_cons_of_mem _ hx)) (by simpa using hl)]
      rfl

theorem length_interleave (C : Nat) (hC : 1 ≤ C) (gs : List ((Nat × Nat) × List (Nat × Nat)))
    (hf : ∀ g ∈ gs, g.2.length = C - 1) :
    (interleave gs).length = gs.length * C := by
  induction gs with
  | nil => simp [interleave]
  | cons g gs ih =>
    have hg : g.2.length = C - 1 := hf g (List.mem_cons_self _ _)
    rw [interleave_cons, List.length_cons, List.length_append, hg,
      ih (fun x hx => hf x (List.mem_cons_of_mem _ hx)), List.length_cons, Nat.add_mul]
    omega

theorem decimate_interleave (C : Nat) (hC : 1 ≤ C) (gs : List ((Nat × Nat) × List (Nat × Nat)))
    (hf : ∀ g ∈ gs, g.2.length = C - 1) :
    decimate C (interleave gs) = gs.map Prod.fst := by
  unfold decimate
  apply decimateAux_interleave C gs _ hf
  rw [length_interleave C hC gs hf]
  exact Nat.le_mul_of_pos_right _ hC

theorem take_drop_interleave (C : Nat) (hC : 1 ≤ C) (n : Nat) :
    ∀ gs : List ((Nat × Nat) × List (Nat × Nat)), (∀ g ∈ gs, g.2.length = C - 1) →
      (interleave gs).take (n * C) = interleave (gs.take n) ∧
      (interleave gs).drop (n * C) = interleave (gs.drop n) := by
  induction n with
  | zero => intro gs _; simp [interleave]
  | succ n ih =>
    intro gs hf
    cases gs with
    | nil => simp [interleave]
    | cons g gs =>
      have hg : g.2.length = C - 1 := hf g (List.mem_cons_self _ _)
      obtain ⟨i1, i2⟩ := ih gs (fun x hx => hf x (List.mem_cons_of_mem _ hx))
      have hlen : (g.1 :: g.2).length = C := by
        rw [List.length_cons, hg]; omega
      have e : (n + 1) * C = (g.1 :: g.2).length + n * C := by
        rw [hlen, Nat.add_mul]; omega
      have e2 : interleave (g :: gs) = (g.1 :: g.2) ++ interleave gs := by
        rw [interleave_cons]; rfl
      constructor
      · rw [e2, e, List.take_append, i1, List.take_succ_cons, interleave_cons]
        rfl
      · rw [e2, e, List.drop_append, i2, List.drop_succ_cons]

theorem blocksAux_interleave (C B : Nat) (hC : 1 ≤ C) (hB : 1 ≤ B) :
    ∀ (fuel : Nat) (gs : List ((Nat × Nat) × List (Nat × Nat))),
      (∀ g ∈ gs, g.2.length = C - 1) → gs.length ≤ fuel →
      (blocksAux (B * C) fuel (interleave gs)).flatMap (decimate C) = gs.map Prod.fst := by
  intro fuel
  induction fuel with
  | zero =>
    intro gs _ hl
    have : gs = [] := List.length_eq_zero.mp (Nat.le_zero.mp hl)
    subst this
    rfl
  | succ f ih =>
    intro gs hf hl
    cases gs with
    | nil => rfl
    | cons g gs =>
      obtain ⟨t1, t2⟩ := take_drop_interleave C hC B (g :: gs) hf
      have hsplit : blocksAux (B * C) (f + 1) (interleave (g :: gs))
          = (interleave (g :: gs)).take (B * C)
            :: blocksAux (B * C) f ((interleave (g :: gs)).drop (B * C)) := by
        rw [interleave_cons]
        rfl
      have hft : ∀ x ∈ (g :: gs).take B, x.2.length = C - 1 :=
        fun x hx => hf x (List.mem_of_mem_take hx)
      have hfd : ∀ x ∈ (g :: gs).drop B, x.2.length = C - 1 :=
        fun x hx => hf x (List.mem_of_mem_drop hx)
      have hld : ((g :: gs).drop B).length ≤ f := by
        rw [List.length_drop]
        simp only [List.length_cons] at hl ⊢
        omega
      rw [hsplit, t1, t2, List.flatMap_cons, decimate_interleave C hC _ hft,
        ih _ hfd hld, ← List.map_append, List.take_append_drop]

theorem processed_interleave (C : Nat) (hC : 1 ≤ C)
    (gs : List ((Nat × Nat) × List (Nat × Nat))) (hf : ∀ g ∈ gs, g.2.length = C - 1) :
    processed C (interleave gs) = gs.map Prod.fst := by
  have hne : BLOCK_SIZE * C ≠ 0 := by
    simp only [BLOCK_SIZE]
    omega
  unfold processed blocks
  rw [if_neg hne]
  apply blocksAux_interleave C BLOCK_SIZE hC (by decide) _ gs hf
  rw [length_interleave C hC gs hf]
  exact Nat.le_mul_of_pos_right _ hC

theorem interleave_no_fillers (s : List (Nat × Nat)) :
    interleave (s.map (fun x => (x, []))) = s := by
  induction s with
  | nil => rfl
  | cons x xs ih => rw [List.map_cons, interleave_cons, ih]; rfl

theorem processed_one (s : List (Nat × Nat)) : processed 1 s = s := by
  have h := processed_interleave 1 (le_refl 1) (s.map (fun x => (x, [])))
    (by
      intro g hg
      obtain ⟨x, _, rfl⟩ := List.mem_map.mp hg
      rfl)
  rw [interleave_no_fillers, List.map_map] at h
  rw [h]
  exact List.map_id _
/-! ## Channel decimation -/

theorem run_interleave (ang : Nat × Nat → Nat × Nat → Int) (C : Nat) (hC : 1 ≤ C)
    (gs : List ((Nat × Nat) × List (Nat × Nat))) (hf : ∀ g ∈ gs, g.2.length = C - 1) :
    run ang C (interleave gs)
      = run_samples ang (high_symbol C) (low_symbol C) receiver_init (gs.map Prod.fst) := by
  unfold run run_with
  rw [processed_interleave C hC gs hf]

theorem run_with_one (ang : Nat × Nat → Nat × Nat → Int) (hi lo : Nat) (s : List (Nat × Nat)) :
    run_with ang hi lo 1 s = run_samples ang hi lo receiver_init s := by
  unfold run_with
  rw [processed_one]

theorem map_fst_fillers (s : List (Nat × Nat)) (fill : List (Nat × Nat)) :
    (s.map (fun x => (x, fill))).map Prod.fst = s := by
  rw [List.map_map]
  exact List.map_id _

set_option maxRecDepth 1000000 in
/-- C12, counterexample: for the signal `sampleIQ`, running with
`num_channels = 1` prints the frame `04 01 02 03 c5 d5`, while running with
`num_channels = 6` on the stream that carries the same pairs at position 0 of
each group of 6 (the fillers being five pairs `(127, 127)`) prints nothing:
for an even number of channels `run` labels the runs the other way round. -/
theorem decimation_by_6_loses_frame :
    run_frames discriminator 1 sampleIQ = [[4, 1, 2, 3, 197, 213]] ∧
      run_frames discriminator 6
        (interleave (sampleIQ.map (fun x => (x, List.replicate 5 (127, 127))))) = [] := by
  have h1 : run discriminator 1 sampleIQ
      = run_samples discriminator 1 0 receiver_init sampleIQ :=
    run_with_one discriminator 1 0 sampleIQ
  have h6 := run_interleave discriminator 6 (by decide)
    (sampleIQ.map (fun x => (x, List.replicate 5 (127, 127))))
    (by
      intro g hg
      obtain ⟨x, _, rfl⟩ := List.mem_map.mp hg
      rfl)
  rw [map_fst_fillers] at h6
  have e1 : (run_samples discriminator 1 0 receiver_init sampleIQ).2.filterMap Event.frame?
      = [[4, 1, 2, 3, 197, 213]] := by decide!
  have e6 : (run_samples discriminator (high_symbol 6) (low_symbol 6) receiver_init
      sampleIQ).2.filterMap Event.frame? = [] := by decide!
  unfold run_frames
  rw [h1, h6]
  exact ⟨e1, e6⟩

/-- C12 (amended): for every sample sequence (the first components of
`groups`) and every choice of five fillers per group, running with
`num_channels = 6` on the interleaved stream gives the final state, the
events and the printed frames that running with `num_channels = 1` on the
sequence gives when `high_symbol` and `low_symbol` are exchanged. -/
theorem channel_decimation (ang : Nat × Nat → Nat × Nat → Int)
    (groups : List ((Nat × Nat) × List (Nat × Nat)))
    (hfill : ∀ g ∈ groups, g.2.length = 5) :
    run ang 6 (interleave groups)
        = run_with ang (low_symbol 1) (high_symbol 1) 1 (groups.map Prod.fst) ∧
      run_frames ang 6 (interleave groups)
        = (run_with ang (low_symbol 1) (high_symbol 1) 1 (groups.map Prod.fst)).2.filterMap
            Event.frame? := by
  have h := run_interleave ang 6 (by decide) groups hfill
  have e : run ang 6 (interleave groups)
      = run_with ang (low_symbol 1) (high_symbol 1) 1 (groups.map Prod.fst) := by
    rw [h, run_with_one]
    rfl
  exact ⟨e, by unfold run_frames; rw [e]⟩

theorem channel_decimation_witness :
    (∀ g ∈ [(((254, 127), [(1, 2), (3, 4), (5, 6), (7, 8), (9, 10)]) :
        (Nat × Nat) × List (Nat × Nat)),
      ((127, 254), [(0, 0), (9, 9), (200, 3), (4, 4), (77, 1)])], g.2.length = 5) ∧
      run_frames discriminator 6
          (interleave [((254, 127), [(1, 2), (3, 4), (5, 6), (7, 8), (9, 10)]),
            ((127, 254), [(0, 0), (9, 9), (200, 3), (4, 4), (77, 1)])])
        = (run_with discriminator (low_symbol 1) (high_symbol 1) 1
            ([((254, 127), [(1, 2), (3, 4), (5, 6), (7, 8), (9, 10)]),
              ((127, 254), [(0, 0), (9, 9), (200, 3), (4, 4), (77, 1)])].map
              Prod.fst)).2.filterMap Event.frame? :=
  ⟨by decide, (channel_decimation discriminator _ (by decide)).2⟩
/-! ## A call of `on_message` with a length below 2 -/

/-- With a length of at least 2 nothing in front of the buffer is read:
`validate_crc_mem` is `validate_crc`. -/
theorem validate_crc_mem_eq (before msg : Nat → Nat) (len : Nat) (h : 2 ≤ len) :
    validate_crc msg len = some (validate_crc_mem before msg len) := by
  have e : crc_ccitt msg ((len + 254) % 256) = crc_ccitt msg (len - 2) := by
    unfold crc_ccitt
    have : (len + 254) % 256 % 256 = (len - 2) % 256 := by omega
    rw [this]
  unfold validate_crc validate_crc_mem
  rw [if_neg (by omega), if_neg (by omega), if_neg (by omega), e]

theorem on_message_mem_eq (before msg : Nat → Nat) (len : Nat) (h : 2 ≤ len) :
    on_message msg len = on_message_mem before msg len := by
  unfold on_message on_message_mem
  rw [validate_crc_mem_eq before msg len h]
  cases validate_crc_mem before msg len <;> rfl
/-- The CRC-16 of the 255 bytes `42 ff 00 ... 00 b6 4a` is `0x4200`,
evaluated 32 bytes at a time. -/
theorem crc16_spec_wrap :
    crc16_spec (0x42 :: 0xFF :: (List.replicate 251 0 ++ [0xB6, 0x4A])) = 0x4200 := by
  have h0 : [0x42, 0xFF].foldl crc16_spec_byte 65535 = 35350 := by decide!
  have h1 : (List.replicate 32 0).foldl crc16_spec_byte 35350 = 31428 := by decide!
  have h2 : (List.replicate 32 0).foldl crc16_spec_byte 31428 = 34645 := by decide!
  have h3 : (List.replicate 32 0).foldl crc16_spec_byte 34645 = 574 := by decide!
  have h4 : (List.replicate 32 0).foldl crc16_spec_byte 574 = 51454 := by decide!
  have h5 : (List.replicate 32 0).foldl crc16_spec_byte 51454 = 23255 := by decide!
  have h6 : (List.replicate 32 0).foldl crc16_spec_byte 23255 = 14268 := by decide!
  have h7 : (List.replicate 32 0).foldl crc16_spec_byte 14268 = 55779 := by decide!
  have h8 : (List.replicate 27 0).foldl crc16_spec_byte 55779 = 55763 := by decide!
  have h9 : [0xB6, 0x4A].foldl crc16_spec_byte 55763 = 48639 := by decide!
  have e : (0x42 :: 0xFF :: (List.replicate 251 0 ++ [0xB6, 0x4A]) : List Nat)
      = [0x42, 0xFF] ++ (List.replicate (32 + 32 + 32 + 32 + 32 + 32 + 32 + 27) 0
          ++ [0xB6, 0x4A]) := rfl
  apply crc16_spec_of_foldl _ 48639 0x4200 _ (by decide)
  rw [e, List.foldl_append, List.foldl_append, h0, foldl_replicate_add, foldl_replicate_add,
    foldl_replicate_add, foldl_replicate_add, foldl_replicate_add, foldl_replicate_add,
    foldl_replicate_add, h1, h2, h3, h4, h5, h6, h7, h8, h9]

/-- The buffer handed to `on_message` after the bytes `ff ff`, the body
`M ++ [x]` and the byte `y` that wraps to position 0 holds `y`, `ff` and `M`
in its first 255 places. -/
theorem wrapped_buffer (M : List Nat) (hM : M.length = 253) (x y k : Nat) (hk : k < 255) :
    write (write (writeList (write (write (fun _ => 0) 0 255) 1 255) 2 M) (2 + 253) x) 0 y k
      = ofList (y :: 255 :: M) k := by
  unfold ofList
  rcases k with _ | _ | k
  · rw [write_same]; rfl
  · rw [write_other _ _ _ _ (by decide), write_other _ _ _ _ (by omega), writeList_apply,
      if_neg (by omega), write_same]
    rfl
  · rw [write_other _ _ _ _ (by omega), write_other _ _ _ _ (by omega), writeList_apply,
      if_pos (by omega)]
    simp only [List.getD_cons_succ]
    congr 1

theorem on_message_mem_wrap (buf : Nat → Nat)
    (h : ∀ k, k < 255 → buf k = ofList (0x42 :: 255 :: (List.replicate 251 0 ++ [0xB6, 0x4A])) k) :
    on_message_mem (fun _ => 0) buf 1 = Event.emitted [0x42] := by
  have hl : (0x42 :: 255 :: (List.replicate 251 0 ++ [0xB6, 0x4A]) : List Nat).length = 255 := by
    rw [List.length_cons, List.length_cons, List.length_append, List.length_replicate]
    rfl
  have hc : crc_ccitt buf 255 = 0x4200 := by
    rw [crc_ccitt_congr buf _ 255 (fun k hk => h k (by omega)),
      crc_ccitt_eq_spec _ 255 (by decide)]
    have := map_ofList_range (0x42 :: 255 :: (List.replicate 251 0 ++ [0xB6, 0x4A]))
    rw [hl] at this
    rw [this]
    exact crc16_spec_wrap
  have h0 : buf 0 = 0x42 := by
    rw [h 0 (by decide)]
    rfl
  have hv : validate_crc_mem (fun _ => 0) buf 1 = true := by
    unfold validate_crc_mem
    simp only [show (1 + 254) % 256 = 255 by rfl, hc, show (1 : Nat) < 2 by decide, if_true,
      show ¬ (1 : Nat) < 1 by decide, if_false, show 1 - 1 = 0 by rfl, h0]
    decide
  unfold on_message_mem
  rw [if_pos hv]
  have hr : List.range 1 = [0] := rfl
  rw [hr, List.map_cons, List.map_nil, h0]

set_option maxRecDepth 100000 in
/-- C1 (failing input). After the Mode 2 preamble+syncword, the length bytes
`ff ff`, 251 zero bytes and the bytes `b6 4a 00 42`: `msg_len` is `0xFFFF + 2`
reduced to 16 bits, that is 1, the 8-bit position wraps from 255 to 0, the
byte `42` overwrites `msg[0]` and `on_message` is called with length 1.
`validate_crc` then computes the CRC of `msg[0..254]`, which is `0x4200`, and
compares it with `msg[-1] | msg[0] << 8`: with a zero byte in front of the
buffer the check passes and the one-byte line `42` is printed, whose length
is not a declared length plus 2. -/
theorem length_ffff_prints_one_byte :
    (on_symbol (feed init (preambleBits MODE_2_PREAMBLE ++ wrapBody)) 0).2 = Event.fault 1 ∧
      on_message_mem (fun _ => 0)
          (on_symbol (feed init (preambleBits MODE_2_PREAMBLE ++ wrapBody)) 0).1.msg 1
        = Event.emitted [0x42] := by
  have hk : MODE_2_XOR_KEY < 256 := by decide
  obtain ⟨a1, _⟩ := feed_byte_len2_first afterPreamble2 MODE_2_XOR_KEY 0
    (0xFF ^^^ MODE_2_XOR_KEY) _ at_afterPreamble2
  rw [dewhiten_xor _ _ (by decide) hk, line_mode2] at a1
  obtain ⟨b1, _⟩ := feed_byte_len2_second _ MODE_2_XOR_KEY 0
    (0xFF ^^^ MODE_2_XOR_KEY) _ a1
  rw [dewhiten_xor _ _ (by decide) hk, write_same] at b1
  have e1 : (((0xFF <<< 8) ||| 0xFF) % 65536 + 2) % 65536 = 1 := by decide
  rw [e1, line_mode2] at b1
  have hlen : (List.replicate 251 0 ++ [0xB6, 0x4A]).length = 253 := by
    rw [List.length_append, List.length_replicate]
    rfl
  obtain ⟨c1, _⟩ := feed_body_gen (List.replicate 251 0 ++ [0xB6, 0x4A]) _ MODE_2
    MODE_2_XOR_KEY 1 2 _ b1 (Or.inr rfl) hk
    (by
      intro v hv
      rcases List.mem_append.mp hv with hv | hv
      · rw [List.eq_of_mem_replicate hv]; decide
      · simp only [List.mem_cons, List.mem_singleton, List.not_mem_nil, or_false] at hv
        rcases hv with rfl | rfl <;> decide)
    (Nat.le_of_eq (by rw [hlen])) (by intro j h1 _; omega)
  rw [hlen, line_mode2] at c1
  obtain ⟨d0, _⟩ := feed_byte_body_more _ MODE_2 MODE_2_XOR_KEY 1 (2 + 253)
    (0 ^^^ MODE_2_XOR_KEY) _ c1 (Or.inr rfl) (by decide)
  have e3 : (2 + 253 + 1) % 256 = 0 := by decide
  rw [e3, dewhiten_xor _ _ (by decide) hk, line_mode2] at d0
  obtain ⟨d1, _⟩ := feed_high _ _ _ _ _ _ (0x42 ^^^ MODE_2_XOR_KEY) _ d0 (Or.inr rfl)
    (Or.inr rfl)
  rw [line_mode2] at d1
  have e := on_symbol_done_event _ MODE_2 _ _ _ 0 _ d1 (Or.inr rfl) (by decide)
  have m := feed_sym_last_msg _ _ MODE_2 _ _ _ (((0x42 ^^^ MODE_2_XOR_KEY) >>> 0) % 2) _ d1
    (Or.inr rfl) (Or.inr rfl)
  rw [last_write, dewhiten_xor _ _ (by decide) hk] at m
  have e0 : feed init (preambleBits MODE_2_PREAMBLE) = afterPreamble2 := rfl
  have e2 : wrapBody
      = bitsMSB (0xFF ^^^ MODE_2_XOR_KEY) ++ (bitsMSB (0xFF ^^^ MODE_2_XOR_KEY) ++
          (wireBits MODE_2_XOR_KEY (List.replicate 251 0 ++ [0xB6, 0x4A]) ++
            (bitsMSB (0 ^^^ MODE_2_XOR_KEY) ++ bitsHigh (0x42 ^^^ MODE_2_XOR_KEY)))) := by
    unfold wrapBody
    rw [wireBits_append, show [0xFF, 0xFF] = [0xFF] ++ [0xFF] from rfl, wireBits_append,
      wireBits_single, wireBits_single]
    simp only [List.append_assoc]
  have hsym : sym MODE_2 (((0x42 ^^^ MODE_2_XOR_KEY) >>> 0) % 2) = [0] := by decide
  have hf : ∀ S : Framer, feed S [0] = (on_symbol S 0).1 := fun _ => rfl
  rw [hsym, hf] at m
  rw [feed_append, e0, e2, feed_append, feed_append, feed_append, feed_append, e, m]
  exact ⟨on_message_short _ 1 (by decide),
    on_message_mem_wrap _ (fun k hk => wrapped_buffer _ hlen 0 0x42 k hk)⟩

end EaReceiver
